import Mathlib

/-! # Snake game (`script.js`) and its file server (`serve.mjs`): shallow embedding and
verified properties

The global variables of `script.js` become the fields of `State`; every function of the
script that reads or writes them becomes a function on `State`.  The browser objects the
script talks to are modelled explicitly where the game logic depends on them:

* `localStorage` item `"snake-best-score"`: field `storage`;
* the page's table of interval timers (`setInterval` / `clearInterval`): fields `timers`
  and `lastTimerId`;
* `Math.random()`: the list of values it is going to return, passed as an argument and
  handed back with the values that were not consumed;
* `canvas.width`: the parameter `canvasWidth` (the HTML page is not part of the sources).

Writes to the DOM (`textContent`) and the canvas drawing (`draw`) do not feed back into the
game state and are left out.

Of `serve.mjs` the functions `safePath`, `sendFile` and the request handler are embedded,
with the functions of Node they call (`decodeURIComponent`, and `normalize`, `join` and
`extname` of `node:path` in their POSIX flavour) on lists of characters; the served root
`cwd()` and the file system are parameters.
-/

namespace Snake

/-! ## Numbers and strings of the host language -/

/-- A JavaScript number, without rounding to binary64: a finite value is kept as the exact
rational it denotes. -/
inductive JSNumber where
  | nan
  | negInf
  | fin (q : ℚ)
  | posInf
deriving DecidableEq, Repr

namespace JSNumber

/-- The number value of a natural. -/
def ofNat (n : ℕ) : JSNumber := fin n

/-- The number `0`. -/
def zero : JSNumber := fin 0

/-- The test `Number.isNaN`. -/
def isNaN : JSNumber → Bool
  | nan => true
  | _ => false

/-- The relational operator `a < b` on numbers: false as soon as one side is `NaN`. -/
def lt : JSNumber → JSNumber → Bool
  | nan, _ => false
  | _, nan => false
  | negInf, negInf => false
  | negInf, _ => true
  | fin _, negInf => false
  | fin a, fin b => decide (a < b)
  | fin _, posInf => true
  | posInf, _ => false

end JSNumber

/-- The code points of `StrWhiteSpaceChar` (white space and line terminators). -/
def isStrWhiteSpace (c : Char) : Bool :=
  let n := c.toNat
  n = 0x09 || n = 0x0A || n = 0x0B || n = 0x0C || n = 0x0D || n = 0x20 || n = 0xA0 ||
  n = 0x1680 || (0x2000 ≤ n && n ≤ 0x200A) || n = 0x2028 || n = 0x2029 || n = 0x202F ||
  n = 0x205F || n = 0x3000 || n = 0xFEFF

/-- The value of a digit in a base up to 16, if the character is such a digit. -/
def digitValue (base : ℕ) (c : Char) : Option ℕ :=
  let n := c.toNat
  let v : Option ℕ :=
    if 48 ≤ n ∧ n ≤ 57 then some (n - 48)
    else if 97 ≤ n ∧ n ≤ 102 then some (n - 87)
    else if 65 ≤ n ∧ n ≤ 70 then some (n - 55)
    else none
  match v with
  | some d => if d < base then some d else none
  | none => none

/-- The value of a non-empty run of digits in the given base; `none` when the run is empty or
holds another character. -/
def digitsValue (base : ℕ) (cs : List Char) : Option ℕ :=
  match cs with
  | [] => none
  | _ => cs.foldl (fun acc c =>
      match acc, digitValue base c with
      | some a, some d => some (a * base + d)
      | _, _ => none) (some 0)

/-- Split off the longest prefix of decimal digits. -/
def spanDigits (cs : List Char) : List Char × List Char :=
  cs.span (fun c => (digitValue 10 c).isSome)

/-- The value of a run of decimal digits that may be empty (value `0`). -/
def decimalValue (cs : List Char) : ℕ :=
  cs.foldl (fun acc c => acc * 10 + ((digitValue 10 c).getD 0)) 0

/-- An optional `ExponentPart`: the exponent, or `none` when the text is not an exponent
part. -/
def parseExponent (cs : List Char) : Option ℤ :=
  match cs with
  | [] => some 0
  | e :: rest =>
    if e = 'e' ∨ e = 'E' then
      match rest with
      | '+' :: ds => (digitsValue 10 ds).map (fun n => (n : ℤ))
      | '-' :: ds => (digitsValue 10 ds).map (fun n => -(n : ℤ))
      | ds => (digitsValue 10 ds).map (fun n => (n : ℤ))
    else none

/-- A `StrUnsignedDecimalLiteral` other than `Infinity`: digits, an optional fraction, an
optional exponent. -/
def parseUnsignedDecimal (cs : List Char) : Option ℚ :=
  let (intDigits, rest) := spanDigits cs
  let (hasDot, fracDigits, rest2) : Bool × List Char × List Char :=
    match rest with
    | '.' :: r => let (f, r2) := spanDigits r; (true, f, r2)
    | r => (false, [], r)
  if intDigits = [] ∧ fracDigits = [] then none
  else if intDigits = [] ∧ hasDot = false then none
  else
    match parseExponent rest2 with
    | none => none
    | some e =>
      some (((decimalValue intDigits : ℚ) +
        (decimalValue fracDigits : ℚ) / (10 : ℚ) ^ fracDigits.length) * (10 : ℚ) ^ e)

/-- A `StrNumericLiteral`: a signed decimal literal, `Infinity` with an optional sign, or an
unsigned binary, octal or hexadecimal integer. -/
def parseNumericLiteral (cs : List Char) : JSNumber :=
  match cs with
  | '0' :: 'x' :: ds | '0' :: 'X' :: ds =>
    match digitsValue 16 ds with
    | some n => .fin n
    | none => .nan
  | '0' :: 'o' :: ds | '0' :: 'O' :: ds =>
    match digitsValue 8 ds with
    | some n => .fin n
    | none => .nan
  | '0' :: 'b' :: ds | '0' :: 'B' :: ds =>
    match digitsValue 2 ds with
    | some n => .fin n
    | none => .nan
  | '-' :: body =>
    if body = "Infinity".toList then .negInf
    else match parseUnsignedDecimal body with
      | some q => .fin (-q)
      | none => .nan
  | '+' :: body =>
    if body = "Infinity".toList then .posInf
    else match parseUnsignedDecimal body with
      | some q => .fin q
      | none => .nan
  | body =>
    if body = "Infinity".toList then .posInf
    else match parseUnsignedDecimal body with
      | some q => .fin q
      | none => .nan

/-- Remove leading and trailing `StrWhiteSpaceChar`s. -/
def trimStrWhiteSpace (cs : List Char) : List Char :=
  ((cs.dropWhile isStrWhiteSpace).reverse.dropWhile isStrWhiteSpace).reverse

/-- The value `Number(str)` of a string (`StringToNumber`): white space is trimmed, the empty
text is `0`, a text that is no `StrNumericLiteral` is `NaN`. -/
def toNumber (str : String) : JSNumber :=
  match trimStrWhiteSpace str.toList with
  | [] => .fin 0
  | cs => parseNumericLiteral cs

/-- The decimal digits of a natural number. -/
def digitChars (n : ℕ) : List Char := Nat.toDigits 10 n

/-- Strip the trailing zeros of a positive natural: the stripped number and how many zeros
were removed.  The first argument bounds the number of steps. -/
def stripZeros : ℕ → ℕ → ℕ × ℕ
  | 0, m => (m, 0)
  | fuel + 1, m =>
    if m ≠ 0 ∧ m % 10 = 0 then
      let (s, t) := stripZeros fuel (m / 10)
      (s, t + 1)
    else (m, 0)

/-- The least `j` (searched up to the bound) with `q * 10 ^ j` an integer, and that integer. -/
def scaleToInteger : ℕ → ℚ → ℕ → ℕ × ℕ
  | 0, q, j => (j, q.num.natAbs / q.den)
  | fuel + 1, q, j =>
    if q.den = 1 then (j, q.num.natAbs) else scaleToInteger fuel (q * 10) (j + 1)

/-- The string `Number::toString` gives in radix 10 for a positive finite value: with `s`
the significant digits (`k` of them) and `n` the position of the decimal point, plain
notation for `-5 ≤ n ≤ 21` and exponent notation otherwise. -/
def positiveToString (q : ℚ) : String :=
  let (j, m) := scaleToInteger q.den q 0
  let (s, t) := stripZeros m m
  let ds := digitChars s
  let k : ℤ := ds.length
  let n : ℤ := k + t - j
  if -5 ≤ n ∧ n ≤ 21 then
    if k ≤ n then String.mk (ds ++ List.replicate (n - k).toNat '0')
    else if 0 < n then String.mk (ds.take n.toNat ++ '.' :: ds.drop n.toNat)
    else String.mk ('0' :: '.' :: (List.replicate (-n).toNat '0' ++ ds))
  else
    let c := n - 1
    let e := (if 0 ≤ c then '+' else '-') :: digitChars c.natAbs
    match ds with
    | [d] => String.mk (d :: 'e' :: e)
    | d :: more => String.mk (d :: '.' :: (more ++ 'e' :: e))
    | [] => String.mk ('e' :: e)

/-- The string `String(x)` of a number (`Number::toString`, radix 10). -/
def numberToString : JSNumber → String
  | .nan => "NaN"
  | .posInf => "Infinity"
  | .negInf => "-Infinity"
  | .fin q =>
    if q = 0 then "0"
    else if q < 0 then "-" ++ positiveToString (-q)
    else positiveToString q

/-! ## Game state -/

/-- A grid cell `{x, y}`; also used for a direction vector. -/
structure Point where
  x : ℤ
  y : ℤ
deriving DecidableEq, Repr

/-- The global variables of `script.js` together with the parts of the browser the game
logic reads back: the stored best score and the page's interval timers. -/
structure State where
  /-- Segments of the snake, head first. -/
  snake : List Point
  direction : Point
  nextDirection : Point
  food : Point
  score : ℕ
  bestScore : JSNumber
  /-- Id of the running tick timer; `none` for `null` / `undefined`. -/
  gameInterval : Option ℕ
  gameSpeed : ℤ
  started : Bool
  paused : Bool
  /-- Value of the `localStorage` item `"snake-best-score"`; `none` when the key is absent. -/
  storage : Option String
  /-- Interval timers of the page that are active: timer id and delay in milliseconds.  Every
  one of them calls `tick`. -/
  timers : List (ℕ × ℤ)
  /-- The last timer id handed out by `setInterval`; ids are positive. -/
  lastTimerId : ℕ
deriving DecidableEq, Repr

/-- How a call can fail to return. -/
inductive Fault where
  /-- A `TypeError` was thrown (a property of `undefined` was read). -/
  | typeError
  /-- The loop of `randomFoodPosition` used up all the random values supplied and had not
  found a free cell. -/
  | starved
deriving DecidableEq, Repr

/-- Result of a call that may draw random values: the new state and the values of
`Math.random()` not yet consumed. -/
abbrev Outcome := Except Fault (State × List ℚ)

def gridSize : ℕ := 20

/-- Number of tiles per side: `canvas.width / gridSize`, a number that need not be whole. -/
def tileCount (canvasWidth : ℕ) : ℚ := (canvasWidth : ℚ) / (gridSize : ℚ)

def initialSpeed : ℤ := 140

def minSpeed : ℤ := 80

/-- The table `directionMap` with its own properties: a key that is not in the table gives
`undefined` here.  In the script the lookup `directionMap[key]` also finds the properties
every object inherits from `Object.prototype` (`constructor`, `toString`, ...); their values
are truthy and have no `x` and `y`, and a direction of that kind is outside `State`.
Statements that depend on the direction or on the cells of the snake are therefore made for
runs with the eight keys of the table (`MappedReachable`). -/
def directionMap (key : String) : Option Point :=
  if key = "ArrowUp" then some ⟨0, -1⟩
  else if key = "ArrowDown" then some ⟨0, 1⟩
  else if key = "ArrowLeft" then some ⟨-1, 0⟩
  else if key = "ArrowRight" then some ⟨1, 0⟩
  else if key = "w" then some ⟨0, -1⟩
  else if key = "s" then some ⟨0, 1⟩
  else if key = "a" then some ⟨-1, 0⟩
  else if key = "d" then some ⟨1, 0⟩
  else none

/-- Truthiness of a timer handle: `null`, `undefined` and `0` are falsy. -/
def handleActive : Option ℕ → Bool
  | none => false
  | some id => id != 0

/-- The loop condition `snake?.some(segment => segment.x === pos.x && segment.y === pos.y)`;
an undefined `snake` makes it falsy. -/
def occupied (snake : Option (List Point)) (pos : Point) : Bool :=
  match snake with
  | none => false
  | some segs => segs.any (fun segment => segment.x == pos.x && segment.y == pos.y)

/-- The `do ... while` loop of `randomFoodPosition`: every round takes two values of
`Math.random()`, first for `x`, then for `y`. -/
def randomFoodPosition (canvasWidth : ℕ) (snake : Option (List Point)) :
    List ℚ → Except Fault (Point × List ℚ)
  | r1 :: r2 :: rest =>
    let pos : Point := ⟨⌊r1 * tileCount canvasWidth⌋, ⌊r2 * tileCount canvasWidth⌋⟩
    if occupied snake pos then randomFoodPosition canvasWidth snake rest
    else .ok (pos, rest)
  | _ => .error .starved

def startLoop (s : State) : State :=
  if !handleActive s.gameInterval then
    { s with
      gameInterval := some (s.lastTimerId + 1)
      timers := s.timers ++ [(s.lastTimerId + 1, s.gameSpeed)]
      lastTimerId := s.lastTimerId + 1 }
  else s

def stopLoop (s : State) : State :=
  match s.gameInterval with
  | some id =>
    if id != 0 then
      { s with timers := s.timers.filter (fun t => t.1 != id), gameInterval := none }
    else s
  | none => s

def restartLoop (s : State) : State :=
  startLoop (stopLoop s)

def gameOver (s : State) : State :=
  { stopLoop s with started := false }

def saveBestScore (s : State) : State :=
  { s with storage := some (numberToString s.bestScore) }

def loadBestScore (s : State) : State :=
  let saved := s.storage
  let s1 : State :=
    { s with bestScore :=
        match saved with
        | some str => if str ≠ "" then toNumber str else JSNumber.zero
        | none => JSNumber.zero }
  if s1.bestScore.isNaN then { s1 with bestScore := JSNumber.zero } else s1

def resetGame (canvasWidth : ℕ) (s : State) (draws : List ℚ) : Outcome :=
  let s : State := { s with snake := [⟨9, 10⟩, ⟨8, 10⟩, ⟨7, 10⟩] }
  let s : State := { s with direction := ⟨1, 0⟩ }
  let s : State := { s with nextDirection := s.direction }
  match randomFoodPosition canvasWidth (some s.snake) draws with
  | .error e => .error e
  | .ok (pos, rest) =>
    let s : State := { s with food := pos }
    let s : State := { s with score := 0 }
    let s : State := { s with gameSpeed := initialSpeed }
    let s : State := { s with started := false }
    let s : State := { s with paused := false }
    .ok (stopLoop s, rest)

def tick (canvasWidth : ℕ) (s : State) (draws : List ℚ) : Outcome :=
  if s.paused then .ok (s, draws)
  else
    let s : State := { s with direction := s.nextDirection }
    match s.snake with
    | [] => .error .typeError
    | first :: _ =>
      let head : Point := ⟨first.x + s.direction.x, first.y + s.direction.y⟩
      let outOfBounds : Bool :=
        decide ((head.x : ℚ) < 0) || decide ((head.x : ℚ) ≥ tileCount canvasWidth) ||
        decide ((head.y : ℚ) < 0) || decide ((head.y : ℚ) ≥ tileCount canvasWidth)
      let hitSelf : Bool :=
        s.snake.any (fun segment => segment.x == head.x && segment.y == head.y)
      if outOfBounds || hitSelf then .ok (gameOver s, draws)
      else
        let s : State := { s with snake := head :: s.snake }
        let ateFood : Bool := head.x == s.food.x && head.y == s.food.y
        if ateFood then
          let s : State := { s with score := s.score + 1 }
          match randomFoodPosition canvasWidth (some s.snake) draws with
          | .error e => .error e
          | .ok (pos, rest) =>
            let s : State := { s with food := pos }
            let s : State :=
              if JSNumber.lt s.bestScore (JSNumber.ofNat s.score) then
                saveBestScore { s with bestScore := JSNumber.ofNat s.score }
              else s
            let s : State :=
              if s.gameSpeed > minSpeed then
                restartLoop { s with gameSpeed := max minSpeed (s.gameSpeed - 4) }
              else s
            .ok (s, rest)
        else
          .ok ({ s with snake := s.snake.dropLast }, draws)

def setDirection (s : State) (newDirection : Point) : State :=
  let isOpposite : Bool :=
    newDirection.x + s.direction.x == 0 && newDirection.y + s.direction.y == 0
  if !isOpposite then { s with nextDirection := newDirection } else s

def togglePause (s : State) : State :=
  if !s.started then s
  else { s with paused := !s.paused }

def handleMoveKey (canvasWidth : ℕ) (s : State) (key : String) (draws : List ℚ) : Outcome :=
  match directionMap key with
  | none => .ok (s, draws)
  | some newDirection =>
    if !s.started then
      match resetGame canvasWidth s draws with
      | .error e => .error e
      | .ok (s, rest) =>
        let s : State := { s with started := true }
        let s := setDirection s newDirection
        .ok (startLoop s, rest)
    else if !s.paused then .ok (setDirection s newDirection, draws)
    else .ok (s, draws)

/-! ## Runs of the page -/

/-- The variables as they are when the script starts to run: the timer table is empty and
`gameInterval` is `undefined`. The other variables are `undefined` too; the values given
here stand in for that and are never read, because `loadBestScore` and `resetGame` assign
each of them before its first use. -/
def pageLoad (storage : Option String) : State :=
  { snake := []
    direction := ⟨0, 0⟩
    nextDirection := ⟨0, 0⟩
    food := ⟨0, 0⟩
    score := 0
    bestScore := JSNumber.nan
    gameInterval := none
    gameSpeed := 0
    started := false
    paused := false
    storage := storage
    timers := []
    lastTimerId := 0 }

/-- The last two statements of the script: `loadBestScore(); resetGame();`. -/
def boot (canvasWidth : ℕ) (storage : Option String) (draws : List ℚ) : Outcome :=
  resetGame canvasWidth (loadBestScore (pageLoad storage)) draws

/-- The calls the page makes once the script is loaded: the timer callback, the two branches
of the `keydown` listener and the click on the restart button. -/
inductive Call where
  | tick
  | handleMoveKey (key : String)
  | togglePause
  | resetGame
deriving DecidableEq, Repr

/-- Perform one call. -/
def Call.run (canvasWidth : ℕ) (s : State) (draws : List ℚ) : Call → Outcome
  | .tick => Snake.tick canvasWidth s draws
  | .handleMoveKey key => Snake.handleMoveKey canvasWidth s key draws
  | .togglePause => .ok (Snake.togglePause s, draws)
  | .resetGame => Snake.resetGame canvasWidth s draws

/-- Perform a sequence of calls, feeding each the random values the previous ones left. -/
def runCalls (canvasWidth : ℕ) (s : State) (draws : List ℚ) : List Call → Outcome
  | [] => .ok (s, draws)
  | c :: cs =>
    match c.run canvasWidth s draws with
    | .error e => .error e
    | .ok (s1, rest) => runCalls canvasWidth s1 rest cs

/-- States the game can be in: after the script has loaded, and after any further call that
returns, whatever the stored best score and the random values are. -/
inductive Reachable (canvasWidth : ℕ) : State → Prop where
  | boot (storage : Option String) (draws rest : List ℚ) (s : State) :
      Snake.boot canvasWidth storage draws = .ok (s, rest) → Reachable canvasWidth s
  | call (s s1 : State) (c : Call) (draws rest : List ℚ) :
      Reachable canvasWidth s → c.run canvasWidth s draws = .ok (s1, rest) →
      Reachable canvasWidth s1

/-- A cell of the grid: both coordinates in `[0, tileCount)`. -/
def InGrid (canvasWidth : ℕ) (p : Point) : Prop :=
  0 ≤ (p.x : ℚ) ∧ (p.x : ℚ) < tileCount canvasWidth ∧
  0 ≤ (p.y : ℚ) ∧ (p.y : ℚ) < tileCount canvasWidth

instance (canvasWidth : ℕ) (p : Point) : Decidable (InGrid canvasWidth p) := by
  unfold InGrid; infer_instance

/-- The tick timer is running: `gameInterval` holds the id of an active timer of the page. -/
def TimerRunning (s : State) : Prop :=
  ∃ id delay, s.gameInterval = some id ∧ id ≠ 0 ∧ (id, delay) ∈ s.timers

/-- The snake of a new game. -/
def initialSnake : List Point := [⟨9, 10⟩, ⟨8, 10⟩, ⟨7, 10⟩]

/-! ## Vocabulary of the statements -/

/-- The cell in front of the head along the queued direction. -/
def aheadOf (first : Point) (s : State) : Point :=
  ⟨first.x + s.nextDirection.x, first.y + s.nextDirection.y⟩

/-- The best-score update of the eating branch of `tick`. -/
def recordBest (s : State) : State :=
  if JSNumber.lt s.bestScore (JSNumber.ofNat s.score) then
    saveBestScore { s with bestScore := JSNumber.ofNat s.score }
  else s

/-- The speed-up of the eating branch of `tick`. -/
def speedUp (s : State) : State :=
  if s.gameSpeed > minSpeed then
    restartLoop { s with gameSpeed := max minSpeed (s.gameSpeed - 4) }
  else s

/-- The state after the eating branch of `tick`, given the new head and the new food cell. -/
def afterEat (s : State) (head pos : Point) : State :=
  speedUp (recordBest { s with
    direction := s.nextDirection
    snake := head :: s.snake
    score := s.score + 1
    food := pos })

/-- The state `resetGame` leaves, given the food cell that was drawn. -/
def afterReset (s : State) (pos : Point) : State :=
  stopLoop { s with
    snake := initialSnake
    direction := ⟨1, 0⟩
    nextDirection := ⟨1, 0⟩
    food := pos
    score := 0
    gameSpeed := initialSpeed
    started := false
    paused := false }

/-- A game that has just been reset on a 400 pixel canvas, with the food in the corner. -/
def freshGame : State :=
  { snake := [⟨9, 10⟩, ⟨8, 10⟩, ⟨7, 10⟩]
    direction := ⟨1, 0⟩
    nextDirection := ⟨1, 0⟩
    food := ⟨0, 0⟩
    score := 0
    bestScore := JSNumber.fin 0
    gameInterval := none
    gameSpeed := 140
    started := false
    paused := false
    storage := none
    timers := []
    lastTimerId := 0 }

/-- The four unit vectors. -/
def unitVectors : List Point := [⟨0, -1⟩, ⟨0, 1⟩, ⟨-1, 0⟩, ⟨1, 0⟩]

/-- The state the first movement key of a game leaves: the game is reset, marked as started,
the direction is queued and the timer is started. -/
def afterStart (s : State) (pos d : Point) : State :=
  startLoop (setDirection { afterReset s pos with started := true } d)

/-- The exact reverse of a direction. -/
def Opposite (a b : Point) : Prop := a.x + b.x = 0 ∧ a.y + b.y = 0

instance (a b : Point) : Decidable (Opposite a b) := by
  unfold Opposite; infer_instance

/-- The direction invariant: the queued direction is a unit vector and is not the reverse of
the current direction. -/
def DirectionsOk (s : State) : Prop :=
  s.nextDirection ∈ unitVectors ∧ ¬ Opposite s.nextDirection s.direction

instance {ε α : Type} [DecidableEq ε] [DecidableEq α] : DecidableEq (Except ε α) := fun a b =>
  match a, b with
  | .ok x, .ok y =>
    if h : x = y then isTrue (by rw [h]) else isFalse (fun hh => h (by cases hh; rfl))
  | .error x, .error y =>
    if h : x = y then isTrue (by rw [h]) else isFalse (fun hh => h (by cases hh; rfl))
  | .ok _, .error _ => isFalse (fun hh => by cases hh)
  | .error _, .ok _ => isFalse (fun hh => by cases hh)

/-- The number `b` is at least `a`: the same number, or a greater one. -/
def NotBelow (a b : JSNumber) : Prop := b = a ∨ JSNumber.lt a b = true

/-- A running game on a 400 pixel canvas whose head is at the right wall. -/
def atRightWall : State :=
  { snake := [⟨19, 10⟩, ⟨18, 10⟩, ⟨17, 10⟩]
    direction := ⟨1, 0⟩
    nextDirection := ⟨1, 0⟩
    food := ⟨0, 0⟩
    score := 0
    bestScore := JSNumber.fin 0
    gameInterval := some 1
    gameSpeed := 140
    started := true
    paused := false
    storage := none
    timers := [(1, 140)]
    lastTimerId := 1 }

/-- A running game on a 400 pixel canvas with the food right in front of the head. -/
def foodAhead : State :=
  { snake := [⟨9, 10⟩, ⟨8, 10⟩, ⟨7, 10⟩]
    direction := ⟨1, 0⟩
    nextDirection := ⟨1, 0⟩
    food := ⟨10, 10⟩
    score := 0
    bestScore := JSNumber.fin 0
    gameInterval := some 1
    gameSpeed := 140
    started := true
    paused := false
    storage := none
    timers := [(1, 140)]
    lastTimerId := 1 }

/-- The state of `foodAhead` one tick later, the new food drawn in the corner. -/
def foodEaten : State :=
  { snake := [⟨10, 10⟩, ⟨9, 10⟩, ⟨8, 10⟩, ⟨7, 10⟩]
    direction := ⟨1, 0⟩
    nextDirection := ⟨1, 0⟩
    food := ⟨0, 0⟩
    score := 1
    bestScore := JSNumber.fin 1
    gameInterval := some 2
    gameSpeed := 136
    started := true
    paused := false
    storage := some "1"
    timers := [(2, 136)]
    lastTimerId := 2 }

/-- A game on a 400 pixel canvas that was started with `ArrowUp`. -/
def startedUp : State :=
  { snake := [⟨9, 10⟩, ⟨8, 10⟩, ⟨7, 10⟩]
    direction := ⟨1, 0⟩
    nextDirection := ⟨0, -1⟩
    food := ⟨0, 0⟩
    score := 0
    bestScore := JSNumber.fin 0
    gameInterval := some 1
    gameSpeed := 140
    started := true
    paused := false
    storage := none
    timers := [(1, 140)]
    lastTimerId := 1 }

/-- A game on a 400 pixel canvas that was started with `ArrowUp` and then paused. -/
def pausedGame : State :=
  { snake := [⟨9, 10⟩, ⟨8, 10⟩, ⟨7, 10⟩]
    direction := ⟨1, 0⟩
    nextDirection := ⟨0, -1⟩
    food := ⟨0, 0⟩
    score := 0
    bestScore := JSNumber.fin 0
    gameInterval := some 1
    gameSpeed := 140
    started := true
    paused := true
    storage := none
    timers := [(1, 140)]
    lastTimerId := 1 }

/-- A game on a 400 pixel canvas, started with `ArrowDown`, nine ticks later: the head is in
the bottom row. -/
def atBottomWall : State :=
  { snake := [⟨9, 19⟩, ⟨9, 18⟩, ⟨9, 17⟩]
    direction := ⟨0, 1⟩
    nextDirection := ⟨0, 1⟩
    food := ⟨0, 0⟩
    score := 0
    bestScore := JSNumber.fin 0
    gameInterval := some 1
    gameSpeed := 140
    started := true
    paused := false
    storage := none
    timers := [(1, 140)]
    lastTimerId := 1 }

/-- The state of `atBottomWall` one tick later: the game is over. -/
def crashed : State :=
  { atBottomWall with gameInterval := none, timers := [], started := false }

/-- The state of `crashed` after the key `ArrowUp`: a new game, started. -/
def restartedUp : State :=
  { snake := [⟨9, 10⟩, ⟨8, 10⟩, ⟨7, 10⟩]
    direction := ⟨1, 0⟩
    nextDirection := ⟨0, -1⟩
    food := ⟨0, 0⟩
    score := 0
    bestScore := JSNumber.fin 0
    gameInterval := some 2
    gameSpeed := 140
    started := true
    paused := false
    storage := none
    timers := [(2, 140)]
    lastTimerId := 2 }

/-- The state of `restartedUp` one tick later. -/
def movedUp : State :=
  { restartedUp with snake := [⟨9, 9⟩, ⟨9, 10⟩, ⟨8, 10⟩], direction := ⟨0, -1⟩ }

/-- The speed the score determines: 140 ms, 4 ms less per food, not below 80 ms. -/
def speedFor (score : ℕ) : ℤ := max 80 (140 - 4 * (score : ℤ))

/-- The cell behind `p` along the direction `d`. -/
def behind (p d : Point) : Point := ⟨p.x - d.x, p.y - d.y⟩

/-- The neck invariant: the snake has at least two segments and the second one lies behind
the head along some direction `d` of which the queued direction is not the reverse; `d` is
the current direction, except possibly in a game that is over, where the tick that ended it
committed its direction without moving the snake. -/
def NeckOk (s : State) : Prop :=
  ∃ (seg0 seg1 : Point) (rest : List Point) (d : Point),
    s.snake = seg0 :: seg1 :: rest ∧ seg1 = behind seg0 d ∧ ¬ Opposite s.nextDirection d ∧
    s.nextDirection ∈ unitVectors ∧
    (d = s.direction ∨ (s.started = false ∧ s.nextDirection = s.direction))

/-- The game of `atBottomWall` after a turn to the right, one tick, a turn downwards and the
tick that runs the head into the bottom wall. -/
def crashedAfterTurn : State :=
  { snake := [⟨10, 19⟩, ⟨9, 19⟩, ⟨9, 18⟩]
    direction := ⟨0, 1⟩
    nextDirection := ⟨0, 1⟩
    food := ⟨0, 0⟩
    score := 0
    bestScore := JSNumber.fin 0
    gameInterval := none
    gameSpeed := 140
    started := false
    paused := false
    storage := none
    timers := []
    lastTimerId := 1 }

/-- The values `Math.random()` can return: numbers in `[0, 1)`. -/
def ValidDraws (draws : List ℚ) : Prop := ∀ r ∈ draws, 0 ≤ r ∧ r < 1

instance (draws : List ℚ) : Decidable (ValidDraws draws) := by
  unfold ValidDraws; infer_instance

/-- States the game can be in when the page runs in a browser: `Math.random()` returns values
in `[0, 1)`, and `tick` is called only by an interval timer that is active. -/
inductive PageReachable (canvasWidth : ℕ) : State → Prop where
  | boot (storage : Option String) (draws rest : List ℚ) (s : State) :
      ValidDraws draws → Snake.boot canvasWidth storage draws = .ok (s, rest) →
      PageReachable canvasWidth s
  | timer (s s1 : State) (draws rest : List ℚ) :
      PageReachable canvasWidth s → s.timers ≠ [] → ValidDraws draws →
      Snake.tick canvasWidth s draws = .ok (s1, rest) → PageReachable canvasWidth s1
  | handleMoveKey (s s1 : State) (key : String) (draws rest : List ℚ) :
      PageReachable canvasWidth s → ValidDraws draws →
      Snake.handleMoveKey canvasWidth s key draws = .ok (s1, rest) →
      PageReachable canvasWidth s1
  | togglePause (s : State) :
      PageReachable canvasWidth s → PageReachable canvasWidth (Snake.togglePause s)
  | resetGame (s s1 : State) (draws rest : List ℚ) :
      PageReachable canvasWidth s → ValidDraws draws →
      Snake.resetGame canvasWidth s draws = .ok (s1, rest) → PageReachable canvasWidth s1

/-- The timer invariant: in a started game `gameInterval` holds the id of the only active
timer, whose delay is `gameSpeed`; otherwise no timer is active. -/
def TimerOk (s : State) : Prop :=
  (s.started = true ∧ ∃ id, id ≠ 0 ∧ s.gameInterval = some id ∧
    s.timers = [(id, s.gameSpeed)]) ∨
  (s.started = false ∧ s.timers = [] ∧ handleActive s.gameInterval = false)

/-- The shape of the timer table that `TimerOk` allows, whatever `gameSpeed` is. -/
def TimerShape (s : State) : Prop :=
  (∃ id delay, id ≠ 0 ∧ s.gameInterval = some id ∧ s.timers = [(id, delay)]) ∨
  (s.timers = [] ∧ handleActive s.gameInterval = false)

/-- The first `n` values of a sequence of random values. -/
def firstDraws (σ : ℕ → ℚ) (n : ℕ) : List ℚ := (List.range n).map σ

/-- All cells of an 11 by 11 grid along a path that winds through the rows, starting in the
corner `(0,0)`. -/
def serpentine : List Point :=
  (List.range 11).flatMap (fun y =>
    (if y % 2 = 0 then List.range 11 else (List.range 11).reverse).map
      (fun x => (⟨(x : ℤ), (y : ℤ)⟩ : Point)))

/-- A game on a 220 pixel canvas (11 by 11 tiles) in which the snake covers every cell but
the corner, where the food is, and is about to eat it. -/
def lastCell : State :=
  { snake := serpentine.tail
    direction := ⟨-1, 0⟩
    nextDirection := ⟨-1, 0⟩
    food := ⟨0, 0⟩
    score := 117
    bestScore := JSNumber.fin 117
    gameInterval := some 17
    gameSpeed := 80
    started := true
    paused := false
    storage := some "117"
    timers := [(17, 80)]
    lastTimerId := 17 }

/-- The number `loadBestScore` takes from a stored value. -/
def loadedNumber (saved : Option String) : JSNumber :=
  (loadBestScore (pageLoad saved)).bestScore

/-- A non-negative whole number. -/
def IsNatural (x : JSNumber) : Prop := ∃ n : ℕ, x = JSNumber.ofNat n

/-- A fresh game on a 400 pixel canvas after the stored best score `"-5"` was loaded. -/
def negativeBest : State :=
  { freshGame with bestScore := JSNumber.fin (-5), storage := some "-5" }

/-- A decimal digit character. -/
def IsDigitChar (c : Char) : Prop := 48 ≤ c.toNat ∧ c.toNat ≤ 57

instance (c : Char) : Decidable (IsDigitChar c) := by
  unfold IsDigitChar; infer_instance

/-! ## The static file server (`serve.mjs`) -/

/-- The octet written `%ab`, when `a` and `b` are hexadecimal digits. -/
def hexOctet (a b : Char) : Option ℕ :=
  match digitValue 16 a, digitValue 16 b with
  | some x, some y => some (16 * x + y)
  | _, _ => none

/-- First pass of `decodeURIComponent`: every `%` must start an escape `%XX`; the result
lists the plain characters (left) and the octets of the escapes (right). -/
def escapeTokens : List Char → Option (List (Char ⊕ ℕ))
  | '%' :: a :: b :: rest =>
    match hexOctet a b with
    | some o => (escapeTokens rest).map (fun ts => Sum.inr o :: ts)
    | none => none
  | '%' :: _ => none
  | c :: rest => (escapeTokens rest).map (fun ts => Sum.inl c :: ts)
  | [] => some []

/-- A continuation octet `10xxxxxx` of UTF-8. -/
def isContinuation (o : ℕ) : Bool := 0x80 ≤ o && o < 0xC0

/-- Second pass of `decodeURIComponent`: the octets are read as UTF-8; an octet sequence that
is not the UTF-8 encoding of a code point is an error. -/
def utf8Chars : List (Char ⊕ ℕ) → Option (List Char)
  | [] => some []
  | Sum.inl c :: rest => (utf8Chars rest).map (fun cs => c :: cs)
  | Sum.inr b :: Sum.inr c1 :: Sum.inr c2 :: Sum.inr c3 :: rest =>
    if b < 0x80 then
      (utf8Chars (Sum.inr c1 :: Sum.inr c2 :: Sum.inr c3 :: rest)).map
        (fun cs => Char.ofNat b :: cs)
    else if 0xC0 ≤ b ∧ b < 0xE0 then
      let v := (b % 0x20) * 0x40 + c1 % 0x40
      if isContinuation c1 ∧ 0x80 ≤ v then
        (utf8Chars (Sum.inr c2 :: Sum.inr c3 :: rest)).map (fun cs => Char.ofNat v :: cs)
      else none
    else if 0xE0 ≤ b ∧ b < 0xF0 then
      let v := (b % 0x10) * 0x1000 + (c1 % 0x40) * 0x40 + c2 % 0x40
      if isContinuation c1 ∧ isContinuation c2 ∧ 0x800 ≤ v ∧ ¬ (0xD800 ≤ v ∧ v ≤ 0xDFFF) then
        (utf8Chars (Sum.inr c3 :: rest)).map (fun cs => Char.ofNat v :: cs)
      else none
    else if 0xF0 ≤ b ∧ b < 0xF8 then
      let v := (b % 0x08) * 0x40000 + (c1 % 0x40) * 0x1000 + (c2 % 0x40) * 0x40 + c3 % 0x40
      if isContinuation c1 ∧ isContinuation c2 ∧ isContinuation c3 ∧ 0x10000 ≤ v ∧
          v ≤ 0x10FFFF then
        (utf8Chars rest).map (fun cs => Char.ofNat v :: cs)
      else none
    else none
  | Sum.inr b :: Sum.inr c1 :: Sum.inr c2 :: rest =>
    if b < 0x80 then
      (utf8Chars (Sum.inr c1 :: Sum.inr c2 :: rest)).map (fun cs => Char.ofNat b :: cs)
    else if 0xC0 ≤ b ∧ b < 0xE0 then
      let v := (b % 0x20) * 0x40 + c1 % 0x40
      if isContinuation c1 ∧ 0x80 ≤ v then
        (utf8Chars (Sum.inr c2 :: rest)).map (fun cs => Char.ofNat v :: cs)
      else none
    else if 0xE0 ≤ b ∧ b < 0xF0 then
      let v := (b % 0x10) * 0x1000 + (c1 % 0x40) * 0x40 + c2 % 0x40
      if isContinuation c1 ∧ isContinuation c2 ∧ 0x800 ≤ v ∧ ¬ (0xD800 ≤ v ∧ v ≤ 0xDFFF) then
        (utf8Chars rest).map (fun cs => Char.ofNat v :: cs)
      else none
    else none
  | Sum.inr b :: Sum.inr c1 :: rest =>
    if b < 0x80 then
      (utf8Chars (Sum.inr c1 :: rest)).map (fun cs => Char.ofNat b :: cs)
    else if 0xC0 ≤ b ∧ b < 0xE0 then
      let v := (b % 0x20) * 0x40 + c1 % 0x40
      if isContinuation c1 ∧ 0x80 ≤ v then
        (utf8Chars rest).map (fun cs => Char.ofNat v :: cs)
      else none
    else none
  | Sum.inr b :: rest =>
    if b < 0x80 then (utf8Chars rest).map (fun cs => Char.ofNat b :: cs)
    else none

/-- The function `decodeURIComponent`; `none` stands for the `URIError` it throws. -/
def decodeURIComponent (s : String) : Option String :=
  match escapeTokens s.toList with
  | some ts => (utf8Chars ts).map String.mk
  | none => none

/-- The pieces of a path between its `/` characters; `"a//b"` gives `a`, the empty piece
and `b`. -/
def splitSlash : List Char → List (List Char)
  | [] => [[]]
  | c :: cs =>
    if c = '/' then [] :: splitSlash cs
    else
      match splitSlash cs with
      | seg :: segs => (c :: seg) :: segs
      | [] => [[c]]

/-- Segments written one after the other with `/` in between. -/
def joinSlash : List (List Char) → List Char
  | [] => []
  | [seg] => seg
  | seg :: segs => seg ++ '/' :: joinSlash segs

/-- One step of `normalizeString` of Node's `path` module: what a segment does to the
segments kept so far (the last one kept comes first).  Empty segments and `.` are dropped,
`..` removes the last segment kept unless there is none or it is `..` itself, in which case
`..` is kept only if the path may rise above its start. -/
def normalizeStep (allowAboveRoot : Bool) (kept : List (List Char)) (seg : List Char) :
    List (List Char) :=
  if seg = [] ∨ seg = ['.'] then kept
  else if seg = ['.', '.'] then
    match kept with
    | top :: below =>
      if top = ['.', '.'] then (if allowAboveRoot then seg :: kept else kept) else below
    | [] => if allowAboveRoot then [seg] else []
  else seg :: kept

/-- The function `normalizeString` of Node's `path` module for the separator `/`. -/
def normalizeString (path : List Char) (allowAboveRoot : Bool) : List Char :=
  joinSlash ((splitSlash path).foldl (normalizeStep allowAboveRoot) []).reverse

/-- The function `path.normalize` of Node (POSIX flavour), on the characters of the path. -/
def normalizeChars (path : List Char) : List Char :=
  if path = [] then ['.']
  else
    let isAbsolute : Bool := path.head? = some '/'
    let trailingSeparator : Bool := path.getLast? = some '/'
    let p := normalizeString path (!isAbsolute)
    if p = [] then
      if isAbsolute then ['/'] else if trailingSeparator then ['.', '/'] else ['.']
    else
      let p := if trailingSeparator then p ++ ['/'] else p
      if isAbsolute then '/' :: p else p

/-- The function `path.normalize` of Node (POSIX flavour). -/
def normalize (path : String) : String := String.mk (normalizeChars path.toList)

/-- The function `path.join` of Node (POSIX flavour) for two arguments. -/
def join (a b : String) : String :=
  let parts := [a, b].filter (fun arg => arg.length > 0)
  match parts with
  | [] => "."
  | first :: more => normalize (more.foldl (fun joined arg => joined ++ "/" ++ arg) first)

/-- The replacement `.replace(/^([.][.][/\\])+/, '')`: leading repetitions of `../` or `..\`
are removed. -/
def stripLeadingDotDot : List Char → List Char
  | '.' :: '.' :: '/' :: rest => stripLeadingDotDot rest
  | '.' :: '.' :: '\\' :: rest => stripLeadingDotDot rest
  | cs => cs

/-- The function `safePath`, for the served directory `root` (the value of `cwd()`); `none`
stands for the `URIError` of `decodeURIComponent`. -/
def safePath (root : String) (urlPath : String) : Option String :=
  match decodeURIComponent urlPath with
  | none => none
  | some decoded =>
    let normalized := String.mk (stripLeadingDotDot (normalize decoded).toList)
    some (join root normalized)

/-- The characters after the last `.` of a name, or `none` when the name has no `.`. -/
def afterLastDot (name : List Char) : Option (List Char) :=
  if '.' ∈ name then some (name.reverse.takeWhile (fun c => c ≠ '.')).reverse else none

/-- The function `path.extname` of Node (POSIX flavour): the extension of the last component
of the path, from its last `.` on; empty when there is no `.`, when the only `.` is the
first character, and for the component `..`. -/
def extname (path : String) : String :=
  let name := ((splitSlash path.toList).filter (fun seg => seg ≠ [])).getLast?.getD []
  match afterLastDot name with
  | none => ""
  | some ext =>
    if name.length = ext.length + 1 then ""
    else if name = ['.', '.'] then ""
    else String.mk ('.' :: ext)

/-- The table `mimeTypes`. -/
def mimeTypes (ext : String) : Option String :=
  if ext = ".html" then some "text/html; charset=utf-8"
  else if ext = ".css" then some "text/css; charset=utf-8"
  else if ext = ".js" then some "text/javascript; charset=utf-8"
  else if ext = ".json" then some "application/json; charset=utf-8"
  else if ext = ".png" then some "image/png"
  else if ext = ".jpg" then some "image/jpeg"
  else if ext = ".jpeg" then some "image/jpeg"
  else if ext = ".svg" then some "image/svg+xml"
  else if ext = ".ico" then some "image/x-icon"
  else if ext = ".txt" then some "text/plain; charset=utf-8"
  else none

/-- What a response carries: the content of a file that is streamed, or a text. -/
inductive Body where
  | file (path : String)
  | text (content : String)
deriving DecidableEq, Repr

/-- The response the handler produces. -/
structure Response where
  statusCode : ℕ
  contentType : String
  body : Body
deriving DecidableEq, Repr

/-- What the file system holds at a path. -/
inductive Entry where
  | file
  | directory
  | other
deriving DecidableEq, Repr

/-- The file system as the handler sees it: what `existsSync` and `statSync` find at a
path. -/
abbrev FileSystem := String → Option Entry

/-- The exception that ends a call of the handler. -/
inductive Thrown where
  /-- The `URIError` of `decodeURIComponent`. -/
  | uriError
deriving DecidableEq, Repr

/-- The function `sendFile`; `toLowerCase` is applied to the letters `A` to `Z`, the only
ones that matter for the keys of `mimeTypes`. -/
def sendFile (filePath : String) : Response :=
  let ext := (extname filePath).map Char.toLower
  { statusCode := 200
    contentType := (mimeTypes ext).getD "application/octet-stream"
    body := Body.file filePath }

/-- The request handler passed to `createServer`, from the `pathname` of the request URL
on. -/
def handler (root : String) (fs : FileSystem) (requestPathname : String) :
    Except Thrown Response :=
  let pathname := if requestPathname = "/" then "/index.html" else requestPathname
  match safePath root pathname with
  | none => .error .uriError
  | some targetPath =>
    if (fs targetPath).isSome && fs targetPath = some Entry.file then
      .ok (sendFile targetPath)
    else
      let indexPath := join root "index.html"
      if (fs indexPath).isSome then .ok (sendFile indexPath)
      else
        .ok { statusCode := 404
              contentType := "text/plain; charset=utf-8"
              body := Body.text "Not Found" }

/-! ## Vocabulary of the statements about paths -/

/-- A proper path component: not empty, without `/`, and neither `.` nor `..`. -/
def CleanSegment (seg : List Char) : Prop :=
  seg ≠ [] ∧ seg ≠ ['.'] ∧ seg ≠ ['.', '.'] ∧ '/' ∉ seg

instance (seg : List Char) : Decidable (CleanSegment seg) := by
  unfold CleanSegment; infer_instance

/-- The absolute path with the given components. -/
def rootPath (segs : List (List Char)) : String := String.mk ('/' :: joinSlash segs)

/-- The components of a path: the non-empty pieces between its `/` characters. -/
def components (path : List Char) : List (List Char) :=
  (splitSlash path).filter (fun seg => seg ≠ [])

/-- The segments `path.normalize` keeps of an absolute path. -/
def keptSegments (path : List Char) : List (List Char) :=
  ((splitSlash path).foldl (normalizeStep false) []).reverse

/-- The separator `path.normalize` puts back at the end of a path that ended in one. -/
def trailingSlash (kept : List (List Char)) (path : List Char) : List Char :=
  if kept ≠ [] ∧ path.getLast? = some '/' then ['/'] else []

/-- The eight property names of the table `directionMap`. -/
def mappedKeys : List String :=
  ["ArrowUp", "ArrowDown", "ArrowLeft", "ArrowRight", "w", "s", "a", "d"]

/-- A call of the page whose key, when it is a key press handled by `handleMoveKey`, is one
of the eight keys of `directionMap`. -/
def Call.Mapped : Call → Prop
  | .handleMoveKey key => key ∈ mappedKeys
  | _ => True

instance (c : Call) : Decidable c.Mapped := by
  cases c <;> unfold Call.Mapped <;> infer_instance

/-- States reached from the loaded page by `tick`, `togglePause`, `resetGame` and
`handleMoveKey` with one of the eight mapped keys. -/
inductive MappedReachable (canvasWidth : ℕ) : State → Prop where
  | boot (storage : Option String) (draws rest : List ℚ) (s : State) :
      Snake.boot canvasWidth storage draws = .ok (s, rest) → MappedReachable canvasWidth s
  | call (s s1 : State) (c : Call) (draws rest : List ℚ) :
      MappedReachable canvasWidth s → c.Mapped → c.run canvasWidth s draws = .ok (s1, rest) →
      MappedReachable canvasWidth s1

/-- The neck of the snake in a state: the snake has a second segment, and it lies behind the
head along the current direction, unless the game is not started and the cell ahead of the
head is outside the grid or on the snake, as the tick that ended the game found it. -/
def NeckBehind (canvasWidth : ℕ) (s : State) : Prop :=
  ∃ (seg0 seg1 : Point) (rest : List Point), s.snake = seg0 :: seg1 :: rest ∧
    (seg1 = behind seg0 s.direction ∨
      (s.started = false ∧ s.nextDirection = s.direction ∧
        (¬ InGrid canvasWidth (aheadOf seg0 s) ∨ aheadOf seg0 s ∈ s.snake)))

/-! ## Basic facts about the operations -/

theorem occupied_some_iff (segs : List Point) (pos : Point) :
    occupied (some segs) pos = true ↔ pos ∈ segs := by
  simp only [occupied, List.any_eq_true, Bool.and_eq_true, beq_iff_eq]
  constructor
  · rintro ⟨seg, hmem, hx, hy⟩
    have : seg = pos := by
      cases seg; cases pos; simp_all
    exact this ▸ hmem
  · intro h
    exact ⟨pos, h, rfl, rfl⟩

theorem any_segment_iff (segs : List Point) (pos : Point) :
    segs.any (fun segment => segment.x == pos.x && segment.y == pos.y) = true ↔ pos ∈ segs :=
  occupied_some_iff segs pos

theorem randomFoodPosition_free (cw : ℕ) (segs : List Point) :
    ∀ (draws rest : List ℚ) (pos : Point),
      randomFoodPosition cw (some segs) draws = .ok (pos, rest) → pos ∉ segs := by
  intro draws
  induction draws using randomFoodPosition.induct cw (some segs) with
  | case1 r1 r2 rest pos hocc ih =>
    intro rest1 pos1 h
    rw [randomFoodPosition] at h
    simp only [pos] at hocc
    simp only [hocc, if_true] at h
    exact ih rest1 pos1 h
  | case2 r1 r2 rest pos hocc =>
    intro rest1 pos1 h
    rw [randomFoodPosition] at h
    simp only [pos] at hocc
    simp only [hocc] at h
    simp only [Bool.false_eq_true, if_false, Except.ok.injEq, Prod.mk.injEq] at h
    rw [← h.1]
    intro hmem
    exact hocc ((occupied_some_iff segs _).2 hmem)
  | case3 draws hne =>
    intro rest1 pos1 h
    rw [randomFoodPosition] at h
    · cases h
    · exact hne

theorem tick_paused (cw : ℕ) (s : State) (draws : List ℚ) (hp : s.paused = true) :
    tick cw s draws = .ok (s, draws) := by
  simp [tick, hp]

theorem tick_empty (cw : ℕ) (s : State) (draws : List ℚ) (hp : s.paused = false)
    (hs : s.snake = []) : tick cw s draws = .error .typeError := by
  simp [tick, hp, hs]

theorem outOfBounds_iff (cw : ℕ) (p : Point) :
    (decide ((p.x : ℚ) < 0) || decide ((p.x : ℚ) ≥ tileCount cw) ||
      decide ((p.y : ℚ) < 0) || decide ((p.y : ℚ) ≥ tileCount cw)) = true ↔ ¬ InGrid cw p := by
  simp only [InGrid, Bool.or_eq_true, decide_eq_true_eq, not_and, not_le, not_lt, ge_iff_le]
  constructor
  · rintro (((h | h) | h) | h) h1 h2 h3
    · exact absurd h1 (not_le.2 h)
    · exact absurd h2 (not_lt.2 h)
    · exact absurd h3 (not_le.2 h)
    · exact h
  · intro h
    by_cases h1 : (p.x : ℚ) < 0
    · exact Or.inl (Or.inl (Or.inl h1))
    by_cases h2 : tileCount cw ≤ (p.x : ℚ)
    · exact Or.inl (Or.inl (Or.inr h2))
    by_cases h3 : (p.y : ℚ) < 0
    · exact Or.inl (Or.inr h3)
    exact Or.inr (h (not_lt.1 h1) (not_le.1 h2) (not_lt.1 h3))

theorem tick_collision (cw : ℕ) (s : State) (draws : List ℚ) (first : Point)
    (rest : List Point) (hp : s.paused = false) (hs : s.snake = first :: rest)
    (hc : ¬ InGrid cw (aheadOf first s) ∨ aheadOf first s ∈ s.snake) :
    tick cw s draws = .ok (gameOver { s with direction := s.nextDirection }, draws) := by
  have hob := outOfBounds_iff cw (aheadOf first s)
  have hself := any_segment_iff s.snake (aheadOf first s)
  simp only [aheadOf] at hob hself hc
  simp only [tick, hp, hs, Bool.false_eq_true, if_false]
  rw [hs] at hself hc
  rw [if_pos]
  rw [Bool.or_eq_true, hob, hself]
  exact hc

theorem tick_move (cw : ℕ) (s : State) (draws : List ℚ) (first : Point)
    (rest : List Point) (hp : s.paused = false) (hs : s.snake = first :: rest)
    (hg : InGrid cw (aheadOf first s)) (hn : aheadOf first s ∉ s.snake)
    (hf : aheadOf first s ≠ s.food) :
    tick cw s draws =
      .ok ({ s with direction := s.nextDirection,
                    snake := aheadOf first s :: s.snake.dropLast }, draws) := by
  have hob := outOfBounds_iff cw (aheadOf first s)
  have hself := any_segment_iff s.snake (aheadOf first s)
  have hfood : (((aheadOf first s).x == s.food.x) && ((aheadOf first s).y == s.food.y)) = false := by
    rw [Bool.and_eq_false_iff]
    by_contra hcon
    push_neg at hcon
    simp only [ne_eq, Bool.not_eq_false, beq_iff_eq] at hcon
    apply hf
    cases hfd : s.food
    rw [hfd] at hcon
    simp only [aheadOf] at hcon ⊢
    rw [hcon.1, hcon.2]
  simp only [aheadOf] at hob hself hg hn hfood
  rw [hs] at hself hn
  simp only [tick, hp, hs, Bool.false_eq_true, if_false]
  rw [if_neg]
  · simp only [hfood, Bool.false_eq_true, if_false, aheadOf]
    rfl
  · rw [Bool.or_eq_true, hob, hself]
    rintro (h | h)
    · exact h hg
    · exact hn h

theorem tick_eat (cw : ℕ) (s : State) (draws : List ℚ) (first : Point)
    (rest : List Point) (hp : s.paused = false) (hs : s.snake = first :: rest)
    (hg : InGrid cw (aheadOf first s)) (hn : aheadOf first s ∉ s.snake)
    (hf : aheadOf first s = s.food) :
    tick cw s draws =
      match randomFoodPosition cw (some (aheadOf first s :: s.snake)) draws with
      | .error e => .error e
      | .ok (pos, left) => .ok (afterEat s (aheadOf first s) pos, left) := by
  have hob := outOfBounds_iff cw (aheadOf first s)
  have hself := any_segment_iff s.snake (aheadOf first s)
  have hfood : (((aheadOf first s).x == s.food.x) && ((aheadOf first s).y == s.food.y)) = true := by
    rw [hf]; simp
  rcases s with ⟨snake, direction, nextDirection, food, score, bestScore, gameInterval,
    gameSpeed, started, paused, storage, timers, lastTimerId⟩
  simp only at hp hs
  subst hp hs
  simp only [aheadOf] at hob hself hg hn hfood
  unfold tick
  simp only [Bool.false_eq_true, if_false]
  rw [if_neg]
  · rw [if_pos hfood]
    rfl
  · rw [Bool.or_eq_true, hob, hself]
    rintro (h | h)
    · exact h hg
    · exact hn h

theorem resetGame_eq (cw : ℕ) (s : State) (draws : List ℚ) :
    resetGame cw s draws =
      match randomFoodPosition cw (some initialSnake) draws with
      | .error e => .error e
      | .ok (pos, left) => .ok (afterReset s pos, left) := rfl

theorem stopLoop_fields (s : State) :
    (stopLoop s).snake = s.snake ∧ (stopLoop s).direction = s.direction ∧
    (stopLoop s).nextDirection = s.nextDirection ∧ (stopLoop s).food = s.food ∧
    (stopLoop s).score = s.score ∧ (stopLoop s).bestScore = s.bestScore ∧
    (stopLoop s).gameSpeed = s.gameSpeed ∧ (stopLoop s).started = s.started ∧
    (stopLoop s).paused = s.paused ∧ (stopLoop s).storage = s.storage ∧
    (stopLoop s).lastTimerId = s.lastTimerId := by
  unfold stopLoop
  split
  · split <;> simp
  · simp

theorem startLoop_fields (s : State) :
    (startLoop s).snake = s.snake ∧ (startLoop s).direction = s.direction ∧
    (startLoop s).nextDirection = s.nextDirection ∧ (startLoop s).food = s.food ∧
    (startLoop s).score = s.score ∧ (startLoop s).bestScore = s.bestScore ∧
    (startLoop s).gameSpeed = s.gameSpeed ∧ (startLoop s).started = s.started ∧
    (startLoop s).paused = s.paused ∧ (startLoop s).storage = s.storage := by
  unfold startLoop
  split <;> simp

theorem restartLoop_fields (s : State) :
    (restartLoop s).snake = s.snake ∧ (restartLoop s).direction = s.direction ∧
    (restartLoop s).nextDirection = s.nextDirection ∧ (restartLoop s).food = s.food ∧
    (restartLoop s).score = s.score ∧ (restartLoop s).bestScore = s.bestScore ∧
    (restartLoop s).gameSpeed = s.gameSpeed ∧ (restartLoop s).started = s.started ∧
    (restartLoop s).paused = s.paused ∧ (restartLoop s).storage = s.storage := by
  have h1 := startLoop_fields (stopLoop s)
  have h2 := stopLoop_fields s
  unfold restartLoop
  simp only [h1, h2, and_self]

theorem stopLoop_inactive (s : State) : handleActive (stopLoop s).gameInterval = false := by
  unfold stopLoop
  split
  · rename_i id hid
    split
    · rfl
    · rename_i h
      simp only [hid, handleActive]
      simpa using h
  · rename_i h
    simp [h, handleActive]

theorem startLoop_running (s : State) (h : handleActive s.gameInterval = false) :
    (startLoop s).gameInterval = some (s.lastTimerId + 1) ∧
    (s.lastTimerId + 1, s.gameSpeed) ∈ (startLoop s).timers := by
  unfold startLoop
  simp [h]

theorem gameOver_fields (s : State) :
    (gameOver s).snake = s.snake ∧ (gameOver s).direction = s.direction ∧
    (gameOver s).nextDirection = s.nextDirection ∧ (gameOver s).food = s.food ∧
    (gameOver s).score = s.score ∧ (gameOver s).bestScore = s.bestScore ∧
    (gameOver s).gameSpeed = s.gameSpeed ∧ (gameOver s).started = false ∧
    (gameOver s).paused = s.paused ∧ (gameOver s).storage = s.storage ∧
    handleActive (gameOver s).gameInterval = false := by
  have h := stopLoop_fields s
  have h2 := stopLoop_inactive s
  simp only [gameOver, h, h2, and_self]

theorem afterReset_fields (s : State) (pos : Point) :
    (afterReset s pos).snake = initialSnake ∧ (afterReset s pos).direction = ⟨1, 0⟩ ∧
    (afterReset s pos).nextDirection = ⟨1, 0⟩ ∧ (afterReset s pos).food = pos ∧
    (afterReset s pos).score = 0 ∧ (afterReset s pos).bestScore = s.bestScore ∧
    (afterReset s pos).gameSpeed = initialSpeed ∧ (afterReset s pos).started = false ∧
    (afterReset s pos).paused = false ∧ (afterReset s pos).storage = s.storage ∧
    handleActive (afterReset s pos).gameInterval = false := by
  unfold afterReset
  refine ⟨?_, ?_, ?_, ?_, ?_, ?_, ?_, ?_, ?_, ?_, stopLoop_inactive _⟩ <;>
    simp only [stopLoop_fields]

theorem recordBest_fields (s : State) :
    (recordBest s).snake = s.snake ∧ (recordBest s).direction = s.direction ∧
    (recordBest s).nextDirection = s.nextDirection ∧ (recordBest s).food = s.food ∧
    (recordBest s).score = s.score ∧ (recordBest s).gameInterval = s.gameInterval ∧
    (recordBest s).gameSpeed = s.gameSpeed ∧ (recordBest s).started = s.started ∧
    (recordBest s).paused = s.paused ∧ (recordBest s).timers = s.timers ∧
    (recordBest s).lastTimerId = s.lastTimerId := by
  unfold recordBest
  split <;> simp [saveBestScore]

theorem speedUp_fields (s : State) :
    (speedUp s).snake = s.snake ∧ (speedUp s).direction = s.direction ∧
    (speedUp s).nextDirection = s.nextDirection ∧ (speedUp s).food = s.food ∧
    (speedUp s).score = s.score ∧ (speedUp s).bestScore = s.bestScore ∧
    (speedUp s).started = s.started ∧ (speedUp s).paused = s.paused ∧
    (speedUp s).storage = s.storage := by
  unfold speedUp
  split
  · simp only [restartLoop_fields, and_self]
  · simp only [and_self]

theorem afterEat_fields (s : State) (head pos : Point) :
    (afterEat s head pos).snake = head :: s.snake ∧
    (afterEat s head pos).direction = s.nextDirection ∧
    (afterEat s head pos).nextDirection = s.nextDirection ∧
    (afterEat s head pos).food = pos ∧
    (afterEat s head pos).score = s.score + 1 ∧
    (afterEat s head pos).started = s.started ∧
    (afterEat s head pos).paused = s.paused := by
  unfold afterEat
  simp only [speedUp_fields, recordBest_fields, and_self]

theorem setDirection_fields (s : State) (d : Point) :
    (setDirection s d).snake = s.snake ∧ (setDirection s d).direction = s.direction ∧
    (setDirection s d).food = s.food ∧ (setDirection s d).score = s.score ∧
    (setDirection s d).bestScore = s.bestScore ∧
    (setDirection s d).gameInterval = s.gameInterval ∧
    (setDirection s d).gameSpeed = s.gameSpeed ∧ (setDirection s d).started = s.started ∧
    (setDirection s d).paused = s.paused ∧ (setDirection s d).storage = s.storage ∧
    (setDirection s d).timers = s.timers ∧ (setDirection s d).lastTimerId = s.lastTimerId := by
  unfold setDirection
  simp only
  split <;> simp

theorem setDirection_next (s : State) (d : Point) :
    (setDirection s d).nextDirection =
      if d.x + s.direction.x = 0 ∧ d.y + s.direction.y = 0 then s.nextDirection else d := by
  unfold setDirection
  simp only
  by_cases h : d.x + s.direction.x = 0 ∧ d.y + s.direction.y = 0
  · simp [h]
  · rw [if_neg h]
    have : (d.x + s.direction.x == 0 && d.y + s.direction.y == 0) = false := by
      rw [Bool.and_eq_false_iff]
      by_cases hx : d.x + s.direction.x = 0
      · right
        simpa using fun hy => h ⟨hx, hy⟩
      · left
        simpa using hx
    simp [this]

theorem food_corner (cw : ℕ) (left : List ℚ) :
    randomFoodPosition cw (some initialSnake) (0 :: 0 :: left) = .ok (⟨0, 0⟩, left) := by
  rw [randomFoodPosition]
  simp only [zero_mul, Int.floor_zero]
  rw [if_neg]
  simp [occupied, initialSnake]

theorem boot_freshGame : boot 400 none [0, 0] = .ok (freshGame, []) := by
  rw [boot, resetGame_eq, food_corner]
  rfl

theorem tileCount_400 : tileCount 400 = 20 := by
  norm_num [tileCount, gridSize]

/-- C2: a tick that is not paused and whose next head is in the grid, off the snake and off
the food puts the next head in front and drops the last segment, so the length stays the
same; the snake `[(9,10),(8,10),(7,10)]` heading right becomes `[(10,10),(9,10),(8,10)]`. -/
theorem tick_plain_move :
    (∀ (cw : ℕ) (s : State) (draws : List ℚ) (first : Point) (rest : List Point),
      s.paused = false → s.snake = first :: rest →
      InGrid cw (aheadOf first s) → aheadOf first s ∉ s.snake → aheadOf first s ≠ s.food →
      ∃ s1, tick cw s draws = .ok (s1, draws) ∧
        s1.snake = aheadOf first s :: s.snake.dropLast ∧
        s1.snake.length = s.snake.length) ∧
    (∀ (cw : ℕ) (s : State) (draws : List ℚ),
      s.paused = false → s.snake = [⟨9, 10⟩, ⟨8, 10⟩, ⟨7, 10⟩] → s.nextDirection = ⟨1, 0⟩ →
      InGrid cw ⟨10, 10⟩ → s.food ≠ ⟨10, 10⟩ →
      ∃ s1, tick cw s draws = .ok (s1, draws) ∧
        s1.snake = [⟨10, 10⟩, ⟨9, 10⟩, ⟨8, 10⟩]) := by
  constructor
  · intro cw s draws first rest hp hs hg hn hf
    refine ⟨_, tick_move cw s draws first rest hp hs hg hn hf, rfl, ?_⟩
    simp only [List.length_cons, List.length_dropLast, hs]
    rfl
  · intro cw s draws hp hs hd hg hf
    have ha : aheadOf ⟨9, 10⟩ s = ⟨10, 10⟩ := by
      simp only [aheadOf, hd]; rfl
    refine ⟨_, tick_move cw s draws ⟨9, 10⟩ _ hp hs ?_ ?_ ?_, ?_⟩
    · rw [ha]; exact hg
    · rw [ha, hs]; decide
    · rw [ha]; exact fun h => hf h.symm
    · simp only [ha, hs]; rfl

theorem tick_plain_move_witness :
    ∃ s1, tick 400 freshGame [] = .ok (s1, []) ∧ s1.snake = [⟨10, 10⟩, ⟨9, 10⟩, ⟨8, 10⟩] :=
  tick_plain_move.2 400 freshGame [] rfl rfl rfl
    (by norm_num [InGrid, tileCount_400]) (by decide)

/-- C5: `setDirection` keeps the queued direction when the requested one is the exact
opposite of the current direction and queues the requested one otherwise; it never writes
`direction`. -/
theorem setDirection_spec (s : State) (d : Point) :
    (setDirection s d).nextDirection =
      (if d.x + s.direction.x = 0 ∧ d.y + s.direction.y = 0 then s.nextDirection else d) ∧
    (setDirection s d).direction = s.direction :=
  ⟨setDirection_next s d, (setDirection_fields s d).2.1⟩

/-- Every way in which `tick` can return. -/
theorem tick_cases (cw : ℕ) (s s1 : State) (draws left : List ℚ)
    (h : tick cw s draws = .ok (s1, left)) :
    (s.paused = true ∧ s1 = s ∧ left = draws) ∨
    (s.paused = false ∧ ∃ first rest, s.snake = first :: rest ∧
      (((¬ InGrid cw (aheadOf first s) ∨ aheadOf first s ∈ s.snake) ∧
          s1 = gameOver { s with direction := s.nextDirection } ∧ left = draws) ∨
       (InGrid cw (aheadOf first s) ∧ aheadOf first s ∉ s.snake ∧ aheadOf first s ≠ s.food ∧
          s1 = { s with direction := s.nextDirection,
                        snake := aheadOf first s :: s.snake.dropLast } ∧ left = draws) ∨
       (InGrid cw (aheadOf first s) ∧ aheadOf first s ∉ s.snake ∧ aheadOf first s = s.food ∧
          ∃ pos, randomFoodPosition cw (some (aheadOf first s :: s.snake)) draws
              = .ok (pos, left) ∧ s1 = afterEat s (aheadOf first s) pos))) := by
  by_cases hp : s.paused = true
  · rw [tick_paused cw s draws hp] at h
    simp only [Except.ok.injEq, Prod.mk.injEq] at h
    exact Or.inl ⟨hp, h.1.symm, h.2.symm⟩
  · have hp : s.paused = false := by simpa using hp
    refine Or.inr ⟨hp, ?_⟩
    cases hs : s.snake with
    | nil =>
      rw [tick_empty cw s draws hp hs] at h
      cases h
    | cons first rest =>
      refine ⟨first, rest, rfl, ?_⟩
      rw [← hs]
      by_cases hc : ¬ InGrid cw (aheadOf first s) ∨ aheadOf first s ∈ s.snake
      · rw [tick_collision cw s draws first rest hp hs hc] at h
        simp only [Except.ok.injEq, Prod.mk.injEq] at h
        exact Or.inl ⟨hc, h.1.symm, h.2.symm⟩
      · rw [not_or, not_not] at hc
        by_cases hf : aheadOf first s = s.food
        · rw [tick_eat cw s draws first rest hp hs hc.1 hc.2 hf] at h
          refine Or.inr (Or.inr ⟨hc.1, hc.2, hf, ?_⟩)
          cases hr : randomFoodPosition cw (some (aheadOf first s :: s.snake)) draws with
          | error e => rw [hr] at h; cases h
          | ok res =>
            obtain ⟨pos, left1⟩ := res
            rw [hr] at h
            simp only [Except.ok.injEq, Prod.mk.injEq] at h
            exact ⟨pos, by rw [h.2], h.1.symm⟩
        · rw [tick_move cw s draws first rest hp hs hc.1 hc.2 hf] at h
          simp only [Except.ok.injEq, Prod.mk.injEq] at h
          exact Or.inr (Or.inl ⟨hc.1, hc.2, hf, h.1.symm, h.2.symm⟩)

theorem stopLoop_timers (s : State) (id : ℕ) (hid : s.gameInterval = some id) (h0 : id ≠ 0) :
    ∀ t ∈ (stopLoop s).timers, t.1 ≠ id := by
  intro t ht
  unfold stopLoop at ht
  simp only [hid] at ht
  have hb : (id != 0) = true := by simpa using h0
  simp only [hb, if_true, List.mem_filter] at ht
  simpa using ht.2

theorem not_running_of_inactive (s : State) (h : handleActive s.gameInterval = false) :
    ¬ TimerRunning s := by
  rintro ⟨id, delay, hid, h0, -⟩
  rw [hid] at h
  simp only [handleActive] at h
  exact h0 (by simpa using h)

theorem restartLoop_running (s : State) : TimerRunning (restartLoop s) := by
  have h := startLoop_running (stopLoop s) (stopLoop_inactive s)
  exact ⟨_, _, h.1, Nat.succ_ne_zero _, h.2⟩

theorem afterEat_running (s : State) (head pos : Point) (h : TimerRunning s) :
    TimerRunning (afterEat s head pos) := by
  unfold afterEat speedUp
  split
  · exact restartLoop_running _
  · obtain ⟨id, delay, h1, h2, h3⟩ := h
    refine ⟨id, delay, ?_, h2, ?_⟩
    · rw [(recordBest_fields _).2.2.2.2.2.1]; exact h1
    · rw [(recordBest_fields _).2.2.2.2.2.2.2.2.2.1]; exact h3

/-- C3: a tick that is not paused ends the game exactly when the next head is outside the
grid or on a segment of the snake as it is before the move (the last segment included).
When it does, `started` becomes false, the tick timer is cleared, and `snake`, `food`,
`score`, `bestScore` and `gameSpeed` keep their values; when it does not, `started` is not
written and a running timer keeps running. -/
theorem tick_game_over_iff (cw : ℕ) (s : State) (draws : List ℚ) (first : Point)
    (rest : List Point) (hp : s.paused = false) (hs : s.snake = first :: rest) :
    ((¬ InGrid cw (aheadOf first s) ∨ aheadOf first s ∈ s.snake) →
      ∃ s1, tick cw s draws = .ok (s1, draws) ∧
        s1.started = false ∧ ¬ TimerRunning s1 ∧
        (∀ id, s.gameInterval = some id → id ≠ 0 → ∀ t ∈ s1.timers, t.1 ≠ id) ∧
        s1.snake = s.snake ∧ s1.food = s.food ∧ s1.score = s.score ∧
        s1.bestScore = s.bestScore ∧ s1.gameSpeed = s.gameSpeed) ∧
    (¬ (¬ InGrid cw (aheadOf first s) ∨ aheadOf first s ∈ s.snake) →
      ∀ s1 left, tick cw s draws = .ok (s1, left) →
        s1.started = s.started ∧ (TimerRunning s → TimerRunning s1)) ∧
    (s.started = true → ∀ s1 left, tick cw s draws = .ok (s1, left) →
      ((s1.started = false ∧ ¬ TimerRunning s1) ↔
        (¬ InGrid cw (aheadOf first s) ∨ aheadOf first s ∈ s.snake))) := by
  have hover : (¬ InGrid cw (aheadOf first s) ∨ aheadOf first s ∈ s.snake) →
      tick cw s draws = .ok (gameOver { s with direction := s.nextDirection }, draws) :=
    tick_collision cw s draws first rest hp hs
  have hkeep : ¬ (¬ InGrid cw (aheadOf first s) ∨ aheadOf first s ∈ s.snake) →
      ∀ s1 left, tick cw s draws = .ok (s1, left) →
        s1.started = s.started ∧ (TimerRunning s → TimerRunning s1) := by
    intro hc s1 left h
    rcases tick_cases cw s s1 draws left h with ⟨hp1, -⟩ | ⟨-, f, r, hs1, hcase⟩
    · rw [hp] at hp1; cases hp1
    · have hf : f = first := by
        rw [hs] at hs1; cases hs1; rfl
      subst hf
      rcases hcase with ⟨hc1, -⟩ | ⟨-, -, -, h1, -⟩ | ⟨-, -, -, pos, -, h1⟩
      · exact absurd hc1 hc
      · subst h1
        exact ⟨rfl, fun hr => hr⟩
      · subst h1
        exact ⟨(afterEat_fields s _ pos).2.2.2.2.2.1, afterEat_running s _ pos⟩
  refine ⟨?_, hkeep, ?_⟩
  · intro hc
    have hg := gameOver_fields { s with direction := s.nextDirection }
    refine ⟨_, hover hc, hg.2.2.2.2.2.2.2.1, not_running_of_inactive _ hg.2.2.2.2.2.2.2.2.2.2,
      ?_, hg.1, hg.2.2.2.1, hg.2.2.2.2.1, hg.2.2.2.2.2.1, hg.2.2.2.2.2.2.1⟩
    intro id hid h0
    exact stopLoop_timers { s with direction := s.nextDirection } id hid h0
  · intro hst s1 left h
    constructor
    · intro hfalse
      by_contra hc
      have := (hkeep hc s1 left h).1
      rw [hst, hfalse.1] at this
      cases this
    · intro hc
      rw [hover hc] at h
      simp only [Except.ok.injEq, Prod.mk.injEq] at h
      rw [← h.1]
      have hg := gameOver_fields { s with direction := s.nextDirection }
      exact ⟨hg.2.2.2.2.2.2.2.1, not_running_of_inactive _ hg.2.2.2.2.2.2.2.2.2.2⟩

/-- C4: a tick that is not paused and whose next head is in the grid, off the snake and on
the food returns as soon as the food loop does, and then the score is one higher and the
snake is the old snake with the new head in front, one segment longer; no tick that returns
leaves a shorter snake. -/
theorem tick_eat_grows :
    (∀ (cw : ℕ) (s : State) (draws : List ℚ) (first : Point) (rest : List Point),
      s.paused = false → s.snake = first :: rest →
      InGrid cw (aheadOf first s) → aheadOf first s ∉ s.snake → aheadOf first s = s.food →
      (∀ pos left,
        randomFoodPosition cw (some (aheadOf first s :: s.snake)) draws = .ok (pos, left) →
        ∃ s1, tick cw s draws = .ok (s1, left) ∧ s1.score = s.score + 1 ∧
          s1.snake = aheadOf first s :: s.snake ∧
          s1.snake.length = s.snake.length + 1 ∧ s1.food = pos) ∧
      (∀ e, randomFoodPosition cw (some (aheadOf first s :: s.snake)) draws = .error e →
        tick cw s draws = .error e)) ∧
    (∀ (cw : ℕ) (s s1 : State) (draws left : List ℚ),
      tick cw s draws = .ok (s1, left) → s.snake.length ≤ s1.snake.length) := by
  constructor
  · intro cw s draws first rest hp hs hg hn hf
    have h := tick_eat cw s draws first rest hp hs hg hn hf
    constructor
    · intro pos left hr
      rw [hr] at h
      have ha := afterEat_fields s (aheadOf first s) pos
      refine ⟨_, h, ha.2.2.2.2.1, ha.1, ?_, ha.2.2.2.1⟩
      rw [ha.1, List.length_cons]
    · intro e hr
      rw [hr] at h
      exact h
  · intro cw s s1 draws left h
    rcases tick_cases cw s s1 draws left h with ⟨-, h1, -⟩ | ⟨-, f, r, hs, hcase⟩
    · rw [h1]
    · rcases hcase with ⟨-, h1, -⟩ | ⟨-, -, -, h1, -⟩ | ⟨-, -, -, pos, -, h1⟩
      · rw [h1, (gameOver_fields _).1]
      · rw [h1]
        simp only [List.length_cons, List.length_dropLast, hs]
        omega
      · rw [h1, (afterEat_fields s _ pos).1, List.length_cons]
        omega

theorem directionMap_unit (key : String) (d : Point) (h : directionMap key = some d) :
    d ∈ unitVectors := by
  unfold directionMap at h
  repeat' split at h
  all_goals
    cases h
    try decide

theorem handleMoveKey_cases (cw : ℕ) (s s1 : State) (key : String) (draws left : List ℚ)
    (h : handleMoveKey cw s key draws = .ok (s1, left)) :
    (directionMap key = none ∧ s1 = s ∧ left = draws) ∨
    (∃ d, directionMap key = some d ∧
      ((s.started = false ∧ ∃ pos,
          randomFoodPosition cw (some initialSnake) draws = .ok (pos, left) ∧
          s1 = afterStart s pos d) ∨
       (s.started = true ∧ s.paused = false ∧ s1 = setDirection s d ∧ left = draws) ∨
       (s.started = true ∧ s.paused = true ∧ s1 = s ∧ left = draws))) := by
  unfold handleMoveKey at h
  cases hd : directionMap key with
  | none =>
    rw [hd] at h
    simp only [Except.ok.injEq, Prod.mk.injEq] at h
    exact Or.inl ⟨rfl, h.1.symm, h.2.symm⟩
  | some d =>
    rw [hd] at h
    refine Or.inr ⟨d, rfl, ?_⟩
    cases hst : s.started with
    | false =>
      simp only [hst, Bool.not_false, if_true] at h
      rw [resetGame_eq] at h
      cases hr : randomFoodPosition cw (some initialSnake) draws with
      | error e => rw [hr] at h; cases h
      | ok res =>
        obtain ⟨pos, left1⟩ := res
        rw [hr] at h
        simp only [Except.ok.injEq, Prod.mk.injEq] at h
        exact Or.inl ⟨rfl, pos, by rw [h.2], h.1.symm⟩
    | true =>
      simp only [hst, Bool.not_true, Bool.false_eq_true, if_false] at h
      cases hpa : s.paused with
      | false =>
        simp only [hpa, Bool.not_false, if_true, Except.ok.injEq, Prod.mk.injEq] at h
        exact Or.inr (Or.inl ⟨rfl, rfl, h.1.symm, h.2.symm⟩)
      | true =>
        simp only [hpa, Bool.not_true, Bool.false_eq_true, if_false, Except.ok.injEq,
          Prod.mk.injEq] at h
        exact Or.inr (Or.inr ⟨rfl, rfl, h.1.symm, h.2.symm⟩)

theorem resetGame_cases (cw : ℕ) (s s1 : State) (draws left : List ℚ)
    (h : resetGame cw s draws = .ok (s1, left)) :
    ∃ pos, randomFoodPosition cw (some initialSnake) draws = .ok (pos, left) ∧
      s1 = afterReset s pos := by
  rw [resetGame_eq] at h
  cases hr : randomFoodPosition cw (some initialSnake) draws with
  | error e => rw [hr] at h; cases h
  | ok res =>
    obtain ⟨pos, left1⟩ := res
    rw [hr] at h
    simp only [Except.ok.injEq, Prod.mk.injEq] at h
    exact ⟨pos, by rw [h.2], h.1.symm⟩

theorem afterStart_fields (s : State) (pos d : Point) :
    (afterStart s pos d).snake = initialSnake ∧ (afterStart s pos d).direction = ⟨1, 0⟩ ∧
    (afterStart s pos d).nextDirection =
      (if d.x + 1 = 0 ∧ d.y + 0 = 0 then ⟨1, 0⟩ else d) ∧
    (afterStart s pos d).food = pos ∧ (afterStart s pos d).score = 0 ∧
    (afterStart s pos d).bestScore = s.bestScore ∧
    (afterStart s pos d).gameSpeed = initialSpeed ∧ (afterStart s pos d).started = true ∧
    (afterStart s pos d).paused = false ∧ (afterStart s pos d).storage = s.storage := by
  have ha := afterReset_fields s pos
  unfold afterStart
  simp only [startLoop_fields, setDirection_fields, setDirection_next, ha, and_self]

theorem togglePause_cases (s : State) :
    (s.started = false ∧ togglePause s = s) ∨
    (s.started = true ∧ togglePause s = { s with paused := !s.paused }) := by
  unfold togglePause
  cases h : s.started <;> simp

/-- Induction over the runs of the page: a property that holds once the script has loaded and
is kept by each way a call can return holds in every reachable state. -/
theorem Reachable.invariant (cw : ℕ) (P : State → Prop)
    (hboot : ∀ storage pos draws left,
      randomFoodPosition cw (some initialSnake) draws = .ok (pos, left) →
      P (afterReset (loadBestScore (pageLoad storage)) pos))
    (hreset : ∀ s pos draws left, P s →
      randomFoodPosition cw (some initialSnake) draws = .ok (pos, left) →
      P (afterReset s pos))
    (htick : ∀ s s1 draws left, P s → tick cw s draws = .ok (s1, left) → P s1)
    (hstart : ∀ s pos d draws left, P s → s.started = false → d ∈ unitVectors →
      randomFoodPosition cw (some initialSnake) draws = .ok (pos, left) →
      P (afterStart s pos d))
    (hsteer : ∀ s d, P s → s.started = true → s.paused = false → d ∈ unitVectors →
      P (setDirection s d))
    (htoggle : ∀ s, P s → s.started = true → P { s with paused := !s.paused }) :
    ∀ s, Reachable cw s → P s := by
  intro s hs
  induction hs with
  | boot storage draws rest s h =>
    obtain ⟨pos, hr, rfl⟩ := resetGame_cases cw _ s draws rest h
    exact hboot storage pos draws rest hr
  | call s s1 c draws rest _ hrun ih =>
    cases c with
    | tick => exact htick s s1 draws rest ih hrun
    | handleMoveKey key =>
      rcases handleMoveKey_cases cw s s1 key draws rest hrun with
        ⟨-, h1, -⟩ | ⟨d, hd, ⟨hst, pos, hr, h1⟩ | ⟨hst, hpa, h1, -⟩ | ⟨-, -, h1, -⟩⟩
      · rw [h1]; exact ih
      · rw [h1]; exact hstart s pos d draws rest ih hst (directionMap_unit key d hd) hr
      · rw [h1]; exact hsteer s d ih hst hpa (directionMap_unit key d hd)
      · rw [h1]; exact ih
    | togglePause =>
      simp only [Call.run, Except.ok.injEq, Prod.mk.injEq] at hrun
      rw [← hrun.1]
      rcases togglePause_cases s with ⟨-, h1⟩ | ⟨hst, h1⟩
      · rw [h1]; exact ih
      · rw [h1]; exact htoggle s ih hst
    | resetGame =>
      obtain ⟨pos, hr, rfl⟩ := resetGame_cases cw s s1 draws rest hrun
      exact hreset s pos draws rest ih hr

theorem tick_keeps_nodup (cw : ℕ) (s s1 : State) (draws left : List ℚ)
    (hn : s.snake.Nodup) (h : tick cw s draws = .ok (s1, left)) : s1.snake.Nodup := by
  rcases tick_cases cw s s1 draws left h with ⟨-, h1, -⟩ | ⟨-, f, r, hs, hcase⟩
  · rw [h1]; exact hn
  · rcases hcase with ⟨-, h1, -⟩ | ⟨-, hnot, -, h1, -⟩ | ⟨-, hnot, -, pos, -, h1⟩
    · rw [h1, (gameOver_fields _).1]; exact hn
    · rw [h1]
      refine List.nodup_cons.2 ⟨?_, hn.sublist (List.dropLast_sublist _)⟩
      exact fun hmem => hnot ((List.dropLast_sublist _).subset hmem)
    · rw [h1, (afterEat_fields s _ pos).1]
      exact List.nodup_cons.2 ⟨hnot, hn⟩

theorem reachable_nodup (cw : ℕ) (s : State) (h : Reachable cw s) : s.snake.Nodup := by
  refine Reachable.invariant cw (fun s => s.snake.Nodup) ?_ ?_ ?_ ?_ ?_ ?_ s h
  · intro storage pos draws left _
    rw [(afterReset_fields _ pos).1]; decide
  · intro s pos draws left _ _
    rw [(afterReset_fields _ pos).1]; decide
  · intro s s1 draws left hn ht
    exact tick_keeps_nodup cw s s1 draws left hn ht
  · intro s pos d draws left _ _ _ _
    show (afterStart s pos d).snake.Nodup
    rw [(afterStart_fields s pos d).1]; decide
  · intro s d hn _ _ _
    show (setDirection s d).snake.Nodup
    rw [(setDirection_fields s d).1]; exact hn
  · intro s hn _
    exact hn

theorem MappedReachable.to_reachable (cw : ℕ) (s : State) (h : MappedReachable cw s) :
    Reachable cw s := by
  induction h with
  | boot storage draws rest s hb => exact Reachable.boot storage draws rest s hb
  | call s s1 c draws rest _ _ hrun ih => exact Reachable.call s s1 c draws rest ih hrun

theorem runCalls_mappedReachable (cw : ℕ) (calls : List Call) :
    ∀ (s s1 : State) (draws left : List ℚ), MappedReachable cw s →
      (∀ c ∈ calls, c.Mapped) →
      runCalls cw s draws calls = .ok (s1, left) → MappedReachable cw s1 := by
  induction calls with
  | nil =>
    intro s s1 draws left hs _ h
    simp only [runCalls, Except.ok.injEq, Prod.mk.injEq] at h
    rw [← h.1]; exact hs
  | cons c cs ih =>
    intro s s1 draws left hs hm h
    rw [runCalls] at h
    cases hc : c.run cw s draws with
    | error e => rw [hc] at h; cases h
    | ok res =>
      obtain ⟨s2, rest⟩ := res
      rw [hc] at h
      exact ih s2 s1 rest left
        (MappedReachable.call s s2 c draws rest hs (hm c (List.mem_cons_self _ _)) hc)
        (fun c1 h1 => hm c1 (List.mem_cons_of_mem _ h1)) h

theorem freshGame_mapped : MappedReachable 400 freshGame :=
  MappedReachable.boot none [0, 0] [] freshGame boot_freshGame

theorem atBottomWall_mapped : MappedReachable 400 atBottomWall :=
  runCalls_mappedReachable 400
    [.handleMoveKey "ArrowDown", .tick, .tick, .tick, .tick, .tick, .tick, .tick, .tick, .tick]
    freshGame atBottomWall [0, 0] [] freshGame_mapped (by decide) (by decide!)

theorem mappedKeys_iff (key : String) : key ∈ mappedKeys ↔ directionMap key ≠ none := by
  unfold mappedKeys directionMap
  simp only [List.mem_cons, List.mem_singleton, List.not_mem_nil, or_false]
  constructor
  · rintro (h | h | h | h | h | h | h | h) <;> subst h <;> decide
  · intro h
    by_contra hn
    simp only [not_or] at hn
    apply h
    simp [hn.1, hn.2.1, hn.2.2.1, hn.2.2.2.1, hn.2.2.2.2.1, hn.2.2.2.2.2.1, hn.2.2.2.2.2.2.1,
      hn.2.2.2.2.2.2.2]

/-- C1, for the keys of `directionMap`: in every state reached from the loaded page by
`tick`, `togglePause`, `resetGame` and `handleMoveKey` with any of the eight mapped keys, no
two different positions of `snake` hold the same cell. -/
theorem snake_segments_distinct (cw : ℕ) (s : State) (h : MappedReachable cw s) :
    ∀ (i j : ℕ) (hi : i < s.snake.length) (hj : j < s.snake.length), i ≠ j →
      ¬ ((s.snake.get ⟨i, hi⟩).x = (s.snake.get ⟨j, hj⟩).x ∧
         (s.snake.get ⟨i, hi⟩).y = (s.snake.get ⟨j, hj⟩).y) := by
  intro i j hi hj hij heq
  have hn := reachable_nodup cw s (MappedReachable.to_reachable cw s h)
  have hpt : s.snake.get ⟨i, hi⟩ = s.snake.get ⟨j, hj⟩ := by
    cases hgi : s.snake.get ⟨i, hi⟩
    cases hgj : s.snake.get ⟨j, hj⟩
    rw [hgi, hgj] at heq
    simp only at heq
    rw [heq.1, heq.2]
  have := (List.Nodup.get_inj_iff hn).1 hpt
  exact hij (Fin.mk.inj_iff.1 this)

theorem freshGame_reachable : Reachable 400 freshGame :=
  Reachable.boot none [0, 0] [] freshGame boot_freshGame

theorem snake_segments_distinct_witness :
    MappedReachable 400 atBottomWall ∧
    ∀ (i j : ℕ) (hi : i < atBottomWall.snake.length) (hj : j < atBottomWall.snake.length),
      i ≠ j →
      ¬ ((atBottomWall.snake.get ⟨i, hi⟩).x = (atBottomWall.snake.get ⟨j, hj⟩).x ∧
         (atBottomWall.snake.get ⟨i, hi⟩).y = (atBottomWall.snake.get ⟨j, hj⟩).y) :=
  ⟨atBottomWall_mapped, snake_segments_distinct 400 atBottomWall atBottomWall_mapped⟩

theorem unit_not_self_opposite (d : Point) (h : d ∈ unitVectors) : ¬ Opposite d d := by
  simp only [unitVectors, List.mem_cons, List.mem_singleton, List.not_mem_nil, or_false] at h
  rcases h with rfl | rfl | rfl | rfl <;> decide

theorem tick_keeps_directions (cw : ℕ) (s s1 : State) (draws left : List ℚ)
    (hd : DirectionsOk s) (h : tick cw s draws = .ok (s1, left)) : DirectionsOk s1 := by
  have hself : DirectionsOk { s with direction := s.nextDirection } :=
    ⟨hd.1, unit_not_self_opposite _ hd.1⟩
  rcases tick_cases cw s s1 draws left h with ⟨-, h1, -⟩ | ⟨-, f, r, hs, hcase⟩
  · rw [h1]; exact hd
  · rcases hcase with ⟨-, h1, -⟩ | ⟨-, -, -, h1, -⟩ | ⟨-, -, -, pos, -, h1⟩
    · have hg := gameOver_fields { s with direction := s.nextDirection }
      rw [h1]
      unfold DirectionsOk
      rw [hg.2.1, hg.2.2.1]
      exact hself
    · rw [h1]; exact hself
    · have ha := afterEat_fields s (aheadOf f s) pos
      rw [h1]
      unfold DirectionsOk
      rw [ha.2.1, ha.2.2.1]
      exact hself

theorem setDirection_keeps_directions (s : State) (d : Point) (hd : DirectionsOk s)
    (hu : d ∈ unitVectors) : DirectionsOk (setDirection s d) := by
  unfold DirectionsOk
  rw [setDirection_next, (setDirection_fields s d).2.1]
  by_cases h : d.x + s.direction.x = 0 ∧ d.y + s.direction.y = 0
  · rw [if_pos h]; exact hd
  · rw [if_neg h]; exact ⟨hu, h⟩

theorem afterReset_directions (s : State) (pos : Point) : DirectionsOk (afterReset s pos) := by
  have ha := afterReset_fields s pos
  unfold DirectionsOk
  rw [ha.2.1, ha.2.2.1]
  decide

theorem afterStart_directions (s : State) (pos d : Point) (hu : d ∈ unitVectors) :
    DirectionsOk (afterStart s pos d) := by
  have ha := afterStart_fields s pos d
  unfold DirectionsOk
  rw [ha.2.1, ha.2.2.1]
  simp only [unitVectors, List.mem_cons, List.mem_singleton, List.not_mem_nil, or_false] at hu
  rcases hu with rfl | rfl | rfl | rfl <;> decide

theorem reachable_directions (cw : ℕ) (s : State) (h : Reachable cw s) : DirectionsOk s := by
  refine Reachable.invariant cw DirectionsOk ?_ ?_ ?_ ?_ ?_ ?_ s h
  · intro storage pos draws left _
    exact afterReset_directions _ pos
  · intro s pos draws left _ _
    exact afterReset_directions s pos
  · intro s s1 draws left hd ht
    exact tick_keeps_directions cw s s1 draws left hd ht
  · intro s pos d draws left _ _ hu _
    exact afterStart_directions s pos d hu
  · intro s d hd _ _ hu
    exact setDirection_keeps_directions s d hd hu
  · intro s hd _
    exact hd

theorem reachable_paused_started (cw : ℕ) (s : State) (h : Reachable cw s) :
    s.paused = true → s.started = true := by
  refine Reachable.invariant cw (fun s => s.paused = true → s.started = true)
    ?_ ?_ ?_ ?_ ?_ ?_ s h
  · intro storage pos draws left _ hp
    rw [(afterReset_fields _ pos).2.2.2.2.2.2.2.2.1] at hp
    cases hp
  · intro s pos draws left _ _ hp
    rw [(afterReset_fields _ pos).2.2.2.2.2.2.2.2.1] at hp
    cases hp
  · intro s s1 draws left hi ht hp
    rcases tick_cases cw s s1 draws left ht with ⟨-, h1, -⟩ | ⟨hnp, f, r, hs, hcase⟩
    · rw [h1] at hp ⊢; exact hi hp
    · rcases hcase with ⟨-, h1, -⟩ | ⟨-, -, -, h1, -⟩ | ⟨-, -, -, pos, -, h1⟩
      · rw [h1, (gameOver_fields _).2.2.2.2.2.2.2.2.1] at hp
        rw [hnp] at hp; cases hp
      · rw [h1] at hp
        rw [hnp] at hp; cases hp
      · rw [h1, (afterEat_fields s _ pos).2.2.2.2.2.2] at hp
        rw [hnp] at hp; cases hp
  · intro s pos d draws left _ _ _ _ _
    exact (afterStart_fields s pos d).2.2.2.2.2.2.2.1
  · intro s d _ hst _ _ _
    rw [(setDirection_fields s d).2.2.2.2.2.2.2.1]
    exact hst
  · intro s _ hst _
    exact hst

theorem tick_foodAhead : tick 400 foodAhead [0, 0] = .ok (foodEaten, []) := by
  decide!

theorem tick_game_over_iff_witness :
    ∃ s1, tick 400 atRightWall [] = .ok (s1, []) ∧ s1.started = false ∧ ¬ TimerRunning s1 ∧
      (∀ id, atRightWall.gameInterval = some id → id ≠ 0 → ∀ t ∈ s1.timers, t.1 ≠ id) ∧
      s1.snake = atRightWall.snake ∧ s1.food = atRightWall.food ∧
      s1.score = atRightWall.score ∧ s1.bestScore = atRightWall.bestScore ∧
      s1.gameSpeed = atRightWall.gameSpeed :=
  (tick_game_over_iff 400 atRightWall [] ⟨19, 10⟩ [⟨18, 10⟩, ⟨17, 10⟩] rfl rfl).1
    (Or.inl (by decide!))

theorem tick_eat_grows_witness :
    ∃ s1, tick 400 foodAhead [0, 0] = .ok (s1, []) ∧ s1.score = foodAhead.score + 1 ∧
      s1.snake = aheadOf ⟨9, 10⟩ foodAhead :: foodAhead.snake ∧
      s1.snake.length = foodAhead.snake.length + 1 ∧ s1.food = ⟨0, 0⟩ :=
  (tick_eat_grows.1 400 foodAhead [0, 0] ⟨9, 10⟩ [⟨8, 10⟩, ⟨7, 10⟩] rfl rfl
    (by decide!) (by decide) (by decide)).1 ⟨0, 0⟩ [] (by decide!)

theorem handleMoveKey_paused (cw : ℕ) (s : State) (key : String) (draws : List ℚ)
    (hst : s.started = true) (hp : s.paused = true) :
    handleMoveKey cw s key draws = .ok (s, draws) := by
  unfold handleMoveKey
  cases directionMap key with
  | none => rfl
  | some d => simp [hst, hp]

theorem startedUp_reachable : Reachable 400 startedUp :=
  Reachable.call freshGame startedUp (.handleMoveKey "ArrowUp") [0, 0] []
    freshGame_reachable (by decide!)

theorem pausedGame_reachable : Reachable 400 pausedGame :=
  Reachable.call startedUp pausedGame .togglePause [] [] startedUp_reachable (by decide!)

/-- C8: in a reachable state with `paused = true` the game has been started, and neither
`tick` nor `handleMoveKey`, with any key, changes anything: the state they return is the
state they were given, so `snake`, `food`, `direction`, `nextDirection`, `score`,
`bestScore` and `gameSpeed` keep their values. -/
theorem paused_freezes_game (cw : ℕ) (s : State) (h : Reachable cw s)
    (hp : s.paused = true) :
    s.started = true ∧
    (∀ draws, tick cw s draws = .ok (s, draws)) ∧
    (∀ key draws, handleMoveKey cw s key draws = .ok (s, draws)) :=
  ⟨reachable_paused_started cw s h hp,
   fun draws => tick_paused cw s draws hp,
   fun key draws =>
     handleMoveKey_paused cw s key draws (reachable_paused_started cw s h hp) hp⟩

theorem paused_freezes_game_witness :
    Reachable 400 pausedGame ∧ pausedGame.paused = true ∧
    pausedGame.started = true ∧
    (∀ draws, tick 400 pausedGame draws = .ok (pausedGame, draws)) ∧
    (∀ key draws, handleMoveKey 400 pausedGame key draws = .ok (pausedGame, draws)) :=
  ⟨pausedGame_reachable, rfl, paused_freezes_game 400 pausedGame pausedGame_reachable rfl⟩

theorem recordBest_notBelow (s : State) : NotBelow s.bestScore (recordBest s).bestScore := by
  unfold recordBest
  split
  · rename_i h
    exact Or.inr h
  · exact Or.inl rfl

theorem tick_bestScore (cw : ℕ) (s s1 : State) (draws left : List ℚ)
    (h : tick cw s draws = .ok (s1, left)) : NotBelow s.bestScore s1.bestScore := by
  rcases tick_cases cw s s1 draws left h with ⟨-, h1, -⟩ | ⟨-, f, r, hs, hcase⟩
  · rw [h1]; exact Or.inl rfl
  · rcases hcase with ⟨-, h1, -⟩ | ⟨-, -, -, h1, -⟩ | ⟨-, -, -, pos, -, h1⟩
    · rw [h1, (gameOver_fields _).2.2.2.2.2.1]; exact Or.inl rfl
    · rw [h1]; exact Or.inl rfl
    · rw [h1]
      unfold afterEat
      rw [(speedUp_fields _).2.2.2.2.2.1]
      exact recordBest_notBelow _

theorem handleMoveKey_bestScore (cw : ℕ) (s s1 : State) (key : String) (draws left : List ℚ)
    (h : handleMoveKey cw s key draws = .ok (s1, left)) : s1.bestScore = s.bestScore := by
  rcases handleMoveKey_cases cw s s1 key draws left h with
    ⟨-, h1, -⟩ | ⟨d, -, ⟨-, pos, -, h1⟩ | ⟨-, -, h1, -⟩ | ⟨-, -, h1, -⟩⟩
  · rw [h1]
  · rw [h1, (afterStart_fields s pos d).2.2.2.2.2.1]
  · rw [h1, (setDirection_fields s d).2.2.2.2.1]
  · rw [h1]

theorem togglePause_bestScore (s : State) : (togglePause s).bestScore = s.bestScore := by
  rcases togglePause_cases s with ⟨-, h⟩ | ⟨-, h⟩ <;> rw [h]

/-- C9: `bestScore` never decreases.  After `tick`, `resetGame`, `handleMoveKey` or
`togglePause` it is the number it was or a greater one, and `resetGame` (like
`handleMoveKey` and `togglePause`) leaves it exactly as it was. -/
theorem bestScore_never_decreases (cw : ℕ) (s : State) (draws : List ℚ) :
    (∀ s1 left, tick cw s draws = .ok (s1, left) → NotBelow s.bestScore s1.bestScore) ∧
    (∀ s1 left, resetGame cw s draws = .ok (s1, left) →
      NotBelow s.bestScore s1.bestScore ∧ s1.bestScore = s.bestScore) ∧
    (∀ key s1 left, handleMoveKey cw s key draws = .ok (s1, left) →
      NotBelow s.bestScore s1.bestScore) ∧
    NotBelow s.bestScore (togglePause s).bestScore := by
  refine ⟨fun s1 left h => tick_bestScore cw s s1 draws left h, ?_, ?_, ?_⟩
  · intro s1 left h
    obtain ⟨pos, -, rfl⟩ := resetGame_cases cw s s1 draws left h
    exact ⟨Or.inl (afterReset_fields s pos).2.2.2.2.2.1, (afterReset_fields s pos).2.2.2.2.2.1⟩
  · intro key s1 left h
    exact Or.inl (handleMoveKey_bestScore cw s s1 key draws left h)
  · exact Or.inl (togglePause_bestScore s)

theorem bestScore_never_decreases_witness :
    tick 400 foodAhead [0, 0] = .ok (foodEaten, []) ∧
    NotBelow foodAhead.bestScore foodEaten.bestScore ∧
    JSNumber.lt foodAhead.bestScore foodEaten.bestScore = true :=
  ⟨tick_foodAhead,
   (bestScore_never_decreases 400 foodAhead [0, 0]).1 foodEaten [] tick_foodAhead,
   by decide!⟩

theorem loadBestScore_of_nan (s : State) (str : String) (hs : s.storage = some str)
    (hn : toNumber str = JSNumber.nan) : (loadBestScore s).bestScore = JSNumber.fin 0 := by
  unfold loadBestScore
  simp only [hs]
  by_cases he : str = ""
  · simp [he, JSNumber.zero, JSNumber.isNaN]
  · simp [he, hn, JSNumber.zero, JSNumber.isNaN]

/-- C10: `loadBestScore` sets `bestScore` to `0` when the storage key is absent, when it
holds the empty string and when it holds a string for which `Number` gives `NaN`; the
string `"abc"` is such a string, so a stored `"abc"` loads as `0`. -/
theorem loadBestScore_defaults :
    (∀ s : State, s.storage = none → (loadBestScore s).bestScore = JSNumber.fin 0) ∧
    (∀ s : State, s.storage = some "" → (loadBestScore s).bestScore = JSNumber.fin 0) ∧
    (∀ (s : State) (str : String), s.storage = some str → toNumber str = JSNumber.nan →
      (loadBestScore s).bestScore = JSNumber.fin 0) ∧
    toNumber "abc" = JSNumber.nan ∧
    (∀ s : State, s.storage = some "abc" → (loadBestScore s).bestScore = JSNumber.fin 0) := by
  have habc : toNumber "abc" = JSNumber.nan := by decide
  refine ⟨?_, ?_, loadBestScore_of_nan, habc, fun s hs => loadBestScore_of_nan s "abc" hs habc⟩
  · intro s hs
    unfold loadBestScore
    simp [hs, JSNumber.zero, JSNumber.isNaN]
  · intro s hs
    unfold loadBestScore
    simp [hs, JSNumber.zero, JSNumber.isNaN]

theorem loadBestScore_defaults_witness :
    (pageLoad (some "abc")).storage = some "abc" ∧
    (loadBestScore (pageLoad (some "abc"))).bestScore = JSNumber.fin 0 :=
  ⟨rfl, loadBestScore_defaults.2.2.2.2 (pageLoad (some "abc")) rfl⟩

theorem handleMoveKey_start (cw : ℕ) (s : State) (key : String) (d : Point) (draws : List ℚ)
    (hk : directionMap key = some d) (hs : s.started = false) :
    handleMoveKey cw s key draws =
      match randomFoodPosition cw (some initialSnake) draws with
      | .error e => .error e
      | .ok (pos, left) => .ok (afterStart s pos d, left) := by
  unfold handleMoveKey
  simp only [hk, hs, Bool.not_false, if_true]
  rw [resetGame_eq]
  cases randomFoodPosition cw (some initialSnake) draws with
  | error e => rfl
  | ok res => rfl

theorem afterStart_timer (s : State) (pos d : Point) :
    ∃ id, (afterStart s pos d).gameInterval = some id ∧ id ≠ 0 ∧
      (id, initialSpeed) ∈ (afterStart s pos d).timers := by
  have ha := afterReset_fields s pos
  have hsd := setDirection_fields { afterReset s pos with started := true } d
  have hinact : handleActive
      (setDirection { afterReset s pos with started := true } d).gameInterval = false := by
    rw [hsd.2.2.2.2.2.1]
    exact ha.2.2.2.2.2.2.2.2.2.2
  have hrun := startLoop_running _ hinact
  have hspeed : (setDirection { afterReset s pos with started := true } d).gameSpeed
      = initialSpeed := by
    rw [hsd.2.2.2.2.2.2.1]
    exact ha.2.2.2.2.2.2.1
  rw [hspeed] at hrun
  exact ⟨_, hrun.1, Nat.succ_ne_zero _, hrun.2⟩

/-- C7 as stated fails: the first key of a game being `ArrowLeft`, the game starts with the
queued direction `(1,0)`, not with the direction `(-1,0)` the key maps to. -/
theorem first_key_left_not_queued :
    directionMap "ArrowLeft" = some ⟨-1, 0⟩ ∧ freshGame.started = false ∧
    ∃ s1, handleMoveKey 400 freshGame "ArrowLeft" [0, 0] = .ok (s1, []) ∧
      s1.started = true ∧ s1.nextDirection = ⟨1, 0⟩ ∧ s1.nextDirection ≠ ⟨-1, 0⟩ := by
  refine ⟨by decide, rfl, { startedUp with nextDirection := ⟨1, 0⟩ }, ?_, rfl, rfl, ?_⟩
  · decide!
  · decide

/-- C7, amended: a movement key handled while `started` is false resets and starts the game
as soon as the food loop of the reset returns: `started = true`, `paused = false`,
`score = 0`, the snake is `[(9,10),(8,10),(7,10)]`, the tick timer runs at the initial
speed, and the queued direction is the one the key maps to, except that for `ArrowLeft`
and `a`, whose direction `(-1,0)` is the reverse of the direction `(1,0)` set by the reset,
the queued direction stays `(1,0)`. -/
theorem first_key_starts_game :
    (directionMap "ArrowUp" = some ⟨0, -1⟩ ∧ directionMap "ArrowDown" = some ⟨0, 1⟩ ∧
     directionMap "ArrowLeft" = some ⟨-1, 0⟩ ∧ directionMap "ArrowRight" = some ⟨1, 0⟩ ∧
     directionMap "w" = some ⟨0, -1⟩ ∧ directionMap "s" = some ⟨0, 1⟩ ∧
     directionMap "a" = some ⟨-1, 0⟩ ∧ directionMap "d" = some ⟨1, 0⟩) ∧
    (∀ (cw : ℕ) (s : State) (key : String) (d : Point) (draws : List ℚ),
      directionMap key = some d → s.started = false →
      (∀ pos left, randomFoodPosition cw (some initialSnake) draws = .ok (pos, left) →
        ∃ s1, handleMoveKey cw s key draws = .ok (s1, left) ∧
          s1.started = true ∧ s1.paused = false ∧ s1.score = 0 ∧
          s1.snake = [⟨9, 10⟩, ⟨8, 10⟩, ⟨7, 10⟩] ∧
          (∃ id, s1.gameInterval = some id ∧ id ≠ 0 ∧ (id, 140) ∈ s1.timers) ∧
          s1.direction = ⟨1, 0⟩ ∧
          s1.nextDirection = (if d = ⟨-1, 0⟩ then ⟨1, 0⟩ else d)) ∧
      (∀ e, randomFoodPosition cw (some initialSnake) draws = .error e →
        handleMoveKey cw s key draws = .error e)) := by
  refine ⟨by decide, ?_⟩
  intro cw s key d draws hk hs
  have h := handleMoveKey_start cw s key d draws hk hs
  constructor
  · intro pos left hr
    rw [hr] at h
    have ha := afterStart_fields s pos d
    refine ⟨_, h, ha.2.2.2.2.2.2.2.1, ha.2.2.2.2.2.2.2.2.1, ha.2.2.2.2.1, ha.1,
      afterStart_timer s pos d, ha.2.1, ?_⟩
    rw [ha.2.2.1]
    have hu := directionMap_unit key d hk
    simp only [unitVectors, List.mem_cons, List.mem_singleton, List.not_mem_nil,
      or_false] at hu
    rcases hu with rfl | rfl | rfl | rfl <;> decide
  · intro e hr
    rw [hr] at h
    exact h

theorem first_key_starts_game_witness :
    ∃ s1, handleMoveKey 400 freshGame "ArrowUp" [0, 0] = .ok (s1, []) ∧
      s1.started = true ∧ s1.paused = false ∧ s1.score = 0 ∧
      s1.snake = [⟨9, 10⟩, ⟨8, 10⟩, ⟨7, 10⟩] ∧
      (∃ id, s1.gameInterval = some id ∧ id ≠ 0 ∧ (id, 140) ∈ s1.timers) ∧
      s1.direction = ⟨1, 0⟩ ∧
      s1.nextDirection = (if (⟨0, -1⟩ : Point) = ⟨-1, 0⟩ then ⟨1, 0⟩ else ⟨0, -1⟩) :=
  (first_key_starts_game.2 400 freshGame "ArrowUp" ⟨0, -1⟩ [0, 0] (by decide) rfl).1
    ⟨0, 0⟩ [] (food_corner 400 [])

theorem runCalls_reachable (cw : ℕ) (calls : List Call) :
    ∀ (s s1 : State) (draws left : List ℚ), Reachable cw s →
      runCalls cw s draws calls = .ok (s1, left) → Reachable cw s1 := by
  induction calls with
  | nil =>
    intro s s1 draws left hs h
    simp only [runCalls, Except.ok.injEq, Prod.mk.injEq] at h
    rw [← h.1]; exact hs
  | cons c cs ih =>
    intro s s1 draws left hs h
    rw [runCalls] at h
    cases hc : c.run cw s draws with
    | error e => rw [hc] at h; cases h
    | ok res =>
      obtain ⟨s2, rest⟩ := res
      rw [hc] at h
      exact ih s2 s1 rest left (Reachable.call s s2 c draws rest hs hc) h

theorem atBottomWall_reachable : Reachable 400 atBottomWall :=
  runCalls_reachable 400
    [.handleMoveKey "ArrowDown", .tick, .tick, .tick, .tick, .tick, .tick, .tick, .tick, .tick]
    freshGame atBottomWall [0, 0] [] freshGame_reachable (by decide!)

theorem tick_direction (cw : ℕ) (s s1 : State) (draws left : List ℚ)
    (h : tick cw s draws = .ok (s1, left)) :
    (s.paused = false → s1.direction = s.nextDirection) ∧
    (s.paused = true → s1.direction = s.direction) := by
  rcases tick_cases cw s s1 draws left h with ⟨hp, h1, -⟩ | ⟨hp, f, r, hs, hcase⟩
  · refine ⟨fun hf => ?_, fun _ => by rw [h1]⟩
    rw [hp] at hf; cases hf
  · refine ⟨fun _ => ?_, fun ht => ?_⟩
    · rcases hcase with ⟨-, h1, -⟩ | ⟨-, -, -, h1, -⟩ | ⟨-, -, -, pos, -, h1⟩
      · rw [h1, (gameOver_fields _).2.1]
      · rw [h1]
      · rw [h1, (afterEat_fields s _ pos).2.1]
    · rw [hp] at ht; cases ht

/-- C6 as stated fails: a tick commits the direction `(0,1)` and ends the game at the bottom
wall, the only call before the next tick is the key `ArrowUp`, which starts a new game, and
that next tick commits `(0,-1)`, the reverse. -/
theorem reversal_after_game_over :
    MappedReachable 400 atBottomWall ∧ atBottomWall.paused = false ∧
    tick 400 atBottomWall [] = .ok (crashed, []) ∧
    crashed.direction = ⟨0, 1⟩ ∧
    "ArrowUp" ∈ mappedKeys ∧
    handleMoveKey 400 crashed "ArrowUp" [0, 0] = .ok (restartedUp, []) ∧
    restartedUp.paused = false ∧
    tick 400 restartedUp [] = .ok (movedUp, []) ∧
    movedUp.direction = ⟨0, -1⟩ ∧
    movedUp.direction.x + crashed.direction.x = 0 ∧
    movedUp.direction.y + crashed.direction.y = 0 :=
  ⟨atBottomWall_mapped, rfl, by decide!, rfl, by decide, by decide!, rfl, by decide!, rfl,
    by decide, by decide⟩

/-- C6, amended: in every state reached from the loaded page by `tick`, `togglePause`,
`resetGame` and `handleMoveKey` with any of the eight mapped keys, the queued direction is
not the exact opposite of the current direction.  Hence the direction a tick commits is
never the reverse of the direction that was current when the tick began; that one is the
direction committed by the previous tick as long as no `resetGame` ran in between, because a
paused tick, `togglePause` and `handleMoveKey` with a mapped key in a started game leave
`direction` as it is. -/
theorem queued_direction_not_reverse (cw : ℕ) (s : State) (h : MappedReachable cw s) :
    ¬ (s.nextDirection.x + s.direction.x = 0 ∧ s.nextDirection.y + s.direction.y = 0) ∧
    (∀ draws s1 left, tick cw s draws = .ok (s1, left) →
      (s.paused = false → s1.direction = s.nextDirection ∧
        ¬ (s1.direction.x + s.direction.x = 0 ∧ s1.direction.y + s.direction.y = 0)) ∧
      (s.paused = true → s1.direction = s.direction)) ∧
    (togglePause s).direction = s.direction ∧
    (∀ key draws s1 left, key ∈ mappedKeys → s.started = true →
      handleMoveKey cw s key draws = .ok (s1, left) → s1.direction = s.direction) := by
  have hd := (reachable_directions cw s (MappedReachable.to_reachable cw s h)).2
  refine ⟨hd, ?_, ?_, ?_⟩
  · intro draws s1 left ht
    have htd := tick_direction cw s s1 draws left ht
    refine ⟨fun hp => ⟨htd.1 hp, ?_⟩, htd.2⟩
    rw [htd.1 hp]
    exact hd
  · rcases togglePause_cases s with ⟨-, h1⟩ | ⟨-, h1⟩ <;> rw [h1]
  · intro key draws s1 left _ hst hk
    rcases handleMoveKey_cases cw s s1 key draws left hk with
      ⟨-, h1, -⟩ | ⟨d, -, ⟨hf, -⟩ | ⟨-, -, h1, -⟩ | ⟨-, -, h1, -⟩⟩
    · rw [h1]
    · rw [hst] at hf; cases hf
    · rw [h1, (setDirection_fields s d).2.1]
    · rw [h1]

theorem queued_direction_not_reverse_witness :
    MappedReachable 400 restartedUp ∧
    ¬ (restartedUp.nextDirection.x + restartedUp.direction.x = 0 ∧
       restartedUp.nextDirection.y + restartedUp.direction.y = 0) ∧
    movedUp.direction = restartedUp.nextDirection ∧
    ¬ (movedUp.direction.x + restartedUp.direction.x = 0 ∧
       movedUp.direction.y + restartedUp.direction.y = 0) := by
  have hr : MappedReachable 400 restartedUp :=
    runCalls_mappedReachable 400 [.tick, .handleMoveKey "ArrowUp"] atBottomWall restartedUp
      [0, 0] [] atBottomWall_mapped (by decide) (by decide!)
  have hq := queued_direction_not_reverse 400 restartedUp hr
  exact ⟨hr, hq.1, (hq.2.1 [] movedUp [] (by decide!)).1 rfl⟩

theorem afterEat_gameSpeed (s : State) (head pos : Point) :
    (afterEat s head pos).gameSpeed =
      if s.gameSpeed > minSpeed then max minSpeed (s.gameSpeed - 4) else s.gameSpeed := by
  unfold afterEat speedUp
  simp only [recordBest_fields]
  split
  · simp only [restartLoop_fields]
  · simp only [recordBest_fields]

theorem afterStart_score_speed (s : State) (pos d : Point) :
    (afterStart s pos d).score = 0 ∧ (afterStart s pos d).gameSpeed = initialSpeed := by
  have ha := afterStart_fields s pos d
  exact ⟨ha.2.2.2.2.1, ha.2.2.2.2.2.2.1⟩

theorem afterReset_score_speed (s : State) (pos : Point) :
    (afterReset s pos).score = 0 ∧ (afterReset s pos).gameSpeed = initialSpeed := by
  have ha := afterReset_fields s pos
  exact ⟨ha.2.2.2.2.1, ha.2.2.2.2.2.2.1⟩

theorem tick_keeps_speed (cw : ℕ) (s s1 : State) (draws left : List ℚ)
    (hi : s.gameSpeed = speedFor s.score) (h : tick cw s draws = .ok (s1, left)) :
    s1.gameSpeed = speedFor s1.score := by
  rcases tick_cases cw s s1 draws left h with ⟨-, h1, -⟩ | ⟨-, f, r, hs, hcase⟩
  · rw [h1]; exact hi
  · rcases hcase with ⟨-, h1, -⟩ | ⟨-, -, -, h1, -⟩ | ⟨-, -, -, pos, -, h1⟩
    · have hg := gameOver_fields { s with direction := s.nextDirection }
      rw [h1, hg.2.2.2.2.2.2.1, hg.2.2.2.2.1]; exact hi
    · rw [h1]; exact hi
    · rw [h1, afterEat_gameSpeed, (afterEat_fields s _ pos).2.2.2.2.1, hi]
      unfold speedFor minSpeed
      push_cast
      split <;> omega

theorem reachable_speed (cw : ℕ) (s : State) (h : Reachable cw s) :
    s.gameSpeed = speedFor s.score := by
  refine Reachable.invariant cw (fun s => s.gameSpeed = speedFor s.score) ?_ ?_ ?_ ?_ ?_ ?_ s h
  · intro storage pos draws left _
    rw [(afterReset_score_speed _ pos).1, (afterReset_score_speed _ pos).2]; rfl
  · intro s pos draws left _ _
    rw [(afterReset_score_speed _ pos).1, (afterReset_score_speed _ pos).2]; rfl
  · intro s s1 draws left hi ht
    exact tick_keeps_speed cw s s1 draws left hi ht
  · intro s pos d draws left _ _ _ _
    show (afterStart s pos d).gameSpeed = speedFor (afterStart s pos d).score
    rw [(afterStart_score_speed s pos d).1, (afterStart_score_speed s pos d).2]; rfl
  · intro s d hi _ _ _
    show (setDirection s d).gameSpeed = speedFor (setDirection s d).score
    simp only [setDirection_fields]; exact hi
  · intro s hi _
    exact hi

/-- C13: in every reachable state `gameSpeed = max(80, 140 - 4 * score)`, so it lies between
80 and 140; `resetGame` sets it to 140, and a tick that eats (the score goes up by one)
lowers it by exactly 4 as long as it is above 80 and leaves it at 80 afterwards. -/
theorem gameSpeed_formula (cw : ℕ) (s : State) (h : Reachable cw s) :
    s.gameSpeed = max 80 (140 - 4 * (s.score : ℤ)) ∧
    80 ≤ s.gameSpeed ∧ s.gameSpeed ≤ 140 ∧
    (∀ draws s1 left, resetGame cw s draws = .ok (s1, left) →
      s1.gameSpeed = 140 ∧ s1.score = 0) ∧
    (∀ draws s1 left, tick cw s draws = .ok (s1, left) → s1.score = s.score + 1 →
      (80 < s.gameSpeed → s1.gameSpeed = s.gameSpeed - 4) ∧
      (s.gameSpeed = 80 → s1.gameSpeed = 80)) := by
  have hs := reachable_speed cw s h
  unfold speedFor at hs
  refine ⟨hs, by omega, by omega, ?_, ?_⟩
  · intro draws s1 left hr
    obtain ⟨pos, -, rfl⟩ := resetGame_cases cw s s1 draws left hr
    exact ⟨(afterReset_score_speed s pos).2, (afterReset_score_speed s pos).1⟩
  · intro draws s1 left ht hsc
    have h1 := reachable_speed cw s1 (Reachable.call s s1 .tick draws left h ht)
    unfold speedFor at h1
    rw [hsc] at h1
    push_cast at h1
    constructor <;> intro _ <;> omega

theorem foodAhead_reachable : Reachable 400 foodAhead :=
  Reachable.call freshGame foodAhead (.handleMoveKey "ArrowRight") [1 / 2, 1 / 2] []
    freshGame_reachable (by decide!)

theorem foodEaten_reachable : Reachable 400 foodEaten :=
  Reachable.call foodAhead foodEaten .tick [0, 0] [] foodAhead_reachable tick_foodAhead

theorem tick_keeps_inGrid (cw : ℕ) (s s1 : State) (draws left : List ℚ)
    (hi : ∀ seg ∈ s.snake, InGrid cw seg) (h : tick cw s draws = .ok (s1, left)) :
    ∀ seg ∈ s1.snake, InGrid cw seg := by
  rcases tick_cases cw s s1 draws left h with ⟨-, h1, -⟩ | ⟨-, f, r, hs, hcase⟩
  · rw [h1]; exact hi
  · rcases hcase with ⟨-, h1, -⟩ | ⟨hg, -, -, h1, -⟩ | ⟨hg, -, -, pos, -, h1⟩
    · rw [h1, (gameOver_fields _).1]; exact hi
    · rw [h1]
      intro seg hseg
      rcases List.mem_cons.1 hseg with rfl | hmem
      · exact hg
      · exact hi seg ((List.dropLast_sublist _).subset hmem)
    · rw [h1, (afterEat_fields s _ pos).1]
      intro seg hseg
      rcases List.mem_cons.1 hseg with rfl | hmem
      · exact hg
      · exact hi seg hmem

theorem initialSnake_inGrid (cw : ℕ) (h : 10 < tileCount cw) :
    ∀ seg ∈ initialSnake, InGrid cw seg := by
  intro seg hseg
  simp only [initialSnake, List.mem_cons, List.mem_singleton, List.not_mem_nil,
    or_false] at hseg
  rcases hseg with rfl | rfl | rfl <;>
    (unfold InGrid; simp only [Int.cast_ofNat]; refine ⟨?_, ?_, ?_, ?_⟩ <;> linarith)

theorem reachable_inGrid (cw : ℕ) (h10 : 10 < tileCount cw) (s : State)
    (h : Reachable cw s) : ∀ seg ∈ s.snake, InGrid cw seg := by
  refine Reachable.invariant cw (fun s => ∀ seg ∈ s.snake, InGrid cw seg)
    ?_ ?_ ?_ ?_ ?_ ?_ s h
  · intro storage pos draws left _
    rw [(afterReset_fields _ pos).1]; exact initialSnake_inGrid cw h10
  · intro s pos draws left _ _
    rw [(afterReset_fields _ pos).1]; exact initialSnake_inGrid cw h10
  · intro s s1 draws left hi ht
    exact tick_keeps_inGrid cw s s1 draws left hi ht
  · intro s pos d draws left _ _ _ _
    show ∀ seg ∈ (afterStart s pos d).snake, InGrid cw seg
    rw [(afterStart_fields s pos d).1]; exact initialSnake_inGrid cw h10
  · intro s d hi _ _ _
    show ∀ seg ∈ (setDirection s d).snake, InGrid cw seg
    rw [(setDirection_fields s d).1]; exact hi
  · intro s hi _
    exact hi

theorem foodEaten_mapped : MappedReachable 400 foodEaten :=
  runCalls_mappedReachable 400 [.handleMoveKey "ArrowRight", .tick] freshGame foodEaten
    [1 / 2, 1 / 2, 0, 0] [] freshGame_mapped (by decide) (by decide!)

/-- C16, for the keys of `directionMap`: when `tileCount` is a whole number, at least 11,
every segment of the snake of every state reached from the loaded page by `tick`,
`togglePause`, `resetGame` and `handleMoveKey` with any of the eight mapped keys has whole
coordinates `x` and `y` with `0 ≤ x < tileCount` and `0 ≤ y < tileCount`. -/
theorem snake_inside_grid (cw n : ℕ) (hn : tileCount cw = (n : ℚ)) (h11 : 11 ≤ n)
    (s : State) (h : MappedReachable cw s) :
    ∀ seg ∈ s.snake, 0 ≤ seg.x ∧ seg.x < (n : ℤ) ∧ 0 ≤ seg.y ∧ seg.y < (n : ℤ) := by
  have h10 : 10 < tileCount cw := by
    rw [hn]
    have : (11 : ℚ) ≤ (n : ℚ) := by exact_mod_cast h11
    linarith
  intro seg hseg
  have hg := reachable_inGrid cw h10 s (MappedReachable.to_reachable cw s h) seg hseg
  unfold InGrid at hg
  rw [hn] at hg
  obtain ⟨h1, h2, h3, h4⟩ := hg
  have e1 : (0 : ℚ) = ((0 : ℤ) : ℚ) := by norm_num
  have e2 : ((n : ℕ) : ℚ) = (((n : ℤ)) : ℚ) := by norm_num
  rw [e1] at h1 h3
  rw [e2] at h2 h4
  exact ⟨Int.cast_le.1 h1, Int.cast_lt.1 h2, Int.cast_le.1 h3, Int.cast_lt.1 h4⟩

theorem snake_inside_grid_witness :
    tileCount 400 = ((20 : ℕ) : ℚ) ∧ 11 ≤ 20 ∧ MappedReachable 400 foodEaten ∧
    ∀ seg ∈ foodEaten.snake, 0 ≤ seg.x ∧ seg.x < ((20 : ℕ) : ℤ) ∧ 0 ≤ seg.y ∧
      seg.y < ((20 : ℕ) : ℤ) :=
  ⟨by rw [tileCount_400]; norm_num, by decide, foodEaten_mapped,
   snake_inside_grid 400 20 (by rw [tileCount_400]; norm_num) (by decide) foodEaten
     foodEaten_mapped⟩

theorem gameSpeed_formula_witness :
    Reachable 400 foodAhead ∧
    foodAhead.gameSpeed = max 80 (140 - 4 * (foodAhead.score : ℤ)) ∧
    tick 400 foodAhead [0, 0] = .ok (foodEaten, []) ∧
    foodEaten.score = foodAhead.score + 1 ∧ 80 < foodAhead.gameSpeed ∧
    foodEaten.gameSpeed = foodAhead.gameSpeed - 4 :=
  ⟨foodAhead_reachable, (gameSpeed_formula 400 foodAhead foodAhead_reachable).1,
   tick_foodAhead, rfl, by decide,
   ((gameSpeed_formula 400 foodAhead foodAhead_reachable).2.2.2.2 [0, 0] foodEaten []
      tick_foodAhead rfl).1 (by decide)⟩

theorem behind_aheadOf (first : Point) (s : State) :
    first = behind (aheadOf first s) s.nextDirection := by
  cases first
  simp [behind, aheadOf]

theorem afterReset_neck (s : State) (pos : Point) : NeckOk (afterReset s pos) := by
  have ha := afterReset_fields s pos
  refine ⟨⟨9, 10⟩, ⟨8, 10⟩, [⟨7, 10⟩], ⟨1, 0⟩, ha.1, by decide, ?_, ?_, Or.inl ha.2.1.symm⟩
  · rw [ha.2.2.1]; decide
  · rw [ha.2.2.1]; decide

theorem afterStart_neck (s : State) (pos d : Point) (hu : d ∈ unitVectors) :
    NeckOk (afterStart s pos d) := by
  have ha := afterStart_fields s pos d
  have hd := afterStart_directions s pos d hu
  refine ⟨⟨9, 10⟩, ⟨8, 10⟩, [⟨7, 10⟩], ⟨1, 0⟩, ha.1, by decide, ?_, hd.1, Or.inl ha.2.1.symm⟩
  have := hd.2
  rw [ha.2.1] at this
  exact this

theorem tick_keeps_neck (cw : ℕ) (s s1 : State) (draws left : List ℚ)
    (hi : NeckOk s) (h : tick cw s draws = .ok (s1, left)) : NeckOk s1 := by
  obtain ⟨seg0, seg1, rest, d, hsn, hb, hopp, hu, hd⟩ := hi
  have hself : ¬ Opposite s.nextDirection s.nextDirection := unit_not_self_opposite _ hu
  rcases tick_cases cw s s1 draws left h with ⟨-, h1, -⟩ | ⟨hp, f, r, hs, hcase⟩
  · rw [h1]; exact ⟨seg0, seg1, rest, d, hsn, hb, hopp, hu, hd⟩
  · have hf : f = seg0 := by
      rw [hsn] at hs; cases hs; rfl
    subst hf
    rcases hcase with ⟨-, h1, -⟩ | ⟨-, -, -, h1, -⟩ | ⟨-, -, -, pos, -, h1⟩
    · have hg := gameOver_fields { s with direction := s.nextDirection }
      refine ⟨f, seg1, rest, d, ?_, hb, ?_, ?_, Or.inr ⟨?_, ?_⟩⟩
      · rw [h1, hg.1]; exact hsn
      · rw [h1, hg.2.2.1]; exact hopp
      · rw [h1, hg.2.2.1]; exact hu
      · rw [h1, hg.2.2.2.2.2.2.2.1]
      · rw [h1, hg.2.2.1, hg.2.1]
    · subst h1
      refine ⟨aheadOf f s, f, (seg1 :: rest).dropLast, s.nextDirection, ?_,
        behind_aheadOf f s, hself, hu, Or.inl rfl⟩
      show aheadOf f s :: s.snake.dropLast = _
      rw [hsn]; rfl
    · have ha := afterEat_fields s (aheadOf f s) pos
      refine ⟨aheadOf f s, f, seg1 :: rest, s.nextDirection, ?_,
        behind_aheadOf f s, ?_, ?_, Or.inl ?_⟩
      · rw [h1, ha.1, hsn]
      · rw [h1, ha.2.2.1]; exact hself
      · rw [h1, ha.2.2.1]; exact hu
      · rw [h1, ha.2.1]

theorem reachable_neck (cw : ℕ) (s : State) (h : Reachable cw s) : NeckOk s := by
  refine Reachable.invariant cw NeckOk ?_ ?_ ?_ ?_ ?_ ?_ s h
  · intro storage pos draws left _
    exact afterReset_neck _ pos
  · intro s pos draws left _ _
    exact afterReset_neck s pos
  · intro s s1 draws left hi ht
    exact tick_keeps_neck cw s s1 draws left hi ht
  · intro s pos d draws left _ _ hu _
    exact afterStart_neck s pos d hu
  · intro s d hi hst _ hu
    obtain ⟨seg0, seg1, rest, d0, hsn, hb, hopp, hu0, hd⟩ := hi
    have hdir : d0 = s.direction := by
      rcases hd with hd | ⟨hf, -⟩
      · exact hd
      · rw [hst] at hf; cases hf
    have hf := setDirection_fields s d
    refine ⟨seg0, seg1, rest, d0, ?_, hb, ?_, ?_, Or.inl ?_⟩
    · rw [hf.1]; exact hsn
    · rw [setDirection_next]
      split
      · exact hopp
      · rename_i hno
        rw [hdir]; exact hno
    · rw [setDirection_next]
      split
      · exact hu0
      · exact hu
    · rw [hf.2.1]; exact hdir
  · intro s hi _
    exact hi

theorem afterReset_neckBehind (cw : ℕ) (s : State) (pos : Point) :
    NeckBehind cw (afterReset s pos) := by
  have ha := afterReset_fields s pos
  refine ⟨⟨9, 10⟩, ⟨8, 10⟩, [⟨7, 10⟩], ha.1, Or.inl ?_⟩
  rw [ha.2.1]; decide

theorem afterStart_neckBehind (cw : ℕ) (s : State) (pos d : Point) :
    NeckBehind cw (afterStart s pos d) := by
  have ha := afterStart_fields s pos d
  refine ⟨⟨9, 10⟩, ⟨8, 10⟩, [⟨7, 10⟩], ha.1, Or.inl ?_⟩
  rw [ha.2.1]; decide

theorem tick_keeps_neckBehind (cw : ℕ) (s s1 : State) (draws left : List ℚ)
    (hi : NeckBehind cw s) (h : tick cw s draws = .ok (s1, left)) : NeckBehind cw s1 := by
  obtain ⟨seg0, seg1, rest, hsn, hd⟩ := hi
  rcases tick_cases cw s s1 draws left h with ⟨-, h1, -⟩ | ⟨hp, f, r, hs, hcase⟩
  · rw [h1]; exact ⟨seg0, seg1, rest, hsn, hd⟩
  · have hf : f = seg0 := by
      rw [hsn] at hs; cases hs; rfl
    subst hf
    rcases hcase with ⟨hcol, h1, -⟩ | ⟨-, -, -, h1, -⟩ | ⟨-, -, -, pos, -, h1⟩
    · have hg := gameOver_fields { s with direction := s.nextDirection }
      have hsnake : s1.snake = s.snake := by rw [h1, hg.1]
      have hnext : s1.nextDirection = s.nextDirection := by rw [h1, hg.2.2.1]
      have hdir : s1.direction = s.nextDirection := by rw [h1, hg.2.1]
      have hahead : aheadOf f s1 = aheadOf f s := by
        unfold aheadOf; rw [hnext]
      refine ⟨f, seg1, rest, by rw [hsnake]; exact hsn, Or.inr ⟨?_, ?_, ?_⟩⟩
      · rw [h1, hg.2.2.2.2.2.2.2.1]
      · rw [hnext, hdir]
      · rw [hahead, hsnake]; exact hcol
    · subst h1
      refine ⟨aheadOf f s, f, (seg1 :: rest).dropLast, ?_, Or.inl (behind_aheadOf f s)⟩
      show aheadOf f s :: s.snake.dropLast = _
      rw [hsn]; rfl
    · have ha := afterEat_fields s (aheadOf f s) pos
      refine ⟨aheadOf f s, f, seg1 :: rest, ?_, Or.inl ?_⟩
      · rw [h1, ha.1, hsn]
      · rw [h1, ha.2.1]; exact behind_aheadOf f s

theorem reachable_neckBehind (cw : ℕ) (s : State) (h : Reachable cw s) : NeckBehind cw s := by
  refine Reachable.invariant cw (NeckBehind cw) ?_ ?_ ?_ ?_ ?_ ?_ s h
  · intro storage pos draws left _
    exact afterReset_neckBehind cw _ pos
  · intro s pos draws left _ _
    exact afterReset_neckBehind cw s pos
  · intro s s1 draws left hi ht
    exact tick_keeps_neckBehind cw s s1 draws left hi ht
  · intro s pos d draws left _ _ _ _
    exact afterStart_neckBehind cw s pos d
  · intro s d hi hst _ _
    obtain ⟨seg0, seg1, rest, hsn, hd⟩ := hi
    have hf := setDirection_fields s d
    refine ⟨seg0, seg1, rest, by rw [hf.1]; exact hsn, Or.inl ?_⟩
    rw [hf.2.1]
    rcases hd with hd | ⟨hfalse, -⟩
    · exact hd
    · rw [hst] at hfalse; cases hfalse
  · intro s hi hst
    obtain ⟨seg0, seg1, rest, hsn, hd⟩ := hi
    refine ⟨seg0, seg1, rest, hsn, Or.inl ?_⟩
    rcases hd with hd | ⟨hfalse, -⟩
    · exact hd
    · rw [hst] at hfalse; cases hfalse

theorem crashedAfterTurn_mapped : MappedReachable 400 crashedAfterTurn :=
  runCalls_mappedReachable 400
    [.handleMoveKey "ArrowRight", .tick, .handleMoveKey "ArrowDown", .tick]
    atBottomWall crashedAfterTurn [] [] atBottomWall_mapped (by decide) (by decide!)

/-- C19 as stated fails: in the state left by a tick that turned the head into the bottom
wall, reached with the keys `ArrowDown`, `ArrowRight` and `ArrowDown` only, the direction is
`(0,1)`, the head is `(10,19)` and the second segment is `(9,19)`, not the cell `(10,18)`
behind the head. -/
theorem neck_not_behind_after_game_over :
    MappedReachable 400 crashedAfterTurn ∧
    crashedAfterTurn.snake = [⟨10, 19⟩, ⟨9, 19⟩, ⟨9, 18⟩] ∧
    crashedAfterTurn.direction = ⟨0, 1⟩ ∧
    ¬ ((⟨9, 19⟩ : Point).x = (⟨10, 19⟩ : Point).x - crashedAfterTurn.direction.x ∧
       (⟨9, 19⟩ : Point).y = (⟨10, 19⟩ : Point).y - crashedAfterTurn.direction.y) :=
  ⟨crashedAfterTurn_mapped, rfl, rfl, by decide⟩

/-- C19, amended: in every state reached from the loaded page by `tick`, `togglePause`,
`resetGame` and `handleMoveKey` with any of the eight mapped keys, the snake has a second
segment.  It is the cell directly behind the head along the current direction whenever the
game is started, and also when it is not started unless the cell ahead of the head along the
current direction is outside the grid or on the snake: that is the state left by the tick
that ended the game, which committed its direction without moving the snake.  In every such
state the next head computed by `tick` is not the second segment. -/
theorem neck_behind_head (cw : ℕ) (s : State) (h : MappedReachable cw s) :
    ∃ (seg0 seg1 : Point) (rest : List Point), s.snake = seg0 :: seg1 :: rest ∧
      ((seg1.x = seg0.x - s.direction.x ∧ seg1.y = seg0.y - s.direction.y) ∨
        (s.started = false ∧
          (¬ InGrid cw ⟨seg0.x + s.direction.x, seg0.y + s.direction.y⟩ ∨
            (⟨seg0.x + s.direction.x, seg0.y + s.direction.y⟩ : Point) ∈ s.snake))) ∧
      (s.started = true →
        seg1.x = seg0.x - s.direction.x ∧ seg1.y = seg0.y - s.direction.y) ∧
      ¬ (seg0.x + s.nextDirection.x = seg1.x ∧ seg0.y + s.nextDirection.y = seg1.y) := by
  have hr := MappedReachable.to_reachable cw s h
  obtain ⟨seg0, seg1, rest, hsn, hd⟩ := reachable_neckBehind cw s hr
  obtain ⟨t0, t1, trest, d, hsn2, hb, hopp, -, -⟩ := reachable_neck cw s hr
  have hsame : t0 = seg0 ∧ t1 = seg1 := by
    rw [hsn] at hsn2
    simp only [List.cons.injEq] at hsn2
    exact ⟨hsn2.1.symm, hsn2.2.1.symm⟩
  obtain ⟨rfl, rfl⟩ := hsame
  refine ⟨t0, t1, rest, hsn, ?_, ?_, ?_⟩
  · rcases hd with hd | ⟨hf, hnd, hcol⟩
    · left; rw [hd]; exact ⟨rfl, rfl⟩
    · right
      refine ⟨hf, ?_⟩
      have : aheadOf t0 s = ⟨t0.x + s.direction.x, t0.y + s.direction.y⟩ := by
        unfold aheadOf; rw [hnd]
      rw [← this]; exact hcol
  · intro hst
    rcases hd with hd | ⟨hf, -⟩
    · rw [hd]; exact ⟨rfl, rfl⟩
    · rw [hst] at hf; cases hf
  · rintro ⟨hx, hy⟩
    apply hopp
    have hcx : t1.x = t0.x - d.x := by rw [hb]; rfl
    have hcy : t1.y = t0.y - d.y := by rw [hb]; rfl
    unfold Opposite
    constructor <;> omega

theorem neck_behind_head_witness :
    MappedReachable 400 freshGame ∧
    InGrid 400 ⟨(⟨9, 10⟩ : Point).x + freshGame.direction.x,
      (⟨9, 10⟩ : Point).y + freshGame.direction.y⟩ ∧
    ∃ (seg0 seg1 : Point) (rest : List Point), freshGame.snake = seg0 :: seg1 :: rest ∧
      ((seg1.x = seg0.x - freshGame.direction.x ∧ seg1.y = seg0.y - freshGame.direction.y) ∨
        (freshGame.started = false ∧
          (¬ InGrid 400 ⟨seg0.x + freshGame.direction.x, seg0.y + freshGame.direction.y⟩ ∨
            (⟨seg0.x + freshGame.direction.x, seg0.y + freshGame.direction.y⟩ : Point) ∈
              freshGame.snake))) ∧
      (freshGame.started = true →
        seg1.x = seg0.x - freshGame.direction.x ∧ seg1.y = seg0.y - freshGame.direction.y) ∧
      ¬ (seg0.x + freshGame.nextDirection.x = seg1.x ∧
         seg0.y + freshGame.nextDirection.y = seg1.y) :=
  ⟨freshGame_mapped, by decide!, neck_behind_head 400 freshGame freshGame_mapped⟩

theorem PageReachable.reachable (cw : ℕ) (s : State) (h : PageReachable cw s) :
    Reachable cw s := by
  induction h with
  | boot storage draws rest s _ hb => exact Reachable.boot storage draws rest s hb
  | timer s s1 draws rest _ _ _ ht ih => exact Reachable.call s s1 .tick draws rest ih ht
  | handleMoveKey s s1 key draws rest _ _ hk ih =>
    exact Reachable.call s s1 (.handleMoveKey key) draws rest ih hk
  | togglePause s _ ih => exact Reachable.call s _ .togglePause [] [] ih rfl
  | resetGame s s1 draws rest _ _ hr ih => exact Reachable.call s s1 .resetGame draws rest ih hr

/-- Induction over the runs of the page in a browser. -/
theorem PageReachable.page_invariant (cw : ℕ) (P : State → Prop)
    (hboot : ∀ storage pos draws left, ValidDraws draws →
      randomFoodPosition cw (some initialSnake) draws = .ok (pos, left) →
      P (afterReset (loadBestScore (pageLoad storage)) pos))
    (hreset : ∀ s pos draws left, P s → ValidDraws draws →
      randomFoodPosition cw (some initialSnake) draws = .ok (pos, left) →
      P (afterReset s pos))
    (htick : ∀ s s1 draws left, P s → s.timers ≠ [] → ValidDraws draws →
      tick cw s draws = .ok (s1, left) → P s1)
    (hstart : ∀ s pos d draws left, P s → s.started = false → d ∈ unitVectors →
      ValidDraws draws →
      randomFoodPosition cw (some initialSnake) draws = .ok (pos, left) →
      P (afterStart s pos d))
    (hsteer : ∀ s d, P s → s.started = true → s.paused = false → d ∈ unitVectors →
      P (setDirection s d))
    (htoggle : ∀ s, P s → s.started = true → P { s with paused := !s.paused }) :
    ∀ s, PageReachable cw s → P s := by
  intro s hs
  induction hs with
  | boot storage draws rest s hv h =>
    obtain ⟨pos, hr, rfl⟩ := resetGame_cases cw _ s draws rest h
    exact hboot storage pos draws rest hv hr
  | timer s s1 draws rest _ hne hv ht ih => exact htick s s1 draws rest ih hne hv ht
  | handleMoveKey s s1 key draws rest _ hv hrun ih =>
    rcases handleMoveKey_cases cw s s1 key draws rest hrun with
      ⟨-, h1, -⟩ | ⟨d, hd, ⟨hst, pos, hr, h1⟩ | ⟨hst, hpa, h1, -⟩ | ⟨-, -, h1, -⟩⟩
    · rw [h1]; exact ih
    · rw [h1]; exact hstart s pos d draws rest ih hst (directionMap_unit key d hd) hv hr
    · rw [h1]; exact hsteer s d ih hst hpa (directionMap_unit key d hd)
    · rw [h1]; exact ih
  | togglePause s _ ih =>
    rcases togglePause_cases s with ⟨-, h1⟩ | ⟨hst, h1⟩
    · rw [h1]; exact ih
    · rw [h1]; exact htoggle s ih hst
  | resetGame s s1 draws rest _ hv hrun ih =>
    obtain ⟨pos, hr, rfl⟩ := resetGame_cases cw s s1 draws rest hrun
    exact hreset s pos draws rest ih hv hr

theorem TimerOk.shape (s : State) (h : TimerOk s) : TimerShape s := by
  rcases h with ⟨-, id, h0, hg, ht⟩ | ⟨-, ht, hg⟩
  · exact Or.inl ⟨id, _, h0, hg, ht⟩
  · exact Or.inr ⟨ht, hg⟩

theorem stopLoop_clears (s : State) (h : TimerShape s) :
    (stopLoop s).timers = [] ∧ handleActive (stopLoop s).gameInterval = false := by
  refine ⟨?_, stopLoop_inactive s⟩
  rcases h with ⟨id, delay, h0, hg, ht⟩ | ⟨ht, hg⟩
  · unfold stopLoop
    have hb : (id != 0) = true := by simpa using h0
    simp [hg, hb, ht]
  · unfold stopLoop
    cases hgi : s.gameInterval with
    | none => simpa using ht
    | some id =>
      rw [hgi] at hg
      simp only [handleActive] at hg
      simp [hg, ht]

theorem startLoop_starts (s : State) (ht : s.timers = [])
    (hg : handleActive s.gameInterval = false) :
    (startLoop s).gameInterval = some (s.lastTimerId + 1) ∧
    (startLoop s).timers = [(s.lastTimerId + 1, s.gameSpeed)] := by
  unfold startLoop
  simp [hg, ht]

theorem afterReset_timerOk (s : State) (pos : Point) (h : TimerShape s) :
    TimerOk (afterReset s pos) := by
  have ha := afterReset_fields s pos
  refine Or.inr ⟨ha.2.2.2.2.2.2.2.1, ?_, ha.2.2.2.2.2.2.2.2.2.2⟩
  unfold afterReset
  refine (stopLoop_clears _ ?_).1
  exact h

theorem afterStart_timerOk (s : State) (pos d : Point) (h : TimerShape s) :
    TimerOk (afterStart s pos d) := by
  have ha := afterStart_fields s pos d
  have hr := afterReset_timerOk s pos h
  rcases hr with ⟨hst, -⟩ | ⟨-, ht, hg⟩
  · rw [(afterReset_fields s pos).2.2.2.2.2.2.2.1] at hst; cases hst
  · have hsd := setDirection_fields { afterReset s pos with started := true } d
    have hstart := startLoop_starts
      (setDirection { afterReset s pos with started := true } d)
      (by rw [hsd.2.2.2.2.2.2.2.2.2.2.1]; exact ht)
      (by rw [hsd.2.2.2.2.2.1]; exact hg)
    refine Or.inl ⟨ha.2.2.2.2.2.2.2.1, _, Nat.succ_ne_zero _, hstart.1, ?_⟩
    unfold afterStart
    rw [hstart.2, (startLoop_fields _).2.2.2.2.2.2.1]

theorem speedUp_timerOk (s : State) (h : TimerOk s) (hst : s.started = true) :
    TimerOk (speedUp s) := by
  unfold speedUp
  split
  · have hshape : TimerShape { s with gameSpeed := max minSpeed (s.gameSpeed - 4) } :=
      TimerOk.shape s h
    have hc := stopLoop_clears _ hshape
    have hs := startLoop_starts _ hc.1 hc.2
    refine Or.inl ⟨?_, _, Nat.succ_ne_zero _, hs.1, ?_⟩
    · rw [(restartLoop_fields _).2.2.2.2.2.2.2.1]; exact hst
    · unfold restartLoop
      rw [hs.2, (startLoop_fields _).2.2.2.2.2.2.1]
  · exact h

theorem tick_keeps_timerOk (cw : ℕ) (s s1 : State) (draws left : List ℚ)
    (hi : TimerOk s) (hne : s.timers ≠ []) (h : tick cw s draws = .ok (s1, left)) :
    TimerOk s1 := by
  have hst : s.started = true := by
    rcases hi with ⟨hst, -⟩ | ⟨-, ht, -⟩
    · exact hst
    · exact absurd ht hne
  rcases tick_cases cw s s1 draws left h with ⟨-, h1, -⟩ | ⟨-, f, r, hs, hcase⟩
  · rw [h1]; exact hi
  · rcases hcase with ⟨-, h1, -⟩ | ⟨-, -, -, h1, -⟩ | ⟨-, -, -, pos, -, h1⟩
    · have hg := gameOver_fields { s with direction := s.nextDirection }
      have hshape : TimerShape { s with direction := s.nextDirection } := TimerOk.shape s hi
      refine Or.inr ⟨?_, ?_, ?_⟩
      · rw [h1]; exact hg.2.2.2.2.2.2.2.1
      · rw [h1]; unfold gameOver
        refine (stopLoop_clears _ ?_).1
        exact hshape
      · rw [h1]; exact hg.2.2.2.2.2.2.2.2.2.2
    · rw [h1]; exact hi
    · rw [h1]
      unfold afterEat
      apply speedUp_timerOk
      · have hrb := recordBest_fields { s with
          direction := s.nextDirection
          snake := aheadOf f s :: s.snake
          score := s.score + 1
          food := pos }
        rcases hi with ⟨_, id, h0, hg, ht⟩ | ⟨hf, -⟩
        · refine Or.inl ⟨?_, id, h0, ?_, ?_⟩
          · rw [hrb.2.2.2.2.2.2.2.1]; exact hst
          · rw [hrb.2.2.2.2.2.1]; exact hg
          · rw [hrb.2.2.2.2.2.2.2.2.2.1, hrb.2.2.2.2.2.2.1]; exact ht
        · rw [hst] at hf; cases hf
      · rw [(recordBest_fields _).2.2.2.2.2.2.2.1]; exact hst

theorem pageReachable_timerOk (cw : ℕ) (s : State) (h : PageReachable cw s) : TimerOk s := by
  refine PageReachable.page_invariant cw TimerOk ?_ ?_ ?_ ?_ ?_ ?_ s h
  · intro storage pos draws left _ _
    apply afterReset_timerOk
    refine Or.inr ⟨?_, ?_⟩
    · unfold loadBestScore pageLoad; simp only; split <;> rfl
    · unfold loadBestScore pageLoad; simp only; split <;> rfl
  · intro s pos draws left hi _ _
    exact afterReset_timerOk s pos (TimerOk.shape s hi)
  · intro s s1 draws left hi hne _ ht
    exact tick_keeps_timerOk cw s s1 draws left hi hne ht
  · intro s pos d draws left hi _ _ _ _
    exact afterStart_timerOk s pos d (TimerOk.shape s hi)
  · intro s d hi hst _ _
    have hf := setDirection_fields s d
    rcases hi with ⟨_, id, h0, hg, ht⟩ | ⟨hfalse, -⟩
    · refine Or.inl ⟨?_, id, h0, ?_, ?_⟩
      · rw [hf.2.2.2.2.2.2.2.1]; exact hst
      · rw [hf.2.2.2.2.2.1]; exact hg
      · rw [hf.2.2.2.2.2.2.2.2.2.2.1, hf.2.2.2.2.2.2.1]; exact ht
    · rw [hst] at hfalse; cases hfalse
  · intro s hi hst
    rcases hi with ⟨_, id, h0, hg, ht⟩ | ⟨hfalse, -⟩
    · exact Or.inl ⟨hst, id, h0, hg, ht⟩
    · rw [hst] at hfalse; cases hfalse

theorem freshGame_page : PageReachable 400 freshGame :=
  PageReachable.boot none [0, 0] [] freshGame (by decide!) boot_freshGame

theorem foodAhead_page : PageReachable 400 foodAhead :=
  PageReachable.handleMoveKey freshGame foodAhead "ArrowRight" [1 / 2, 1 / 2] []
    freshGame_page (by decide!) (by decide!)

theorem foodEaten_page : PageReachable 400 foodEaten :=
  PageReachable.timer foodAhead foodEaten [0, 0] [] foodAhead_page (by decide) (by decide!)
    tick_foodAhead

/-- C14: when `tick` is called only by an active timer, in every reachable state the tick
timer runs exactly when `started` is true, at most one timer is active, and an active timer
is the one `gameInterval` names and has the delay `gameSpeed`. -/
theorem timer_matches_started (cw : ℕ) (s : State) (h : PageReachable cw s) :
    (TimerRunning s ↔ s.started = true) ∧
    (s.timers ≠ [] ↔ s.started = true) ∧
    s.timers.length ≤ 1 ∧
    (∀ t ∈ s.timers, s.gameInterval = some t.1 ∧ t.2 = s.gameSpeed) := by
  rcases pageReachable_timerOk cw s h with ⟨hst, id, h0, hg, ht⟩ | ⟨hst, ht, hg⟩
  · refine ⟨⟨fun _ => hst, fun _ => ⟨id, s.gameSpeed, hg, h0, ?_⟩⟩,
      ⟨fun _ => hst, fun _ => ?_⟩, ?_, ?_⟩
    · rw [ht]; exact List.mem_singleton.2 rfl
    · rw [ht]; exact List.cons_ne_nil _ _
    · rw [ht]; exact le_refl _
    · intro t htm
      rw [ht] at htm
      rw [List.mem_singleton.1 htm]
      exact ⟨hg, rfl⟩
  · refine ⟨⟨fun hr => absurd hr (not_running_of_inactive s hg), fun h1 => ?_⟩,
      ⟨fun hne => absurd ht hne, fun h1 => ?_⟩, ?_, ?_⟩
    · rw [hst] at h1; cases h1
    · rw [hst] at h1; cases h1
    · rw [ht]; exact Nat.zero_le _
    · intro t htm
      rw [ht] at htm
      cases htm

theorem timer_matches_started_witness :
    PageReachable 400 foodEaten ∧
    (TimerRunning foodEaten ↔ foodEaten.started = true) ∧
    (foodEaten.timers ≠ [] ↔ foodEaten.started = true) ∧
    foodEaten.timers.length ≤ 1 ∧
    (∀ t ∈ foodEaten.timers, foodEaten.gameInterval = some t.1 ∧ t.2 = foodEaten.gameSpeed) :=
  ⟨foodEaten_page, timer_matches_started 400 foodEaten foodEaten_page⟩

theorem randomFoodPosition_inGrid (cw : ℕ) (hcw : 0 < tileCount cw) (segs : Option (List Point)) :
    ∀ (draws left : List ℚ) (pos : Point), ValidDraws draws →
      randomFoodPosition cw segs draws = .ok (pos, left) → InGrid cw pos := by
  intro draws
  induction draws using randomFoodPosition.induct cw segs with
  | case1 r1 r2 rest pos hocc ih =>
    intro left pos1 hv h
    rw [randomFoodPosition] at h
    simp only [pos] at hocc
    simp only [hocc, if_true] at h
    refine ih left pos1 ?_ h
    intro r hr
    exact hv r (List.mem_cons_of_mem _ (List.mem_cons_of_mem _ hr))
  | case2 r1 r2 rest pos hocc =>
    intro left pos1 hv h
    rw [randomFoodPosition] at h
    simp only [pos] at hocc
    simp only [hocc] at h
    simp only [Bool.false_eq_true, if_false, Except.ok.injEq, Prod.mk.injEq] at h
    rw [← h.1]
    have h1 := hv r1 (List.mem_cons_self _ _)
    have h2 := hv r2 (List.mem_cons_of_mem _ (List.mem_cons_self _ _))
    have key : ∀ r : ℚ, 0 ≤ r → r < 1 →
        0 ≤ ((⌊r * tileCount cw⌋ : ℤ) : ℚ) ∧ ((⌊r * tileCount cw⌋ : ℤ) : ℚ) < tileCount cw := by
      intro r hr0 hr1
      constructor
      · have : 0 ≤ ⌊r * tileCount cw⌋ := Int.floor_nonneg.2 (mul_nonneg hr0 hcw.le)
        exact_mod_cast this
      · calc ((⌊r * tileCount cw⌋ : ℤ) : ℚ) ≤ r * tileCount cw := Int.floor_le _
          _ < 1 * tileCount cw := by
            exact mul_lt_mul_of_pos_right hr1 hcw
          _ = tileCount cw := one_mul _
    exact ⟨(key r1 h1.1 h1.2).1, (key r1 h1.1 h1.2).2, (key r2 h2.1 h2.2).1,
      (key r2 h2.1 h2.2).2⟩
  | case3 draws hne =>
    intro left pos1 _ h
    rw [randomFoodPosition] at h
    · cases h
    · exact hne

theorem tick_food_cases (cw : ℕ) (s s1 : State) (draws left : List ℚ)
    (h : tick cw s draws = .ok (s1, left)) :
    (s1.food = s.food ∧ (∀ seg ∈ s1.snake, seg ∈ s.snake ∨ seg ≠ s.food)) ∨
    (∃ rest, randomFoodPosition cw (some s1.snake) draws = .ok (s1.food, rest)) := by
  rcases tick_cases cw s s1 draws left h with ⟨-, h1, -⟩ | ⟨-, f, r, hs, hcase⟩
  · left; rw [h1]; exact ⟨rfl, fun seg hseg => Or.inl hseg⟩
  · rcases hcase with ⟨-, h1, -⟩ | ⟨-, -, hne, h1, -⟩ | ⟨-, -, -, pos, hr, h1⟩
    · left
      have hg := gameOver_fields { s with direction := s.nextDirection }
      rw [h1, hg.2.2.2.1, hg.1]
      exact ⟨rfl, fun seg hseg => Or.inl hseg⟩
    · left
      rw [h1]
      refine ⟨rfl, ?_⟩
      intro seg hseg
      rcases List.mem_cons.1 hseg with rfl | hmem
      · exact Or.inr hne
      · exact Or.inl ((List.dropLast_sublist _).subset hmem)
    · right
      have ha := afterEat_fields s (aheadOf f s) pos
      rw [h1, ha.1, ha.2.2.2.1]
      exact ⟨left, hr⟩

theorem reachable_food_free (cw : ℕ) (s : State) (h : Reachable cw s) :
    s.food ∉ s.snake := by
  refine Reachable.invariant cw (fun s => s.food ∉ s.snake) ?_ ?_ ?_ ?_ ?_ ?_ s h
  · intro storage pos draws left hr
    have ha := afterReset_fields (loadBestScore (pageLoad storage)) pos
    rw [ha.1, ha.2.2.2.1]
    exact randomFoodPosition_free cw initialSnake draws left pos hr
  · intro s pos draws left _ hr
    have ha := afterReset_fields s pos
    rw [ha.1, ha.2.2.2.1]
    exact randomFoodPosition_free cw initialSnake draws left pos hr
  · intro s s1 draws left hi ht
    rcases tick_food_cases cw s s1 draws left ht with ⟨hf, hsub⟩ | ⟨rest, hr⟩
    · intro hmem
      rw [hf] at hmem
      rcases hsub _ hmem with h1 | h1
      · exact hi h1
      · exact h1 rfl
    · exact randomFoodPosition_free cw s1.snake draws rest s1.food hr
  · intro s pos d draws left _ _ _ hr
    have ha := afterStart_fields s pos d
    show (afterStart s pos d).food ∉ (afterStart s pos d).snake
    rw [ha.1, ha.2.2.2.1]
    exact randomFoodPosition_free cw initialSnake draws left pos hr
  · intro s d hi _ _ _
    have hf := setDirection_fields s d
    show (setDirection s d).food ∉ (setDirection s d).snake
    rw [hf.1, hf.2.2.1]; exact hi
  · intro s hi _
    exact hi

theorem pageReachable_food_inGrid (cw : ℕ) (hcw : 0 < tileCount cw) (s : State)
    (h : PageReachable cw s) : InGrid cw s.food := by
  refine PageReachable.page_invariant cw (fun s => InGrid cw s.food) ?_ ?_ ?_ ?_ ?_ ?_ s h
  · intro storage pos draws left hv hr
    rw [(afterReset_fields _ pos).2.2.2.1]
    exact randomFoodPosition_inGrid cw hcw _ draws left pos hv hr
  · intro s pos draws left _ hv hr
    rw [(afterReset_fields _ pos).2.2.2.1]
    exact randomFoodPosition_inGrid cw hcw _ draws left pos hv hr
  · intro s s1 draws left hi _ hv ht
    rcases tick_food_cases cw s s1 draws left ht with ⟨hf, -⟩ | ⟨rest, hr⟩
    · rw [hf]; exact hi
    · exact randomFoodPosition_inGrid cw hcw _ draws rest s1.food hv hr
  · intro s pos d draws left _ _ _ hv hr
    show InGrid cw (afterStart s pos d).food
    rw [(afterStart_fields s pos d).2.2.2.1]
    exact randomFoodPosition_inGrid cw hcw _ draws left pos hv hr
  · intro s d hi _ _ _
    show InGrid cw (setDirection s d).food
    rw [(setDirection_fields s d).2.2.1]; exact hi
  · intro s hi _
    exact hi

/-- C15: on a canvas of positive width, in every state the page reaches in a browser the food
cell is inside the grid and on no segment of the snake.  Every position `randomFoodPosition`
returns is off the snake it was called with, and when a tick has eaten, that snake already
has the new head in front. -/
theorem food_in_grid_off_snake (cw : ℕ) (hcw : 0 < tileCount cw) (s : State)
    (h : PageReachable cw s) :
    (0 ≤ (s.food.x : ℚ) ∧ (s.food.x : ℚ) < tileCount cw ∧
      0 ≤ (s.food.y : ℚ) ∧ (s.food.y : ℚ) < tileCount cw) ∧
    (∀ seg ∈ s.snake, ¬ (seg.x = s.food.x ∧ seg.y = s.food.y)) ∧
    (∀ (segs : List Point) (draws left : List ℚ) (pos : Point),
      randomFoodPosition cw (some segs) draws = .ok (pos, left) →
      ∀ seg ∈ segs, ¬ (seg.x = pos.x ∧ seg.y = pos.y)) ∧
    (∀ (draws left : List ℚ) (s1 : State), tick cw s draws = .ok (s1, left) →
      s1.score = s.score + 1 →
      ∃ first rest, s.snake = first :: rest ∧ s1.snake = aheadOf first s :: s.snake ∧
        ∀ seg ∈ aheadOf first s :: s.snake, ¬ (seg.x = s1.food.x ∧ seg.y = s1.food.y)) := by
  have hpt : ∀ (segs : List Point) (p : Point), p ∉ segs →
      ∀ seg ∈ segs, ¬ (seg.x = p.x ∧ seg.y = p.y) := by
    intro segs p hp seg hseg heq
    apply hp
    have : seg = p := by
      cases seg; cases p; simp only at heq; rw [heq.1, heq.2]
    rw [← this]; exact hseg
  refine ⟨pageReachable_food_inGrid cw hcw s h,
    hpt _ _ (reachable_food_free cw s (PageReachable.reachable cw s h)), ?_, ?_⟩
  · intro segs draws left pos hr
    exact hpt _ _ (randomFoodPosition_free cw segs draws left pos hr)
  · intro draws left s1 ht hsc
    have hfree := reachable_food_free cw s1
      (Reachable.call s s1 .tick draws left (PageReachable.reachable cw s h) ht)
    rcases tick_cases cw s s1 draws left ht with ⟨-, h1, -⟩ | ⟨-, f, r, hs, hcase⟩
    · rw [h1] at hsc; omega
    · rcases hcase with ⟨-, h1, -⟩ | ⟨-, -, -, h1, -⟩ | ⟨-, -, -, pos, -, h1⟩
      · rw [h1, (gameOver_fields _).2.2.2.2.1] at hsc
        simp only at hsc; omega
      · rw [h1] at hsc; simp only at hsc; omega
      · have ha := afterEat_fields s (aheadOf f s) pos
        refine ⟨f, r, hs, by rw [h1, ha.1], ?_⟩
        have hsn : s1.snake = aheadOf f s :: s.snake := by rw [h1, ha.1]
        rw [hsn] at hfree
        exact hpt _ _ hfree

theorem food_in_grid_off_snake_witness :
    0 < tileCount 400 ∧ PageReachable 400 foodEaten ∧
    (0 ≤ (foodEaten.food.x : ℚ) ∧ (foodEaten.food.x : ℚ) < tileCount 400 ∧
      0 ≤ (foodEaten.food.y : ℚ) ∧ (foodEaten.food.y : ℚ) < tileCount 400) ∧
    (∀ seg ∈ foodEaten.snake, ¬ (seg.x = foodEaten.food.x ∧ seg.y = foodEaten.food.y)) :=
  ⟨by decide!, foodEaten_page,
   (food_in_grid_off_snake 400 (by decide!) foodEaten foodEaten_page).1,
   (food_in_grid_off_snake 400 (by decide!) foodEaten foodEaten_page).2.1⟩

theorem randomFoodPosition_error (cw : ℕ) (segs : Option (List Point)) :
    ∀ (draws : List ℚ) (e : Fault),
      randomFoodPosition cw segs draws = .error e → e = Fault.starved := by
  intro draws
  induction draws using randomFoodPosition.induct cw segs with
  | case1 r1 r2 rest pos hocc ih =>
    intro e h
    rw [randomFoodPosition] at h
    simp only [pos] at hocc
    simp only [hocc, if_true] at h
    exact ih e h
  | case2 r1 r2 rest pos hocc =>
    intro e h
    rw [randomFoodPosition] at h
    simp only [pos] at hocc
    simp only [hocc] at h
    simp at h
  | case3 draws hne =>
    intro e h
    rw [randomFoodPosition] at h
    · cases h; rfl
    · exact hne

theorem randomFoodPosition_hit (cw : ℕ) (hcw : 0 < tileCount cw) (segs : List Point)
    (p : Point) (hg : InGrid cw p) (hp : p ∉ segs) :
    ValidDraws [(p.x : ℚ) / tileCount cw, (p.y : ℚ) / tileCount cw] ∧
    randomFoodPosition cw (some segs) [(p.x : ℚ) / tileCount cw, (p.y : ℚ) / tileCount cw]
      = .ok (p, []) := by
  obtain ⟨hx0, hx1, hy0, hy1⟩ := hg
  have hne : tileCount cw ≠ 0 := ne_of_gt hcw
  constructor
  · intro r hr
    simp only [List.mem_cons, List.mem_singleton, List.not_mem_nil, or_false] at hr
    rcases hr with rfl | rfl
    · exact ⟨div_nonneg hx0 hcw.le, (div_lt_one hcw).2 hx1⟩
    · exact ⟨div_nonneg hy0 hcw.le, (div_lt_one hcw).2 hy1⟩
  · rw [randomFoodPosition]
    simp only [div_mul_cancel₀ _ hne, Int.floor_intCast]
    rw [if_neg]
    intro hocc
    exact hp ((occupied_some_iff segs p).1 hocc)

theorem randomFoodPosition_full (cw : ℕ) (hcw : 0 < tileCount cw) (segs : List Point)
    (hfull : ∀ p, InGrid cw p → p ∈ segs) (draws : List ℚ) (hv : ValidDraws draws) :
    randomFoodPosition cw (some segs) draws = .error .starved := by
  cases hr : randomFoodPosition cw (some segs) draws with
  | error e => rw [randomFoodPosition_error cw _ draws e hr]
  | ok res =>
    obtain ⟨pos, left⟩ := res
    exact absurd (hfull pos (randomFoodPosition_inGrid cw hcw _ draws left pos hv hr))
      (randomFoodPosition_free cw segs draws left pos hr)

theorem validDraws_firstDraws (σ : ℕ → ℚ) (hσ : ∀ i, 0 ≤ σ i ∧ σ i < 1) (n : ℕ) :
    ValidDraws (firstDraws σ n) := by
  intro r hr
  simp only [firstDraws, List.mem_map] at hr
  obtain ⟨i, -, rfl⟩ := hr
  exact hσ i

/-- C20: on a canvas of positive width, with the values of `Math.random()` taken from
`[0, 1)`, `randomFoodPosition` returns for some values exactly when a cell of the grid is
off the snake.  When the snake is on every cell the loop uses up whatever values it is
given, however many of a sequence, and the tick that eats the food on the last free cell
does the same: it never returns. -/
theorem food_loop_terminates_iff (cw : ℕ) (hcw : 0 < tileCount cw) :
    (∀ segs : List Point,
      (∃ draws pos left, ValidDraws draws ∧
        randomFoodPosition cw (some segs) draws = .ok (pos, left)) ↔
      (∃ p, InGrid cw p ∧ p ∉ segs)) ∧
    (∀ segs : List Point, (∀ p, InGrid cw p → p ∈ segs) →
      (∀ draws, ValidDraws draws →
        randomFoodPosition cw (some segs) draws = .error .starved) ∧
      (∀ σ : ℕ → ℚ, (∀ i, 0 ≤ σ i ∧ σ i < 1) → ∀ n,
        randomFoodPosition cw (some segs) (firstDraws σ n) = .error .starved)) ∧
    (∀ (s : State) (first : Point) (rest : List Point),
      s.paused = false → s.snake = first :: rest →
      InGrid cw (aheadOf first s) → aheadOf first s ∉ s.snake → aheadOf first s = s.food →
      (∀ p, InGrid cw p → p ∈ aheadOf first s :: s.snake) →
      (∀ draws, ValidDraws draws → tick cw s draws = .error .starved) ∧
      (∀ σ : ℕ → ℚ, (∀ i, 0 ≤ σ i ∧ σ i < 1) → ∀ n,
        tick cw s (firstDraws σ n) = .error .starved)) := by
  refine ⟨?_, ?_, ?_⟩
  · intro segs
    constructor
    · rintro ⟨draws, pos, left, hv, hr⟩
      exact ⟨pos, randomFoodPosition_inGrid cw hcw _ draws left pos hv hr,
        randomFoodPosition_free cw segs draws left pos hr⟩
    · rintro ⟨p, hg, hp⟩
      have h := randomFoodPosition_hit cw hcw segs p hg hp
      exact ⟨_, p, [], h.1, h.2⟩
  · intro segs hfull
    exact ⟨fun draws hv => randomFoodPosition_full cw hcw segs hfull draws hv,
      fun σ hσ n => randomFoodPosition_full cw hcw segs hfull _
        (validDraws_firstDraws σ hσ n)⟩
  · intro s first rest hp hs hg hn hf hfull
    have key : ∀ draws, ValidDraws draws → tick cw s draws = .error .starved := by
      intro draws hv
      rw [tick_eat cw s draws first rest hp hs hg hn hf,
        randomFoodPosition_full cw hcw _ hfull draws hv]
    exact ⟨key, fun σ hσ n => key _ (validDraws_firstDraws σ hσ n)⟩

theorem lastCell_full : ∀ p, InGrid 220 p →
    p ∈ aheadOf ⟨1, 0⟩ lastCell :: lastCell.snake := by
  intro p hg
  have htc : tileCount 220 = 11 := by norm_num [tileCount, gridSize]
  obtain ⟨x, y⟩ := p
  unfold InGrid at hg
  rw [htc] at hg
  simp only at hg
  obtain ⟨hx0, hx1, hy0, hy1⟩ := hg
  have hx0' : 0 ≤ x := by exact_mod_cast hx0
  have hx1' : x < 11 := by exact_mod_cast hx1
  have hy0' : 0 ≤ y := by exact_mod_cast hy0
  have hy1' : y < 11 := by exact_mod_cast hy1
  interval_cases x <;> interval_cases y <;> decide!

theorem food_loop_terminates_iff_witness :
    0 < tileCount 220 ∧
    tick 220 lastCell [0, 0, 1 / 2, 1 / 2] = .error .starved ∧
    ((∃ draws pos left, ValidDraws draws ∧
        randomFoodPosition 220 (some initialSnake) draws = .ok (pos, left)) ↔
      (∃ p, InGrid 220 p ∧ p ∉ initialSnake)) :=
  ⟨by decide!,
   ((food_loop_terminates_iff 220 (by decide!)).2.2 lastCell ⟨1, 0⟩ lastCell.snake.tail
      rfl (by decide!) (by decide!) (by decide!) (by decide!) lastCell_full).1
      [0, 0, 1 / 2, 1 / 2] (by decide!),
   (food_loop_terminates_iff 220 (by decide!)).1 initialSnake⟩

theorem loadBestScore_eq (s : State) :
    (loadBestScore s).bestScore = loadedNumber s.storage ∧
    (loadBestScore s).storage = s.storage := by
  unfold loadedNumber loadBestScore pageLoad
  simp only
  constructor <;> split <;> rfl

theorem loadedNumber_not_nan (saved : Option String) : loadedNumber saved ≠ JSNumber.nan := by
  unfold loadedNumber loadBestScore pageLoad
  simp only
  split
  · simp [JSNumber.zero]
  · rename_i h
    intro hn
    apply h
    simp only at hn
    rw [hn]
    rfl

theorem recordBest_bestScore (s : State) :
    (recordBest s).bestScore = s.bestScore ∨
    ((recordBest s).bestScore = JSNumber.ofNat s.score ∧
      (recordBest s).storage = some (numberToString (JSNumber.ofNat s.score))) := by
  unfold recordBest
  split
  · right; exact ⟨rfl, rfl⟩
  · left; rfl

theorem recordBest_storage (s : State) :
    ((recordBest s).bestScore = s.bestScore ∧ (recordBest s).storage = s.storage) ∨
    ((recordBest s).bestScore = JSNumber.ofNat s.score ∧
      (recordBest s).storage = some (numberToString (JSNumber.ofNat s.score))) := by
  unfold recordBest
  split
  · right; exact ⟨rfl, rfl⟩
  · left; exact ⟨rfl, rfl⟩

/-- What a call that returns can do to the best score and its stored copy: leave both, or
set the best score to a positive whole number and store its string. -/
theorem call_bestScore (cw : ℕ) (s s1 : State) (c : Call) (draws left : List ℚ)
    (h : c.run cw s draws = .ok (s1, left)) :
    (s1.bestScore = s.bestScore ∧ s1.storage = s.storage) ∨
    (∃ n : ℕ, 1 ≤ n ∧ s1.bestScore = JSNumber.ofNat n ∧
      s1.storage = some (numberToString (JSNumber.ofNat n))) := by
  cases c with
  | tick =>
    rcases tick_cases cw s s1 draws left h with ⟨-, h1, -⟩ | ⟨-, f, r, hs, hcase⟩
    · left; rw [h1]; exact ⟨rfl, rfl⟩
    · rcases hcase with ⟨-, h1, -⟩ | ⟨-, -, -, h1, -⟩ | ⟨-, -, -, pos, -, h1⟩
      · have hg := gameOver_fields { s with direction := s.nextDirection }
        left; rw [h1]; exact ⟨hg.2.2.2.2.2.1, hg.2.2.2.2.2.2.2.2.2.1⟩
      · left; rw [h1]; exact ⟨rfl, rfl⟩
      · rw [h1]
        unfold afterEat
        rw [(speedUp_fields _).2.2.2.2.2.1, (speedUp_fields _).2.2.2.2.2.2.2.2]
        rcases recordBest_storage { s with
          direction := s.nextDirection
          snake := aheadOf f s :: s.snake
          score := s.score + 1
          food := pos } with h2 | h2
        · left; exact h2
        · right; exact ⟨s.score + 1, Nat.le_add_left 1 _, h2⟩
  | handleMoveKey key =>
    left
    rcases handleMoveKey_cases cw s s1 key draws left h with
      ⟨-, h1, -⟩ | ⟨d, -, ⟨-, pos, -, h1⟩ | ⟨-, -, h1, -⟩ | ⟨-, -, h1, -⟩⟩
    · rw [h1]; exact ⟨rfl, rfl⟩
    · have ha := afterStart_fields s pos d
      rw [h1]; exact ⟨ha.2.2.2.2.2.1, ha.2.2.2.2.2.2.2.2.2⟩
    · have hf := setDirection_fields s d
      rw [h1]; exact ⟨hf.2.2.2.2.1, hf.2.2.2.2.2.2.2.2.2.1⟩
    · rw [h1]; exact ⟨rfl, rfl⟩
  | togglePause =>
    left
    simp only [Call.run, Except.ok.injEq, Prod.mk.injEq] at h
    rw [← h.1]
    rcases togglePause_cases s with ⟨-, h1⟩ | ⟨-, h1⟩ <;> rw [h1] <;> exact ⟨rfl, rfl⟩
  | resetGame =>
    left
    obtain ⟨pos, -, rfl⟩ := resetGame_cases cw s s1 draws left h
    have ha := afterReset_fields s pos
    exact ⟨ha.2.2.2.2.2.1, ha.2.2.2.2.2.2.2.2.2.1⟩

theorem boot_bestScore (cw : ℕ) (saved : Option String) (draws left : List ℚ) (s : State)
    (h : boot cw saved draws = .ok (s, left)) :
    s.bestScore = loadedNumber saved ∧ s.storage = saved := by
  obtain ⟨pos, -, rfl⟩ := resetGame_cases cw _ s draws left h
  have ha := afterReset_fields (loadBestScore (pageLoad saved)) pos
  rw [ha.2.2.2.2.2.1, ha.2.2.2.2.2.2.2.2.2.1]
  exact ⟨rfl, (loadBestScore_eq (pageLoad saved)).2⟩

theorem runCalls_bestScore (cw : ℕ) (loaded : JSNumber) (calls : List Call) :
    ∀ (s s1 : State) (draws left : List ℚ),
      (s.bestScore = loaded ∨ ∃ n : ℕ, 1 ≤ n ∧ s.bestScore = JSNumber.ofNat n) →
      runCalls cw s draws calls = .ok (s1, left) →
      (s1.bestScore = loaded ∨ ∃ n : ℕ, 1 ≤ n ∧ s1.bestScore = JSNumber.ofNat n) := by
  induction calls with
  | nil =>
    intro s s1 draws left hs h
    simp only [runCalls, Except.ok.injEq, Prod.mk.injEq] at h
    rw [← h.1]; exact hs
  | cons c cs ih =>
    intro s s1 draws left hs h
    rw [runCalls] at h
    cases hc : c.run cw s draws with
    | error e => rw [hc] at h; cases h
    | ok res =>
      obtain ⟨s2, rest⟩ := res
      rw [hc] at h
      refine ih s2 s1 rest left ?_ h
      rcases call_bestScore cw s s2 c draws rest hc with ⟨h1, -⟩ | ⟨n, hn, h1, -⟩
      · rw [h1]; exact hs
      · exact Or.inr ⟨n, hn, h1⟩

theorem negativeBest_page : PageReachable 400 negativeBest :=
  PageReachable.boot (some "-5") [0, 0] [] negativeBest (by decide!) (by decide!)

/-- C12 as stated fails: with the string `"-5"` in the storage the page loads into a state
whose best score is `-5`, which is not a non-negative whole number. -/
theorem stored_negative_best_score :
    boot 400 (some "-5") [0, 0] = .ok (negativeBest, []) ∧
    PageReachable 400 negativeBest ∧
    negativeBest.bestScore = JSNumber.fin (-5) ∧ ¬ IsNatural negativeBest.bestScore := by
  refine ⟨by decide!, negativeBest_page, rfl, ?_⟩
  rintro ⟨n, hn⟩
  have h5 : ((-5 : ℚ)) = (n : ℚ) := by
    have := hn
    simp only [negativeBest, JSNumber.ofNat, JSNumber.fin.injEq] at this
    exact this
  have hpos : (0 : ℚ) ≤ (n : ℚ) := Nat.cast_nonneg n
  linarith

theorem loadedNumber_of_natural (str : String) (n : ℕ)
    (h : toNumber str = JSNumber.ofNat n) : loadedNumber (some str) = JSNumber.ofNat n := by
  unfold loadedNumber loadBestScore pageLoad
  simp only
  by_cases he : str = ""
  · subst he
    have h0 : toNumber "" = JSNumber.ofNat 0 := by decide!
    have hn : JSNumber.ofNat n = JSNumber.ofNat 0 := by rw [← h, h0]
    rw [hn]
    simp [JSNumber.zero, JSNumber.ofNat, JSNumber.isNaN]
  · simp [he, h, JSNumber.ofNat, JSNumber.isNaN]

/-- C12, amended: whatever the storage holds, after the page has loaded and after any
sequence of calls the best score is never `NaN`, and it is either the value `loadBestScore`
gave it or a positive whole number.  It is a non-negative whole number whenever the key is
absent, empty or unparsable (it then starts at `0`), and whenever the stored string denotes
a non-negative whole number not above `2 ^ 53` (it then starts at that number).  The score
is a natural number by its type: it starts at `0` and is only ever increased by one. -/
theorem bestScore_loaded_or_positive (cw : ℕ) (saved : Option String)
    (draws0 left0 : List ℚ) (s0 : State) (h0 : boot cw saved draws0 = .ok (s0, left0))
    (calls : List Call) (draws left : List ℚ) (s : State)
    (h : runCalls cw s0 draws calls = .ok (s, left)) :
    s.bestScore ≠ JSNumber.nan ∧
    (s.bestScore = s0.bestScore ∨ ∃ n : ℕ, 1 ≤ n ∧ s.bestScore = JSNumber.ofNat n) ∧
    ((saved = none ∨ saved = some "" ∨ ∃ str, saved = some str ∧ toNumber str = JSNumber.nan) →
      s0.bestScore = JSNumber.ofNat 0 ∧ IsNatural s.bestScore) ∧
    (∀ (str : String) (n : ℕ), saved = some str → toNumber str = JSNumber.ofNat n →
      n ≤ 2 ^ 53 → s0.bestScore = JSNumber.ofNat n ∧ IsNatural s.bestScore) ∧
    0 ≤ (s.score : ℤ) := by
  have hb := (boot_bestScore cw saved draws0 left0 s0 h0).1
  have hi := runCalls_bestScore cw s0.bestScore calls s0 s draws left (Or.inl rfl) h
  have hnat : ∀ n : ℕ, s0.bestScore = JSNumber.ofNat n → IsNatural s.bestScore := by
    intro n hl
    rcases hi with h1 | ⟨m, -, h1⟩
    · exact ⟨n, by rw [h1, hl]⟩
    · exact ⟨m, h1⟩
  refine ⟨?_, hi, ?_, ?_, Int.natCast_nonneg _⟩
  · rcases hi with h1 | ⟨n, -, h1⟩
    · rw [h1, hb]; exact loadedNumber_not_nan saved
    · rw [h1]; intro hn; cases hn
  · intro hsaved
    have hl : s0.bestScore = JSNumber.ofNat 0 := by
      rw [hb]
      have hz : loadedNumber saved = JSNumber.fin 0 := by
        unfold loadedNumber
        rcases hsaved with h1 | h1 | ⟨str, h1, h2⟩
        · rw [h1]; rfl
        · rw [h1]; rfl
        · exact loadBestScore_of_nan _ str (by rw [h1]; rfl) h2
      rw [hz]
      simp [JSNumber.ofNat]
    exact ⟨hl, hnat 0 hl⟩
  · intro str n hs hn _
    have hl : s0.bestScore = JSNumber.ofNat n := by
      rw [hb, hs]; exact loadedNumber_of_natural str n hn
    exact ⟨hl, hnat n hl⟩

theorem bestScore_loaded_or_positive_witness :
    boot 400 (some "-5") [0, 0] = .ok (negativeBest, []) ∧
    runCalls 400 negativeBest [1 / 2, 1 / 2, 0, 0] [.handleMoveKey "ArrowRight", .tick]
      = .ok (foodEaten, []) ∧
    foodEaten.bestScore ≠ JSNumber.nan ∧
    (foodEaten.bestScore = negativeBest.bestScore ∨
      ∃ n : ℕ, 1 ≤ n ∧ foodEaten.bestScore = JSNumber.ofNat n) :=
  ⟨by decide!, by decide!,
   (bestScore_loaded_or_positive 400 (some "-5") [0, 0] [] negativeBest (by decide!)
      [.handleMoveKey "ArrowRight", .tick] [1 / 2, 1 / 2, 0, 0] [] foodEaten
      (by decide!)).1,
   (bestScore_loaded_or_positive 400 (some "-5") [0, 0] [] negativeBest (by decide!)
      [.handleMoveKey "ArrowRight", .tick] [1 / 2, 1 / 2, 0, 0] [] foodEaten
      (by decide!)).2.1⟩

theorem toDigitsCore_append (fuel : ℕ) :
    ∀ (n : ℕ) (ds : List Char),
      Nat.toDigitsCore 10 fuel n ds = Nat.toDigitsCore 10 fuel n [] ++ ds := by
  induction fuel with
  | zero => intro n ds; simp [Nat.toDigitsCore]
  | succ fuel ih =>
    intro n ds
    simp only [Nat.toDigitsCore]
    split
    · simp
    · rw [ih (n / 10) (_ :: ds), ih (n / 10) [_]]
      simp

theorem toDigitsCore_fuel (fuel : ℕ) :
    ∀ (n : ℕ), n < fuel →
      Nat.toDigitsCore 10 fuel n [] =
        if n < 10 then [Nat.digitChar n]
        else Nat.toDigitsCore 10 n (n / 10) [] ++ [Nat.digitChar (n % 10)] := by
  induction fuel using Nat.strong_induction_on with
  | _ fuel ih =>
    intro n hn
    cases fuel with
    | zero => omega
    | succ fuel =>
      simp only [Nat.toDigitsCore]
      by_cases h10 : n < 10
      · have h0 : n / 10 = 0 := by omega
        have hm : n % 10 = n := by omega
        simp [h0, h10, hm]
      · have h0 : ¬ n / 10 = 0 := by omega
        rw [if_neg h0, if_neg h10, toDigitsCore_append]
        congr 1
        have hlt : n / 10 < fuel := by omega
        have hlt2 : n / 10 < n := by omega
        rw [ih fuel (Nat.lt_succ_self _) (n / 10) hlt, ih n hn (n / 10) hlt2]

theorem digitChars_rec (n : ℕ) :
    digitChars n =
      if n < 10 then [Nat.digitChar n]
      else digitChars (n / 10) ++ [Nat.digitChar (n % 10)] := by
  unfold digitChars Nat.toDigits
  rw [toDigitsCore_fuel (n + 1) n (Nat.lt_succ_self _)]
  by_cases h10 : n < 10
  · simp [h10]
  · rw [if_neg h10, if_neg h10]
    congr 1
    have h1 := toDigitsCore_fuel n (n / 10) (by omega)
    have h2 := toDigitsCore_fuel (n / 10 + 1) (n / 10) (Nat.lt_succ_self _)
    rw [h1, h2]

theorem digitChar_isDigit (m : ℕ) (h : m < 10) :
    IsDigitChar (Nat.digitChar m) ∧ (Nat.digitChar m).toNat = 48 + m := by
  interval_cases m <;> decide

theorem digitValue_of_isDigit (c : Char) (h : IsDigitChar c) :
    digitValue 10 c = some (c.toNat - 48) := by
  unfold IsDigitChar at h
  unfold digitValue
  simp only [h, and_self, if_true]
  have : c.toNat - 48 < 10 := by omega
  simp [this]

theorem digitChars_isDigit (n : ℕ) : ∀ c ∈ digitChars n, IsDigitChar c := by
  induction n using Nat.strong_induction_on with
  | _ n ih =>
    intro c hc
    rw [digitChars_rec] at hc
    split at hc
    · rename_i h10
      rw [List.mem_singleton.1 hc]
      exact (digitChar_isDigit n h10).1
    · rcases List.mem_append.1 hc with h1 | h1
      · exact ih (n / 10) (by omega) c h1
      · rw [List.mem_singleton.1 h1]
        exact (digitChar_isDigit (n % 10) (by omega)).1

theorem decimalValue_append_digit (cs : List Char) (c : Char) (h : IsDigitChar c) :
    decimalValue (cs ++ [c]) = decimalValue cs * 10 + (c.toNat - 48) := by
  unfold decimalValue
  rw [List.foldl_append]
  simp [digitValue_of_isDigit c h]

theorem decimalValue_digitChars (n : ℕ) : decimalValue (digitChars n) = n := by
  induction n using Nat.strong_induction_on with
  | _ n ih =>
    rw [digitChars_rec]
    split
    · rename_i h10
      have hd := digitChar_isDigit n h10
      have := decimalValue_append_digit [] _ hd.1
      simp only [List.nil_append] at this
      rw [this, hd.2]
      simp [decimalValue]
    · have hd := digitChar_isDigit (n % 10) (by omega)
      rw [decimalValue_append_digit _ _ hd.1, ih (n / 10) (by omega), hd.2]
      omega

theorem digitChars_head (n : ℕ) (h : 1 ≤ n) :
    ∃ c rest, digitChars n = c :: rest ∧ 49 ≤ c.toNat ∧ c.toNat ≤ 57 := by
  induction n using Nat.strong_induction_on with
  | _ n ih =>
    rw [digitChars_rec]
    split
    · rename_i h10
      have hd := digitChar_isDigit n h10
      exact ⟨_, [], rfl, by omega, hd.1.2⟩
    · obtain ⟨c, rest, hc, h1, h2⟩ := ih (n / 10) (by omega) (by omega)
      exact ⟨c, rest ++ [Nat.digitChar (n % 10)], by rw [hc]; rfl, h1, h2⟩

theorem stripZeros_spec (fuel : ℕ) :
    ∀ (m : ℕ), m = (stripZeros fuel m).1 * 10 ^ (stripZeros fuel m).2 ∧
      (1 ≤ m → 1 ≤ (stripZeros fuel m).1) := by
  induction fuel with
  | zero => intro m; simp [stripZeros]
  | succ fuel ih =>
    intro m
    unfold stripZeros
    split
    · rename_i h
      obtain ⟨h1, h2⟩ := ih (m / 10)
      simp only
      constructor
      · rw [pow_succ, ← mul_assoc, ← h1]
        omega
      · intro _
        exact h2 (by omega)
    · simp

theorem decimalValue_append_zeros (cs : List Char) (t : ℕ) :
    decimalValue (cs ++ List.replicate t '0') = decimalValue cs * 10 ^ t := by
  induction t with
  | zero => simp
  | succ t ih =>
    rw [List.replicate_succ', ← List.append_assoc,
      decimalValue_append_digit _ _ (by decide), ih, pow_succ]
    simp [mul_assoc]

theorem not_whiteSpace_of_isDigit (c : Char) (h : IsDigitChar c) :
    isStrWhiteSpace c = false := by
  unfold IsDigitChar at h
  unfold isStrWhiteSpace
  simp only [Bool.or_eq_false_iff, decide_eq_false_iff_not, Bool.and_eq_false_iff]
  refine ⟨⟨⟨⟨⟨⟨⟨⟨⟨⟨⟨⟨⟨⟨?_, ?_⟩, ?_⟩, ?_⟩, ?_⟩, ?_⟩, ?_⟩, ?_⟩, ?_⟩, ?_⟩, ?_⟩, ?_⟩, ?_⟩, ?_⟩, ?_⟩ <;>
    omega

theorem trim_of_ends (cs : List Char) (c l : Char) (hc : cs.head? = some c)
    (hl : cs.getLast? = some l) (hcw : isStrWhiteSpace c = false)
    (hlw : isStrWhiteSpace l = false) : trimStrWhiteSpace cs = cs := by
  unfold trimStrWhiteSpace
  have h1 : cs.dropWhile isStrWhiteSpace = cs := by
    cases cs with
    | nil => rfl
    | cons a as =>
      simp only [List.head?_cons, Option.some.injEq] at hc
      rw [List.dropWhile_cons, hc, hcw]
      simp
  rw [h1]
  have h2 : cs.reverse.dropWhile isStrWhiteSpace = cs.reverse := by
    have hh : cs.reverse.head? = some l := by rw [List.head?_reverse]; exact hl
    cases hr : cs.reverse with
    | nil => rfl
    | cons a as =>
      rw [hr] at hh
      simp only [List.head?_cons, Option.some.injEq] at hh
      rw [List.dropWhile_cons, hh, hlw]
      simp
  rw [h2, List.reverse_reverse]

theorem spanDigits_all (ds : List Char) (h : ∀ c ∈ ds, IsDigitChar c) :
    spanDigits ds = (ds, []) := by
  unfold spanDigits
  rw [List.span_eq_take_drop]
  have hp : ∀ c ∈ ds, (digitValue 10 c).isSome = true := by
    intro c hc
    rw [digitValue_of_isDigit c (h c hc)]; rfl
  rw [List.takeWhile_eq_self_iff.2 hp, List.dropWhile_eq_nil_iff.2 hp]

theorem spanDigits_stop (ds : List Char) (c : Char) (rest : List Char)
    (h : ∀ c ∈ ds, IsDigitChar c) (hc : digitValue 10 c = none) :
    spanDigits (ds ++ c :: rest) = (ds, c :: rest) := by
  unfold spanDigits
  rw [List.span_eq_take_drop]
  have hp : ∀ c ∈ ds, (digitValue 10 c).isSome = true := by
    intro c hc
    rw [digitValue_of_isDigit c (h c hc)]; rfl
  have hq : (digitValue 10 c).isSome = false := by rw [hc]; rfl
  induction ds with
  | nil => simp [List.takeWhile_cons, List.dropWhile_cons, hq]
  | cons d ds ih =>
    have hd := hp d (List.mem_cons_self _ _)
    have ih' := ih (fun c hc => h c (List.mem_cons_of_mem _ hc))
      (fun c hc => hp c (List.mem_cons_of_mem _ hc))
    simp only [List.cons_append, List.takeWhile_cons, List.dropWhile_cons, hd, if_true]
    simp only [Prod.mk.injEq] at ih' ⊢
    exact ⟨by rw [ih'.1], ih'.2⟩

theorem digitsValue_append_digit (cs : List Char) (c : Char) (v : ℕ)
    (hcs : digitsValue 10 cs = some v) (h : IsDigitChar c) :
    digitsValue 10 (cs ++ [c]) = some (v * 10 + (c.toNat - 48)) := by
  cases cs with
  | nil => simp [digitsValue] at hcs
  | cons a as =>
    simp only [digitsValue] at hcs ⊢
    simp only [List.cons_append]
    rw [← List.cons_append, List.foldl_append, hcs]
    simp [digitValue_of_isDigit c h]

theorem digitsValue_digitChars (n : ℕ) : digitsValue 10 (digitChars n) = some n := by
  induction n using Nat.strong_induction_on with
  | _ n ih =>
    rw [digitChars_rec]
    split
    · rename_i h10
      have hd := digitChar_isDigit n h10
      simp only [digitsValue, List.foldl_cons, List.foldl_nil,
        digitValue_of_isDigit _ hd.1, hd.2]
      simp
    · have hd := digitChar_isDigit (n % 10) (by omega)
      rw [digitsValue_append_digit _ _ _ (ih (n / 10) (by omega)) hd.1, hd.2]
      congr 1
      omega

theorem parseNumericLiteral_digit (c : Char) (rest : List Char) (h1 : 49 ≤ c.toNat)
    (h2 : c.toNat ≤ 57) :
    parseNumericLiteral (c :: rest) =
      match parseUnsignedDecimal (c :: rest) with
      | some q => .fin q
      | none => .nan := by
  have hne : ∀ d : Char, d.toNat < 49 ∨ 57 < d.toNat → c ≠ d := by
    intro d hd hcd
    rw [hcd] at h1 h2
    omega
  unfold parseNumericLiteral
  split
  all_goals first
    | (rename_i heq
       simp only [List.cons.injEq] at heq
       exact absurd heq.1 (hne _ (by decide)))
    | skip
  rw [if_neg]
  intro heq
  have : c = 'I' := by
    have := congrArg List.head? heq
    simpa using this
  exact hne 'I' (by decide) this

theorem decimalValue_append (xs ys : List Char) (h : ∀ c ∈ ys, IsDigitChar c) :
    decimalValue (xs ++ ys) = decimalValue xs * 10 ^ ys.length + decimalValue ys := by
  induction ys using List.reverseRecOn with
  | nil => simp [decimalValue]
  | append_singleton ys c ih =>
    have hc : IsDigitChar c := h c (by simp)
    have hys : ∀ c ∈ ys, IsDigitChar c := fun d hd => h d (by simp [hd])
    rw [← List.append_assoc, decimalValue_append_digit _ _ hc, ih hys,
      decimalValue_append_digit _ _ hc, List.length_append, List.length_singleton, pow_succ]
    ring

theorem parseUnsignedDecimal_digits (cs : List Char) (hne : cs ≠ [])
    (h : ∀ c ∈ cs, IsDigitChar c) :
    parseUnsignedDecimal cs = some (decimalValue cs : ℚ) := by
  unfold parseUnsignedDecimal
  rw [spanDigits_all cs h]
  simp [hne, parseExponent, decimalValue]

theorem parseExponent_plus (e : ℕ) :
    parseExponent ('e' :: '+' :: digitChars e) = some (e : ℤ) := by
  unfold parseExponent
  simp [digitsValue_digitChars]

theorem parseUnsignedDecimal_exp (d : Char) (hd : IsDigitChar d) (e : ℕ) :
    parseUnsignedDecimal (d :: 'e' :: '+' :: digitChars e) =
      some ((decimalValue [d] : ℚ) * (10 : ℚ) ^ (e : ℤ)) := by
  have hs : spanDigits ([d] ++ 'e' :: '+' :: digitChars e) = ([d], 'e' :: '+' :: digitChars e) :=
    spanDigits_stop [d] 'e' _ (by simpa using hd) (by decide)
  simp only [List.singleton_append] at hs
  unfold parseUnsignedDecimal
  rw [hs]
  simp [parseExponent_plus, decimalValue]

theorem parseUnsignedDecimal_frac_exp (d : Char) (hd : IsDigitChar d) (more : List Char)
    (hm : ∀ c ∈ more, IsDigitChar c) (e : ℕ) :
    parseUnsignedDecimal (d :: '.' :: (more ++ 'e' :: '+' :: digitChars e)) =
      some (((decimalValue [d] : ℚ) + (decimalValue more : ℚ) / (10 : ℚ) ^ more.length) *
        (10 : ℚ) ^ (e : ℤ)) := by
  have hs : spanDigits ([d] ++ '.' :: (more ++ 'e' :: '+' :: digitChars e)) =
      ([d], '.' :: (more ++ 'e' :: '+' :: digitChars e)) :=
    spanDigits_stop [d] '.' _ (by simpa using hd) (by decide)
  have hs2 : spanDigits (more ++ 'e' :: '+' :: digitChars e) =
      (more, 'e' :: '+' :: digitChars e) :=
    spanDigits_stop more 'e' _ hm (by decide)
  simp only [List.singleton_append] at hs
  unfold parseUnsignedDecimal
  rw [hs]
  simp only [hs2]
  simp [parseExponent_plus]

theorem toNumber_of_literal (c : Char) (rest : List Char) (l : Char)
    (h1 : 49 ≤ c.toNat) (h2 : c.toNat ≤ 57)
    (hl : (c :: rest).getLast? = some l) (hld : IsDigitChar l) :
    toNumber (String.mk (c :: rest)) =
      match parseUnsignedDecimal (c :: rest) with
      | some q => .fin q
      | none => .nan := by
  have hc : IsDigitChar c := ⟨by omega, h2⟩
  have ht : trimStrWhiteSpace (c :: rest) = c :: rest :=
    trim_of_ends (c :: rest) c l rfl hl (not_whiteSpace_of_isDigit c hc)
      (not_whiteSpace_of_isDigit l hld)
  unfold toNumber
  simp only [String.toList, ht]
  exact parseNumericLiteral_digit c rest h1 h2

theorem getLast_isDigit (cs : List Char) (hne : cs ≠ []) (h : ∀ c ∈ cs, IsDigitChar c) :
    ∃ l, cs.getLast? = some l ∧ IsDigitChar l := by
  refine ⟨cs.getLast hne, List.getLast?_eq_getLast _ hne, h _ (List.getLast_mem hne)⟩

theorem positiveToString_nat (n : ℕ) :
    positiveToString (n : ℚ) =
      (let ds := digitChars (stripZeros n n).1
       let k : ℤ := ds.length
       let t : ℕ := (stripZeros n n).2
       let nn : ℤ := k + t - (0 : ℕ)
       if -5 ≤ nn ∧ nn ≤ 21 then
         if k ≤ nn then String.mk (ds ++ List.replicate (nn - k).toNat '0')
         else if 0 < nn then String.mk (ds.take nn.toNat ++ '.' :: ds.drop nn.toNat)
         else String.mk ('0' :: '.' :: (List.replicate (-nn).toNat '0' ++ ds))
       else
         let c := nn - 1
         let e := (if 0 ≤ c then '+' else '-') :: digitChars c.natAbs
         match ds with
         | [d] => String.mk (d :: 'e' :: e)
         | d :: more => String.mk (d :: '.' :: (more ++ 'e' :: e))
         | [] => String.mk ('e' :: e)) := by
  have hscale : scaleToInteger (n : ℚ).den (n : ℚ) 0 = (0, n) := by
    have hden : (n : ℚ).den = 1 := Rat.den_natCast n
    rw [hden]
    unfold scaleToInteger
    simp [hden]
  unfold positiveToString
  rw [hscale]

theorem string_mk_ne_empty (c : Char) (rest : List Char) : String.mk (c :: rest) ≠ "" := by
  intro h
  have := congrArg String.data h
  simp at this

/-- The string of a natural number reads back as that number, and is not empty. -/
theorem toNumber_numberToString_nat (n : ℕ) :
    toNumber (numberToString (JSNumber.ofNat n)) = JSNumber.ofNat n ∧
    numberToString (JSNumber.ofNat n) ≠ "" := by
  rcases Nat.eq_zero_or_pos n with rfl | hpos
  · constructor
    · have h0 : numberToString (JSNumber.ofNat 0) = "0" := by
        simp [JSNumber.ofNat, numberToString]
      rw [h0]
      simp only [JSNumber.ofNat, Nat.cast_zero]
      decide!
    · simp [JSNumber.ofNat, numberToString]
  · have hq0 : ¬ ((n : ℚ) = 0) := by
      have : (0 : ℚ) < (n : ℚ) := by exact_mod_cast hpos
      exact ne_of_gt this
    have hqn : ¬ ((n : ℚ) < 0) := by
      have : (0 : ℚ) ≤ (n : ℚ) := Nat.cast_nonneg n
      exact not_lt.2 this
    have hstr : numberToString (JSNumber.ofNat n) = positiveToString (n : ℚ) := by
      simp only [JSNumber.ofNat, numberToString, hq0, hqn, if_false]
    rw [hstr, positiveToString_nat]
    obtain ⟨hsplit, hs1⟩ := stripZeros_spec n n
    have hs1 := hs1 hpos
    generalize (stripZeros n n).1 = s at hsplit hs1 ⊢
    generalize (stripZeros n n).2 = t at hsplit ⊢
    obtain ⟨c, rest, hds, hc1, hc2⟩ := digitChars_head s hs1
    have hdig := digitChars_isDigit s
    have hval := decimalValue_digitChars s
    rw [hds] at hdig hval
    simp only [hds]
    have hcd : IsDigitChar c := hdig c (List.mem_cons_self _ _)
    have hrest : ∀ d ∈ rest, IsDigitChar d := fun d hd => hdig d (List.mem_cons_of_mem _ hd)
    have hnq : (n : ℚ) = (s : ℚ) * (10 : ℚ) ^ t := by
      rw [hsplit]; push_cast; rfl
    by_cases hsmall : -5 ≤ (((c :: rest).length : ℤ) + (t : ℤ) - ((0 : ℕ) : ℤ)) ∧
        (((c :: rest).length : ℤ) + (t : ℤ) - ((0 : ℕ) : ℤ)) ≤ 21
    · rw [if_pos hsmall]
      have hk : ((c :: rest).length : ℤ) ≤
          ((c :: rest).length : ℤ) + (t : ℤ) - ((0 : ℕ) : ℤ) := by
        push_cast; omega
      rw [if_pos hk]
      have ht : (((c :: rest).length : ℤ) + (t : ℤ) - ((0 : ℕ) : ℤ) -
          ((c :: rest).length : ℤ)).toNat = t := by
        push_cast; omega
      rw [ht]
      have hall : ∀ d ∈ (c :: rest) ++ List.replicate t '0', IsDigitChar d := by
        intro d hd
        rcases List.mem_append.1 hd with h1 | h1
        · exact hdig d h1
        · rw [(List.mem_replicate.1 h1).2]; decide
      obtain ⟨l, hl, hld⟩ := getLast_isDigit ((c :: rest) ++ List.replicate t '0')
        (by simp) hall
      simp only [List.cons_append] at hl hall ⊢
      refine ⟨?_, string_mk_ne_empty _ _⟩
      rw [toNumber_of_literal c _ l hc1 hc2 hl hld,
        parseUnsignedDecimal_digits _ (by simp) hall]
      simp only [JSNumber.ofNat]
      congr 1
      rw [← List.cons_append, decimalValue_append_zeros, hval, hnq]
      push_cast
      rfl
    · rw [if_neg hsmall]
      have hbig : 21 < ((c :: rest).length : ℤ) + (t : ℤ) := by
        have : (0 : ℤ) ≤ ((c :: rest).length : ℤ) + (t : ℤ) := by positivity
        by_contra hle
        apply hsmall
        push_cast at hle ⊢
        constructor <;> omega
      have hsign : (0 : ℤ) ≤ ((c :: rest).length : ℤ) + (t : ℤ) - ((0 : ℕ) : ℤ) - 1 := by
        push_cast; push_cast at hbig; omega
      simp only [hsign, if_true]
      have habs : (((c :: rest).length : ℤ) + (t : ℤ) - ((0 : ℕ) : ℤ) - 1).natAbs
          = rest.length + t := by
        simp only [List.length_cons]
        push_cast
        omega
      rw [habs]
      obtain ⟨l, hl, hld⟩ := getLast_isDigit (digitChars (rest.length + t))
        (by
          obtain ⟨c', r', h', -, -⟩ := digitChars_head (rest.length + t)
            (by simp only [List.length_cons] at hbig; push_cast at hbig; omega)
          rw [h']; simp)
        (digitChars_isDigit _)
      cases rest with
      | nil =>
        simp only
        have hlast : (c :: 'e' :: '+' :: digitChars (0 + t)).getLast? = some l := by
          simp only [List.length_nil] at hl
          have : c :: 'e' :: '+' :: digitChars (0 + t) = [c, 'e', '+'] ++ digitChars (0 + t) :=
            rfl
          rw [this, List.getLast?_append, hl]
          rfl
        simp only [List.length_nil] at hlast ⊢
        refine ⟨?_, string_mk_ne_empty _ _⟩
        rw [toNumber_of_literal c _ l hc1 hc2 hlast hld, parseUnsignedDecimal_exp c hcd]
        simp only [JSNumber.ofNat]
        congr 1
        rw [hval, hnq]
        push_cast
        simp [zpow_natCast]
      | cons r rs =>
        simp only
        have hlast : (c :: '.' :: ((r :: rs) ++ 'e' :: '+' ::
            digitChars ((r :: rs).length + t))).getLast? = some l := by
          have : c :: '.' :: ((r :: rs) ++ 'e' :: '+' :: digitChars ((r :: rs).length + t))
              = (c :: '.' :: ((r :: rs) ++ ['e', '+'])) ++
                digitChars ((r :: rs).length + t) := by
            simp
          rw [this, List.getLast?_append, hl]
          rfl
        refine ⟨?_, string_mk_ne_empty _ _⟩
        rw [toNumber_of_literal c _ l hc1 hc2 hlast hld,
          parseUnsignedDecimal_frac_exp c hcd (r :: rs) hrest]
        simp only [JSNumber.ofNat]
        congr 1
        have hv2 : decimalValue (c :: r :: rs) =
            decimalValue [c] * 10 ^ (r :: rs).length + decimalValue (r :: rs) := by
          have := decimalValue_append [c] (r :: rs) hrest
          simpa using this
        rw [hnq, ← hval, hv2]
        push_cast
        rw [zpow_add₀ (by norm_num : (10 : ℚ) ≠ 0), zpow_natCast, zpow_natCast]
        have h10 : ((10 : ℚ) ^ (rs.length + 1)) ≠ 0 := by positivity
        field_simp
        ring

theorem loadedNumber_of_nat (n : ℕ) :
    loadedNumber (some (numberToString (JSNumber.ofNat n))) = JSNumber.ofNat n := by
  obtain ⟨h1, h2⟩ := toNumber_numberToString_nat n
  unfold loadedNumber loadBestScore pageLoad
  simp only [ne_eq, h2, not_false_eq_true, if_true, h1]
  rfl

theorem reachable_storage (cw : ℕ) (s : State) (h : Reachable cw s) :
    loadedNumber s.storage = s.bestScore := by
  induction h with
  | boot storage draws rest s hb =>
    obtain ⟨h1, h2⟩ := boot_bestScore cw storage draws rest s hb
    rw [h1, h2]
  | call s s1 c draws rest _ hrun ih =>
    rcases call_bestScore cw s s1 c draws rest hrun with ⟨h1, h2⟩ | ⟨n, -, h1, h2⟩
    · rw [h1, h2]; exact ih
    · rw [h1, h2]; exact loadedNumber_of_nat n

/-- C11: in every reachable state `loadBestScore` would read from the storage exactly the
best score held in memory, so a page reload restores it: a call that changes `bestScore`
stores `String(bestScore)`, and `Number(String(n)) = n` for every natural number `n`. -/
theorem storage_holds_bestScore (cw : ℕ) (s : State) (h : Reachable cw s) :
    (loadBestScore s).bestScore = s.bestScore ∧
    (∀ (cw1 : ℕ) (draws left : List ℚ) (s1 : State),
      boot cw1 s.storage draws = .ok (s1, left) → s1.bestScore = s.bestScore) ∧
    (∀ (c : Call) (draws left : List ℚ) (s1 : State),
      c.run cw s draws = .ok (s1, left) → s1.bestScore ≠ s.bestScore →
      s1.storage = some (numberToString s1.bestScore)) ∧
    (∀ n : ℕ, toNumber (numberToString (JSNumber.ofNat n)) = JSNumber.ofNat n) := by
  have hs := reachable_storage cw s h
  refine ⟨?_, ?_, ?_, fun n => (toNumber_numberToString_nat n).1⟩
  · rw [(loadBestScore_eq s).1]; exact hs
  · intro cw1 draws left s1 hb
    rw [(boot_bestScore cw1 s.storage draws left s1 hb).1]; exact hs
  · intro c draws left s1 hrun hne
    rcases call_bestScore cw s s1 c draws left hrun with ⟨h1, -⟩ | ⟨n, -, h1, h2⟩
    · exact absurd h1 hne
    · rw [h2, h1]

theorem storage_holds_bestScore_witness :
    Reachable 400 foodEaten ∧ foodEaten.storage = some "1" ∧
    foodEaten.bestScore = JSNumber.fin 1 ∧
    (loadBestScore foodEaten).bestScore = foodEaten.bestScore :=
  ⟨foodEaten_reachable, rfl, rfl,
   (storage_holds_bestScore 400 foodEaten foodEaten_reachable).1⟩

theorem splitSlash_ne_nil (p : List Char) : splitSlash p ≠ [] := by
  cases p with
  | nil => simp [splitSlash]
  | cons c cs =>
    unfold splitSlash
    split
    · simp
    · split <;> simp

theorem splitSlash_no_slash (p : List Char) : ∀ seg ∈ splitSlash p, '/' ∉ seg := by
  induction p with
  | nil => intro seg hseg; simp [splitSlash] at hseg; simp [hseg]
  | cons c cs ih =>
    intro seg hseg
    unfold splitSlash at hseg
    split at hseg
    · rcases List.mem_cons.1 hseg with rfl | h
      · simp
      · exact ih seg h
    · rename_i hc
      split at hseg
      · rename_i s ss hs
        rcases List.mem_cons.1 hseg with rfl | h
        · have := ih s (by rw [hs]; exact List.mem_cons_self _ _)
          intro hmem
          rcases List.mem_cons.1 hmem with h1 | h1
          · exact hc h1.symm
          · exact this h1
        · exact ih seg (by rw [hs]; exact List.mem_cons_of_mem _ h)
      · rename_i hs
        exact absurd hs (splitSlash_ne_nil cs)

theorem splitSlash_slash (cs : List Char) : splitSlash ('/' :: cs) = [] :: splitSlash cs := by
  rw [splitSlash]; simp

theorem splitSlash_other (c : Char) (cs s : List Char) (ss : List (List Char)) (hc : c ≠ '/')
    (hs : splitSlash cs = s :: ss) : splitSlash (c :: cs) = (c :: s) :: ss := by
  rw [splitSlash, if_neg hc, hs]

theorem splitSlash_append (xs ys : List Char) :
    splitSlash (xs ++ '/' :: ys) = splitSlash xs ++ splitSlash ys := by
  induction xs with
  | nil => rw [List.nil_append, splitSlash_slash]; rfl
  | cons c cs ih =>
    simp only [List.cons_append]
    by_cases hc : c = '/'
    · rw [hc, splitSlash_slash, splitSlash_slash, ih]; rfl
    · cases hs : splitSlash cs with
      | nil => exact absurd hs (splitSlash_ne_nil cs)
      | cons s ss =>
        rw [splitSlash_other c cs s ss hc hs,
          splitSlash_other c (cs ++ '/' :: ys) s (ss ++ splitSlash ys) hc (by rw [ih, hs]; rfl)]
        rfl

theorem splitSlash_plain (xs : List Char) (h : '/' ∉ xs) : splitSlash xs = [xs] := by
  induction xs with
  | nil => rfl
  | cons c cs ih =>
    have hc : c ≠ '/' := fun hc => h (by rw [hc]; exact List.mem_cons_self _ _)
    have hcs : '/' ∉ cs := fun hm => h (List.mem_cons_of_mem _ hm)
    unfold splitSlash
    rw [if_neg hc, ih hcs]

theorem components_append (xs ys : List Char) :
    components (xs ++ '/' :: ys) = components xs ++ components ys := by
  unfold components
  rw [splitSlash_append, List.filter_append]

theorem components_nil : components [] = [] := by
  simp [components, splitSlash]

theorem components_slash (xs : List Char) : components ('/' :: xs) = components xs := by
  have := components_append [] xs
  simpa [components_nil] using this

theorem components_plain (xs : List Char) (hne : xs ≠ []) (h : '/' ∉ xs) :
    components xs = [xs] := by
  unfold components
  rw [splitSlash_plain xs h]
  simp [hne]

theorem components_joinSlash (segs : List (List Char)) (h : ∀ seg ∈ segs, CleanSegment seg) :
    components (joinSlash segs) = segs := by
  induction segs with
  | nil => exact components_nil
  | cons s ss ih =>
    have hs := h s (List.mem_cons_self _ _)
    have hss : ∀ seg ∈ ss, CleanSegment seg := fun seg hm => h seg (List.mem_cons_of_mem _ hm)
    cases ss with
    | nil => exact components_plain s hs.1 hs.2.2.2
    | cons s2 ss2 =>
      show components (s ++ '/' :: joinSlash (s2 :: ss2)) = _
      rw [components_append, components_plain s hs.1 hs.2.2.2, ih hss]
      rfl

theorem mem_splitSlash_cases (p : List Char) :
    ∀ seg ∈ splitSlash p, seg = [] ∨ seg ∈ components p := by
  intro seg hseg
  by_cases h : seg = []
  · exact Or.inl h
  · right
    unfold components
    exact List.mem_filter.2 ⟨hseg, by simpa using h⟩

theorem foldl_step_clean (b : Bool) (segs : List (List Char)) :
    ∀ kept : List (List Char), (∀ seg ∈ segs, seg = [] ∨ CleanSegment seg) →
      segs.foldl (normalizeStep b) kept =
        (segs.filter (fun seg => seg ≠ [])).reverse ++ kept := by
  induction segs with
  | nil => intro kept _; rfl
  | cons s ss ih =>
    intro kept h
    have hss : ∀ seg ∈ ss, seg = [] ∨ CleanSegment seg :=
      fun seg hm => h seg (List.mem_cons_of_mem _ hm)
    rw [List.foldl_cons, ih _ hss]
    rcases h s (List.mem_cons_self _ _) with rfl | hc
    · simp [normalizeStep]
    · have h1 : normalizeStep b kept s = s :: kept := by
        unfold normalizeStep
        rw [if_neg (by simp [hc.1, hc.2.1]), if_neg hc.2.2.1]
      rw [h1, List.filter_cons_of_pos (by simpa using hc.1)]
      simp

theorem foldl_step_keeps_clean (segs : List (List Char)) :
    ∀ kept : List (List Char), (∀ seg ∈ segs, '/' ∉ seg) →
      (∀ seg ∈ kept, CleanSegment seg) →
      ∀ seg ∈ segs.foldl (normalizeStep false) kept, CleanSegment seg := by
  induction segs with
  | nil => intro kept _ hk; exact hk
  | cons s ss ih =>
    intro kept hs hk
    rw [List.foldl_cons]
    apply ih _ (fun seg hm => hs seg (List.mem_cons_of_mem _ hm))
    have hsl := hs s (List.mem_cons_self _ _)
    unfold normalizeStep
    split
    · exact hk
    · rename_i h1
      split
      · split
        · split
          · simp only [Bool.false_eq_true, if_false]; exact hk
          · rename_i top below _
            exact fun seg hm => hk seg (List.mem_cons_of_mem _ hm)
        · simp
      · rename_i h2
        intro seg hm
        rcases List.mem_cons.1 hm with rfl | hm
        · rw [not_or] at h1
          exact ⟨h1.1, h1.2, h2, hsl⟩
        · exact hk seg hm

theorem keptSegments_clean (path : List Char) : ∀ seg ∈ keptSegments path, CleanSegment seg := by
  intro seg hseg
  unfold keptSegments at hseg
  rw [List.mem_reverse] at hseg
  exact foldl_step_keeps_clean _ [] (splitSlash_no_slash path) (by simp) seg hseg

theorem keptSegments_of_clean (path : List Char)
    (h : ∀ seg ∈ components path, CleanSegment seg) :
    keptSegments path = components path := by
  unfold keptSegments
  rw [foldl_step_clean]
  · simp [components]
  · intro seg hseg
    rcases mem_splitSlash_cases path seg hseg with h1 | h1
    · exact Or.inl h1
    · exact Or.inr (h seg h1)

theorem joinSlash_eq_nil (segs : List (List Char)) (h : ∀ seg ∈ segs, CleanSegment seg) :
    joinSlash segs = [] ↔ segs = [] := by
  constructor
  · intro hj
    cases segs with
    | nil => rfl
    | cons s ss =>
      have hs := (h s (List.mem_cons_self _ _)).1
      cases ss with
      | nil => exact absurd hj hs
      | cons s2 ss2 =>
        have : s ++ '/' :: joinSlash (s2 :: ss2) = [] := hj
        simp at this
  · rintro rfl; rfl

theorem normalizeChars_absolute (rest : List Char) :
    normalizeChars ('/' :: rest) =
      '/' :: joinSlash (keptSegments ('/' :: rest)) ++
        (if keptSegments ('/' :: rest) ≠ [] ∧ ('/' :: rest).getLast? = some '/'
          then ['/'] else []) := by
  have hclean := keptSegments_clean ('/' :: rest)
  have hnil := joinSlash_eq_nil _ hclean
  have hns : normalizeString ('/' :: rest) false = joinSlash (keptSegments ('/' :: rest)) := rfl
  unfold normalizeChars
  simp only [List.cons_ne_nil, if_false, List.head?_cons, decide_True, Bool.not_true, hns]
  by_cases hk : keptSegments ('/' :: rest) = []
  · rw [if_pos (hnil.2 hk), hk]
    simp [joinSlash]
  · rw [if_neg (fun h => hk (hnil.1 h))]
    by_cases ht : ('/' :: rest).getLast? = some '/'
    · simp [hk, ht]
    · simp [hk, ht]

theorem escapeTokens_slash (rest : List Char) :
    escapeTokens ('/' :: rest) = (escapeTokens rest).map (fun ts => Sum.inl '/' :: ts) := by
  rw [escapeTokens]
  · intro a b r h; cases h
  · intro h; exact absurd h (by decide)

theorem utf8Chars_inl (c : Char) (ts : List (Char ⊕ ℕ)) :
    utf8Chars (Sum.inl c :: ts) = (utf8Chars ts).map (fun cs => c :: cs) := by
  rw [utf8Chars]

theorem decodeURIComponent_slash (urlPath decoded : String) (rest : List Char)
    (hurl : urlPath.toList = '/' :: rest) (hdec : decodeURIComponent urlPath = some decoded) :
    ∃ more : List Char, decoded.toList = '/' :: more := by
  unfold decodeURIComponent at hdec
  rw [hurl, escapeTokens_slash] at hdec
  cases he : escapeTokens rest with
  | none => rw [he] at hdec; simp at hdec
  | some ts =>
    rw [he] at hdec
    simp only [Option.map_some'] at hdec
    rw [utf8Chars_inl] at hdec
    cases hu : utf8Chars ts with
    | none => rw [hu] at hdec; simp at hdec
    | some cs =>
      rw [hu] at hdec
      simp only [Option.map_some', Option.some.injEq] at hdec
      exact ⟨cs, by rw [← hdec]; rfl⟩

theorem stripLeadingDotDot_slash (cs : List Char) :
    stripLeadingDotDot ('/' :: cs) = '/' :: cs := by
  rw [stripLeadingDotDot]
  · intro r h; cases h
  · intro r h; cases h

theorem join_absolute (a b : List Char) :
    join (String.mk ('/' :: a)) (String.mk ('/' :: b)) =
      String.mk (normalizeChars ('/' :: (a ++ '/' :: '/' :: b))) := by
  unfold join normalize
  simp [String.length, List.filter]

/-- Joining a root with a normalised absolute path lists the root's components and then
the path's. -/
theorem join_root_kept (rsegs kept : List (List Char)) (t : List Char)
    (hr : ∀ seg ∈ rsegs, CleanSegment seg) (hk : ∀ seg ∈ kept, CleanSegment seg)
    (ht : t = [] ∨ t = ['/']) :
    keptSegments ('/' :: (joinSlash rsegs ++ '/' :: '/' :: (joinSlash kept ++ t))) =
      rsegs ++ kept := by
  have hcomp : components ('/' :: (joinSlash rsegs ++ '/' :: '/' :: (joinSlash kept ++ t))) =
      rsegs ++ kept := by
    rw [components_slash, components_append, components_slash, components_joinSlash _ hr]
    rcases ht with rfl | rfl
    · rw [List.append_nil, components_joinSlash _ hk]
    · rw [components_append, components_joinSlash _ hk, components_nil, List.append_nil]
  apply (keptSegments_of_clean _ _).trans hcomp
  rw [hcomp]
  intro seg hseg
  rcases List.mem_append.1 hseg with h | h
  · exact hr seg h
  · exact hk seg h

theorem trailingSlash_cases (kept : List (List Char)) (path : List Char) :
    trailingSlash kept path = [] ∨ trailingSlash kept path = ['/'] := by
  unfold trailingSlash
  split
  · exact Or.inr rfl
  · exact Or.inl rfl

theorem trailingSlash_nonempty (kept : List (List Char)) (path : List Char) :
    trailingSlash kept path = [] ∨ (trailingSlash kept path = ['/'] ∧ kept ≠ []) := by
  unfold trailingSlash
  by_cases h : kept ≠ [] ∧ path.getLast? = some '/'
  · rw [if_pos h]; exact Or.inr ⟨rfl, h.1⟩
  · rw [if_neg h]; exact Or.inl rfl

theorem joinSlash_append (xs ys : List (List Char)) (hx : xs ≠ []) (hy : ys ≠ []) :
    joinSlash (xs ++ ys) = joinSlash xs ++ '/' :: joinSlash ys := by
  induction xs with
  | nil => exact absurd rfl hx
  | cons x xs ih =>
    cases xs with
    | nil =>
      cases ys with
      | nil => exact absurd rfl hy
      | cons y ys => rfl
    | cons x2 xs2 =>
      have := ih (by simp)
      show x ++ '/' :: joinSlash (x2 :: xs2 ++ ys) = (x ++ '/' :: joinSlash (x2 :: xs2)) ++ _
      rw [this]; simp

/-- The path `safePath` returns for a request path that decodes to an absolute path: the
components of the root, followed by the components normalisation keeps of the request. -/
theorem safePath_absolute (rsegs : List (List Char)) (hroot : ∀ seg ∈ rsegs, CleanSegment seg)
    (urlPath decoded : String) (more : List Char)
    (hdec : decodeURIComponent urlPath = some decoded) (hmore : decoded.toList = '/' :: more) :
    safePath (rootPath rsegs) urlPath =
      some (String.mk ('/' :: joinSlash (rsegs ++ keptSegments ('/' :: more)) ++
        trailingSlash (rsegs ++ keptSegments ('/' :: more))
          ('/' :: (joinSlash rsegs ++ '/' :: '/' :: (joinSlash (keptSegments ('/' :: more)) ++
            trailingSlash (keptSegments ('/' :: more)) ('/' :: more)))))) := by
  have hk := keptSegments_clean ('/' :: more)
  have ht := trailingSlash_cases (keptSegments ('/' :: more)) ('/' :: more)
  unfold safePath
  rw [hdec]
  simp only
  have hn : (normalize decoded).toList =
      '/' :: (joinSlash (keptSegments ('/' :: more)) ++
        trailingSlash (keptSegments ('/' :: more)) ('/' :: more)) := by
    show normalizeChars decoded.toList = _
    rw [hmore, normalizeChars_absolute]; rfl
  rw [hn, stripLeadingDotDot_slash]
  unfold rootPath
  rw [join_absolute, normalizeChars_absolute, join_root_kept rsegs _ _ hroot hk ht]
  rfl

/-- Claim C17. Let the served root be an absolute path in normal form, given by its components
(none of them empty, `.` or `..`, none containing `/`; no component at all for the root `/`).
For every request path that begins with `/` and that `decodeURIComponent` accepts, `safePath`
returns the components of the root followed by zero or more proper components, none of them
`..`, and at most one closing `/`: the root itself or a path beneath it. For
`/../../etc/passwd` these are the components of the root followed by `etc` and `passwd`; when
the root is not `/` the result is the root followed by `/etc/passwd` and differs from
`/etc/passwd`. -/
theorem safePath_beneath_root (rsegs : List (List Char))
    (hroot : ∀ seg ∈ rsegs, CleanSegment seg) :
    (∀ (urlPath decoded : String) (rest : List Char),
      urlPath.toList = '/' :: rest → decodeURIComponent urlPath = some decoded →
      ∃ (extra : List (List Char)) (tail : List Char),
        (∀ seg ∈ extra, CleanSegment seg) ∧
        (tail = [] ∨ (tail = ['/'] ∧ rsegs ++ extra ≠ [])) ∧
        safePath (rootPath rsegs) urlPath =
          some (String.mk ('/' :: joinSlash (rsegs ++ extra) ++ tail))) ∧
    safePath (rootPath rsegs) "/../../etc/passwd" =
      some (rootPath (rsegs ++ ["etc".toList, "passwd".toList])) ∧
    (rsegs ≠ [] →
      safePath (rootPath rsegs) "/../../etc/passwd" = some (rootPath rsegs ++ "/etc/passwd") ∧
      safePath (rootPath rsegs) "/../../etc/passwd" ≠ some "/etc/passwd") := by
  have hex : safePath (rootPath rsegs) "/../../etc/passwd" =
      some (rootPath (rsegs ++ ["etc".toList, "passwd".toList])) := by
    rw [safePath_absolute rsegs hroot "/../../etc/passwd" "/../../etc/passwd"
      "../../etc/passwd".toList (by decide) rfl]
    have hkept : keptSegments ('/' :: "../../etc/passwd".toList) =
        ["etc".toList, "passwd".toList] := by decide
    have hinner : trailingSlash (keptSegments ('/' :: "../../etc/passwd".toList))
        ('/' :: "../../etc/passwd".toList) = [] := by decide
    rw [hinner, hkept]
    have hlast : ('/' :: (joinSlash rsegs ++ '/' :: '/' ::
        (joinSlash ["etc".toList, "passwd".toList] ++ []))).getLast? = some 'd' := by
      have h : '/' :: (joinSlash rsegs ++ '/' :: '/' ::
          (joinSlash ["etc".toList, "passwd".toList] ++ [])) =
          ('/' :: joinSlash rsegs) ++ "//etc/passwd".toList := by
        simp [joinSlash]
      rw [h, List.getLast?_append]
      rfl
    unfold trailingSlash
    rw [hlast, if_neg (by simp), List.append_nil]
    rfl
  refine ⟨?_, hex, ?_⟩
  · intro urlPath decoded rest hurl hdec
    obtain ⟨more, hmore⟩ := decodeURIComponent_slash urlPath decoded rest hurl hdec
    refine ⟨keptSegments ('/' :: more), _, keptSegments_clean _, ?_,
      safePath_absolute rsegs hroot urlPath decoded more hdec hmore⟩
    exact trailingSlash_nonempty _ _
  · intro hne
    have hjoin : rootPath (rsegs ++ ["etc".toList, "passwd".toList]) =
        rootPath rsegs ++ "/etc/passwd" := by
      unfold rootPath
      rw [joinSlash_append rsegs _ hne (by simp)]
      rfl
    rw [hex, hjoin]
    refine ⟨rfl, ?_⟩
    intro h
    have hlen := congrArg String.length (Option.some.inj h)
    rw [String.length_append] at hlen
    simp [rootPath, String.length] at hlen

/-- Claim C17 at the root `/srv/www`: the requests `/../../etc/passwd` stay beneath it. -/
theorem safePath_beneath_root_witness :
    (∀ seg ∈ ["srv".toList, "www".toList], CleanSegment seg) ∧
    ["srv".toList, "www".toList] ≠ [] ∧
    rootPath ["srv".toList, "www".toList] = "/srv/www" ∧
    safePath (rootPath ["srv".toList, "www".toList]) "/../../etc/passwd" =
      some (rootPath ["srv".toList, "www".toList] ++ "/etc/passwd") ∧
    safePath (rootPath ["srv".toList, "www".toList]) "/../../etc/passwd" ≠ some "/etc/passwd" ∧
    safePath "/srv/www" "/%2e%2e/%2E%2e%2Fetc/%5C..%5cpasswd" =
      some "/srv/www/etc/\\..\\passwd" :=
  ⟨by decide, by decide, by decide,
    ((safePath_beneath_root ["srv".toList, "www".toList] (by decide)).2.2 (by decide)).1,
    ((safePath_beneath_root ["srv".toList, "www".toList] (by decide)).2.2 (by decide)).2,
    by decide⟩

theorem decodeURIComponent_lone_percent : decodeURIComponent "/%" = none := by decide

/-- When the request path decodes, the handler answers: with the file at the resolved path
when that is a regular file, else with the index document when the file system has an entry
for it, else with status 404. -/
theorem handler_of_safePath (root : String) (fs : FileSystem) (requestPathname target : String)
    (h : safePath root (if requestPathname = "/" then "/index.html" else requestPathname) =
      some target) :
    handler root fs requestPathname =
      if fs target = some Entry.file then .ok (sendFile target)
      else if (fs (join root "index.html")).isSome then .ok (sendFile (join root "index.html"))
      else .ok { statusCode := 404
                 contentType := "text/plain; charset=utf-8"
                 body := Body.text "Not Found" } := by
  unfold handler
  simp only [h]
  by_cases hf : fs target = some Entry.file
  · simp [hf]
  · simp [hf]

/-- Claim C18, at the request path `/%`: `decodeURIComponent` rejects the lone `%`, nothing
catches the `URIError`, and the handler ends by throwing it, with no response, whatever the
root and the file system. -/
theorem handler_throws_on_lone_percent (root : String) (fs : FileSystem) :
    handler root fs "/%" = .error Thrown.uriError ∧
    ∀ response : Response, handler root fs "/%" ≠ .ok response := by
  have hs : safePath root "/%" = none := by
    unfold safePath
    rw [decodeURIComponent_lone_percent]
  have h : handler root fs "/%" = .error Thrown.uriError := by
    unfold handler
    rw [if_neg (by decide)]
    simp only [hs]
  refine ⟨h, ?_⟩
  intro response hr
  rw [h] at hr
  cases hr

end Snake
